import Mathlib

/-!
# The bracket-matched tape machine of `examples/0003-bf.c`

A shallow embedding of `jumpFront`, `jumpBack` and `brainfuck`.

Conventions of the embedding.

* The program is a C string: a `List Char` followed by the terminator `'\0'`
  at position `length`.  Reading the program at a position outside
  `[0, length]` is an out-of-bounds read and is a fault of the model.
* `int` is 32 bits wide.  Cell arithmetic (`data[pointer]++`, `data[pointer]--`)
  wraps in two's complement (`wrap32`).  The program counter `index` and the
  data pointer `pointer` are kept as unbounded integers: a run that does not
  fault keeps them far below `2^31` for every program a C `int` can index.
* The tape `static int data[100]` is the `List Int` handed to `brainfuck`: it is
  the content of the static storage at the moment of the call, all zero
  (`zeroTape`) at process start.  Reading or writing it outside `[0, length)`
  is a fault of the model.
* Loops carry a fuel argument.  The fuel of the two bracket scans is fixed by
  the scans themselves (they visit every position at most once); the fuel of the
  main loop is the instruction budget of the run.
-/

namespace BF

/-! ## Machine integers and memory -/

/-- Two's-complement reduction of an integer to the range of a 32-bit `int`. -/
def wrap32 (x : Int) : Int := (x + 2147483648) % 4294967296 - 2147483648

/-- The two kinds of undefined memory access of the C program. -/
inductive Fault where
  | program
  | tape
  deriving DecidableEq

/-- `str[index]`: the program character at `index`, the terminator at
`index = length`, and no value outside `[0, length]`. -/
def fetch (str : List Char) (index : Int) : Option Char :=
  if 0 ≤ index ∧ index < str.length then str[index.toNat]?
  else if index = str.length then some '\x00'
  else none

/-- Read of `data[pointer]`; no value outside the array. -/
def readData (data : List Int) (pointer : Int) : Option Int :=
  if 0 ≤ pointer ∧ pointer < data.length then data[pointer.toNat]? else none

/-- Write of `data[pointer] = v`; no result outside the array. -/
def writeData (data : List Int) (pointer : Int) (v : Int) : Option (List Int) :=
  if 0 ≤ pointer ∧ pointer < data.length then some (data.set pointer.toNat v) else none

/-- The content of `static int data[100]` at process start. -/
def zeroTape : List Int := List.replicate 100 0

/-! ## The bracket scans -/

/-- The `for` loop of `jumpFront`: `count` is the loop variable, `index` the
pointee of the argument.  `none` is an out-of-bounds read of the program. -/
def jumpFrontLoop (str : List Char) : Nat → Int → Int → Option Int
  | 0, _, _ => none
  | fuel + 1, index, count =>
    match fetch str index with
    | none => none
    | some c =>
      if c = '\x00' then some index
      else
        let count1 := if c = '[' then count + 1 else if c = ']' then count - 1 else count
        if count1 = 0 then some index
        else jumpFrontLoop str fuel (index + 1) count1

/-- The function `jumpFront`: the value of `*index` on return. -/
def jumpFront (str : List Char) (index : Int) : Option Int :=
  match fetch str index with
  | none => none
  | some c =>
    if c ≠ '[' then some index
    else jumpFrontLoop str (str.length + 1) index 0

/-- The `for` loop of `jumpBack`. -/
def jumpBackLoop (str : List Char) : Nat → Int → Int → Option Int
  | 0, _, _ => none
  | fuel + 1, index, count =>
    if index < 0 then some index
    else
      match fetch str index with
      | none => none
      | some c =>
        let count1 := if c = '[' then count - 1 else if c = ']' then count + 1 else count
        if count1 = 0 then some index
        else jumpBackLoop str fuel (index - 1) count1

/-- The function `jumpBack`: the value of `*index` on return. -/
def jumpBack (str : List Char) (index : Int) : Option Int :=
  match fetch str index with
  | none => none
  | some c =>
    if c ≠ ']' then some index
    else jumpBackLoop str (str.length + 2) index 0

/-! ## The interpreter loop -/

/-- The local state of `brainfuck` together with the tape. -/
structure Config where
  index : Int
  pointer : Int
  data : List Int
  deriving DecidableEq

/-- The result of one pass through the `switch` statement. -/
inductive Dispatch where
  | ok (c : Config)
  | fault (f : Fault)
  deriving DecidableEq

/-- The `switch (str[index])` statement on the fetched character `ch`. -/
def dispatch (str : List Char) (ch : Char) (c : Config) : Dispatch :=
  if ch = '+' then
    match readData c.data c.pointer with
    | none => .fault .tape
    | some v =>
      match writeData c.data c.pointer (wrap32 (v + 1)) with
      | none => .fault .tape
      | some d => .ok { c with data := d }
  else if ch = '-' then
    match readData c.data c.pointer with
    | none => .fault .tape
    | some v =>
      match writeData c.data c.pointer (wrap32 (v - 1)) with
      | none => .fault .tape
      | some d => .ok { c with data := d }
  else if ch = '>' then .ok { c with pointer := c.pointer + 1 }
  else if ch = '<' then .ok { c with pointer := c.pointer - 1 }
  else if ch = '.' then .ok c
  else if ch = ',' then .ok c
  else if ch = '[' then
    match readData c.data c.pointer with
    | none => .fault .tape
    | some v =>
      if v = 0 then
        match jumpFront str c.index with
        | none => .fault .program
        | some i => .ok { c with index := i }
      else .ok c
  else if ch = ']' then
    match readData c.data c.pointer with
    | none => .fault .tape
    | some v =>
      if v ≠ 0 then
        match jumpBack str c.index with
        | none => .fault .program
        | some i => .ok { c with index := i }
      else .ok c
  else .ok c

/-- The result of one iteration of the main `for` loop. -/
inductive Step where
  | next (c : Config)
  | halt (value : Int)
  | fault (f : Fault)
  deriving DecidableEq

/-- One iteration of the main loop of `brainfuck`: the loop test
`str[index] != '\0'`, the `switch`, and `index++`; when the test fails, the
`return data[pointer]`. -/
def step (str : List Char) (c : Config) : Step :=
  match fetch str c.index with
  | none => .fault .program
  | some ch =>
    if ch = '\x00' then
      match readData c.data c.pointer with
      | none => .fault .tape
      | some v => .halt v
    else
      match dispatch str ch c with
      | .fault f => .fault f
      | .ok c1 => .next { c1 with index := c1.index + 1 }

/-- The outcome of a call of `brainfuck`: the returned value with the tape and
data pointer at the return, a fault, or an exhausted instruction budget. -/
inductive Outcome where
  | returned (value : Int) (data : List Int) (pointer : Int)
  | fault (f : Fault)
  | outOfFuel
  deriving DecidableEq

/-- The main loop of `brainfuck` run for at most `fuel` iterations. -/
def brainfuckLoop (str : List Char) : Nat → Config → Outcome
  | 0, _ => .outOfFuel
  | fuel + 1, c =>
    match step str c with
    | .next c1 => brainfuckLoop str fuel c1
    | .halt v => .returned v c.data c.pointer
    | .fault f => .fault f

/-- The state of `brainfuck` on entry to the main loop: `index = 0` and
`pointer = sizeof(data) / sizeof(int) / 2`. -/
def initConfig (data : List Int) : Config :=
  { index := 0, pointer := ((data.length / 2 : Nat) : Int), data := data }

/-- The function `brainfuck` called while the static tape holds `data`. -/
def brainfuck (fuel : Nat) (str : List Char) (data : List Int) : Outcome :=
  brainfuckLoop str fuel (initConfig data)

/-- The value a call returned, when it returned. -/
def Outcome.value? : Outcome → Option Int
  | .returned v _ _ => some v
  | _ => none

/-- The configuration after `n` further iterations of the main loop, when none
of them halts or faults. -/
def iter (str : List Char) : Nat → Config → Option Config
  | 0, c => some c
  | n + 1, c =>
    match step str c with
    | .next c1 => iter str n c1
    | _ => none

/-- A second call of `brainfuck` in the same process: it runs on the static
tape as the first call left it. -/
def secondCall (fuel : Nat) (str1 str2 : List Char) (data : List Int) : Outcome :=
  match brainfuck fuel str1 data with
  | .returned _ d _ => brainfuck fuel str2 d
  | o => o

/-! ## Straight-line programs, after the words of the specification -/

/-- The data pointer after one symbol. -/
def movePointer (c : Char) (p : Int) : Int :=
  if c = '>' then p + 1 else if c = '<' then p - 1 else p

/-- The data pointer after a bracket-free program started with the pointer
at `p`. -/
def pointerAfter : List Char → Int → Int
  | [], p => p
  | c :: cs, p => pointerAfter cs (movePointer c p)

/-- Number of `'+'` minus number of `'-'` among the symbols of a bracket-free
program that are executed while the data pointer is at cell `q`; the program is
started with the pointer at `p`. -/
def netAt : List Char → Int → Int → Int
  | [], _, _ => 0
  | c :: cs, p, q =>
    (if p = q then (if c = '+' then 1 else if c = '-' then -1 else 0) else 0)
      + netAt cs (movePointer c p) q

/-! ## Bracket structure -/

/-- Nesting depth after a left-to-right pass over `str` entered at depth `d`;
`none` when some `']'` closes nothing. -/
def depthScan : List Char → Nat → Option Nat
  | [], d => some d
  | c :: cs, d =>
    if c = '[' then depthScan cs (d + 1)
    else if c = ']' then
      match d with
      | 0 => none
      | d1 + 1 => depthScan cs d1
    else depthScan cs d

/-- A program has balanced brackets when no prefix closes more brackets than
it opens and the whole program closes all it opens. -/
def Balanced (str : List Char) : Prop := depthScan str 0 = some 0

instance (str : List Char) : Decidable (Balanced str) := by
  unfold Balanced; infer_instance

/-- Position `j` holds the `']'` matching the `'['` at position `i`: the text
strictly between them has balanced brackets. -/
def IsMatch (str : List Char) (i j : Nat) : Prop :=
  i < j ∧ str[i]? = some '[' ∧ str[j]? = some ']' ∧
    Balanced ((str.drop (i + 1)).take (j - i - 1))

instance (str : List Char) (i j : Nat) : Decidable (IsMatch str i j) := by
  unfold IsMatch; infer_instance

/-! ## Structured programs, after the words of the specification -/

/-- A program as a sequence whose items are single symbols and loops
`[ body ]`. -/
inductive Prog where
  | done
  | op (c : Char) (rest : Prog)
  | loop (body rest : Prog)
  deriving DecidableEq

/-- The text of a structured program. -/
def Prog.flat : Prog → List Char
  | .done => []
  | .op c rest => c :: rest.flat
  | .loop body rest => '[' :: (body.flat ++ ']' :: rest.flat)

/-- No single symbol of the structured program is a bracket. -/
def Prog.wf : Prog → Prop
  | .done => True
  | .op c rest => c ≠ '[' ∧ c ≠ ']' ∧ rest.wf
  | .loop body rest => body.wf ∧ rest.wf

/-- Sequential composition of structured programs. -/
def Prog.seq : Prog → Prog → Prog
  | .done, q => q
  | .op c rest, q => .op c (rest.seq q)
  | .loop body rest, q => .loop body (rest.seq q)

/-- Parser pass over the reversed text: `cur` is the structured program to the
right of the position, `stack` holds the continuations of the enclosing
loops. -/
def parseRev : List Char → Prog → List Prog → Option Prog
  | [], cur, [] => some cur
  | [], _, _ :: _ => none
  | c :: cs, cur, stack =>
    if c = ']' then parseRev cs .done (cur :: stack)
    else if c = '[' then
      match stack with
      | [] => none
      | r :: st => parseRev cs (.loop cur r) st
    else parseRev cs (.op c cur) stack

/-- The structured program of a text; `none` when the brackets do not
balance. -/
def parse (str : List Char) : Option Prog := parseRev str.reverse .done []

/-- The tape and data pointer of the structured machine. -/
structure Machine where
  data : List Int
  pointer : Int
  deriving DecidableEq

/-- The result of a structured execution. -/
inductive Result where
  | done (m : Machine)
  | fault
  | outOfFuel
  deriving DecidableEq

/-- The effect of a single symbol, by the table of the specification: `+` and
`-` increment and decrement the cell at the data pointer, `>` and `<` move
the data pointer, every other symbol is a no-op.  `none` is an access outside
the tape. -/
def opEffect (c : Char) (m : Machine) : Option Machine :=
  if c = '+' then
    match readData m.data m.pointer with
    | none => none
    | some v => some { m with data := m.data.set m.pointer.toNat (wrap32 (v + 1)) }
  else if c = '-' then
    match readData m.data m.pointer with
    | none => none
    | some v => some { m with data := m.data.set m.pointer.toNat (wrap32 (v - 1)) }
  else if c = '>' then some { m with pointer := m.pointer + 1 }
  else if c = '<' then some { m with pointer := m.pointer - 1 }
  else some m

/-- Structured execution: a loop `[ body ]` means "while the current cell is
nonzero, execute body".  Each symbol and each test of a loop costs one unit
of fuel. -/
def execProg : Nat → Prog → Machine → Result
  | 0, _, _ => .outOfFuel
  | _ + 1, .done, m => .done m
  | n + 1, .op c rest, m =>
    match opEffect c m with
    | none => .fault
    | some m1 => execProg n rest m1
  | n + 1, .loop body rest, m =>
    match readData m.data m.pointer with
    | none => .fault
    | some v =>
      if v = 0 then execProg n rest m
      else
        match execProg n body m with
        | .done m1 => execProg n (.loop body rest) m1
        | r => r

/-- The structured run of a program text on the tape `data`, with the data
pointer centred: the value of the cell under the pointer at the end. -/
def structured (fuel : Nat) (str : List Char) (data : List Int) : Outcome :=
  match parse str with
  | none => .fault .program
  | some P =>
    match execProg fuel P { data := data, pointer := ((data.length / 2 : Nat) : Int) } with
    | .done m =>
      match readData m.data m.pointer with
      | none => .fault .tape
      | some v => .returned v m.data m.pointer
    | .fault => .fault .tape
    | .outOfFuel => .outOfFuel

/-- The text `] Q₁ ] Q₂ …` that closes the loops still open, each closing
bracket followed by the structured program after it. -/
def closes : List Prog → List Char
  | [] => []
  | Q :: Qs => ']' :: (Q.flat ++ closes Qs)

/-! ## The reference bracket matcher -/

/-- The reference stack-based bracket matcher: a left-to-right pass that
pushes the position of every `'['` and, at every `']'`, pops the innermost open
position and pairs it with the current one.  A `']'` met with an empty stack
has no partner and is passed over. -/
def matchScan : List Char → Nat → List Nat → List (Nat × Nat)
  | [], _, _ => []
  | c :: cs, pos, stack =>
    if c = '[' then matchScan cs (pos + 1) (pos :: stack)
    else if c = ']' then
      match stack with
      | [] => matchScan cs (pos + 1) []
      | i :: st => (i, pos) :: matchScan cs (pos + 1) st
    else matchScan cs (pos + 1) stack

/-- The pairs `(i, j)` of matching bracket positions of a program. -/
def matchPairs (str : List Char) : List (Nat × Nat) := matchScan str 0 []

/-- The stack of the reference matcher after the text `pre`: every entry is
the position of a `'['` of `pre` that is followed, up to the next entry or the
end of `pre`, by a balanced text. -/
def StackInv : List Char → List Nat → Prop
  | _, [] => True
  | pre, i :: st =>
    ∃ (p u : List Char), pre = p ++ '[' :: u ∧ p.length = i ∧ Balanced u ∧ StackInv p st

end BF

/-!
# `examples/fib.c`

`int` values are 32 bits wide and the sum `a + b` wraps in two's complement
(`BF.wrap32`).  The loop carries a fuel argument that the function itself
fixes from `n`.
-/

namespace Fib

/-- The `for` loop of `fib`: `i` is the loop counter, `a` and `b` the two
running values; the sum `a + b` is reduced to 32 bits. -/
def fibLoop (n : Int) : Nat → Int → Int → Int → Option Int
  | 0, _, _, _ => none
  | fuel + 1, i, a, b =>
    if i < n then fibLoop n fuel (i + 1) b (BF.wrap32 (a + b))
    else some a

/-- The function `fib`; the loop runs at most `n` times, so the fuel
`n + 1` is never used up. -/
def fib (n : Int) : Option Int := fibLoop n (n.toNat + 1) 0 0 1

end Fib

/-!
# `examples/0005-prime.c`

The table `static int primes[100]` is the `List Nat` handed to `prime`: the
content of the static storage at the moment of the call.  The counters `i`,
`j`, `nprimes` and the table entries never go below zero and are natural
numbers; `index` is an integer.  A read or write outside the table and a
division by zero are a fault of the model.  The outer loop carries the fuel of
the run, the inner loop a fuel fixed by `nprimes`.
-/

namespace Prime

/-- The outcome of a call of `prime`: the returned value, an access outside
`primes[100]` or a division by zero, or an exhausted budget of outer loop
iterations. -/
inductive Outcome where
  | returned (value : Nat)
  | fault
  | outOfFuel
  deriving DecidableEq

/-- The inner loop `while (j < nprimes && i % primes[j] != 0) j++`: the value
of `j` at its exit. -/
def trial (primes : List Nat) (nprimes i : Nat) : Nat → Nat → Option Nat
  | 0, _ => none
  | fuel + 1, j =>
    if j < nprimes then
      match primes[j]? with
      | none => none
      | some p =>
        if p = 0 then none
        else if i % p ≠ 0 then trial primes nprimes i fuel (j + 1)
        else some j
    else some j

/-- The loop `for (int i = 3;; i++)` of `prime`, run for at most `fuel`
values of `i`. -/
def primeLoop (index : Int) : Nat → List Nat → Nat → Nat → Outcome
  | 0, _, _, _ => .outOfFuel
  | fuel + 1, primes, nprimes, i =>
    match trial primes nprimes i (nprimes + 1) 0 with
    | none => .fault
    | some j =>
      if j ≠ nprimes then primeLoop index fuel primes nprimes (i + 1)
      else if (nprimes : Int) = index then .returned i
      else if nprimes < primes.length then
        primeLoop index fuel (primes.set nprimes i) (nprimes + 1) (i + 1)
      else .fault

/-- The function `prime`, called while the static table holds `primes`. -/
def prime (fuel : Nat) (index : Int) (primes : List Nat) : Outcome :=
  if index ≤ 0 then .returned 2
  else if 0 < primes.length then primeLoop index fuel (primes.set 0 2) 1 3
  else .fault

/-- The content of `static int primes[100]` at process start. -/
def zeroTable : List Nat := List.replicate 100 0

/-! ## A checker for the table of primes, used to name the 100th prime -/

/-- Some `d` with `k ≤ d`, `d * d ≤ n` divides `n` (searched over `fuel`
candidates). -/
def hasDivisor (n : Nat) : Nat → Nat → Bool
  | 0, _ => false
  | fuel + 1, k =>
    if n < k * k then false
    else if n % k = 0 then true
    else hasDivisor n fuel (k + 1)

/-- Primality by trial division up to the square root. -/
def isPrimeB (n : Nat) : Bool := decide (2 ≤ n) && !hasDivisor n n 2

/-- The number of primes below `n`, by the checker. -/
def countB : Nat → Nat
  | 0 => 0
  | n + 1 => countB n + if isPrimeB n = true then 1 else 0

end Prime

/-!
# `examples/0008-rpn.c`

The source string is a `List Char`; the loop over `src[i]` is a recursion over
its characters, and it ends at the end of the list or at a terminator in it.
The local array `int stack[10]` is a `List Int` whose content at entry is a
parameter; an access outside it is `none`.  Arithmetic wraps to 32 bits.
-/

namespace Rpn

/-- Read of `stack[k]`; no value outside the array. -/
def readSlot (stack : List Int) (k : Int) : Option Int :=
  if 0 ≤ k ∧ k < stack.length then stack[k.toNat]? else none

/-- Write of `stack[k] = v`; no result outside the array. -/
def writeSlot (stack : List Int) (k : Int) (v : Int) : Option (List Int) :=
  if 0 ≤ k ∧ k < stack.length then some (stack.set k.toNat v) else none

/-- The statements `stack[sp - 1] = stack[sp - 1] op stack[sp]; sp--;` of the
three `case`s, the result reduced to 32 bits. -/
def binop (op : Int → Int → Int) (stack : List Int) (sp : Int) : Option (List Int × Int) :=
  match readSlot stack (sp - 1), readSlot stack sp with
  | some a, some b =>
    match writeSlot stack (sp - 1) (BF.wrap32 (op a b)) with
    | some st => some (st, sp - 1)
    | none => none
  | _, _ => none

/-- The `for` loop of `calc_rpn` over the characters of `src` from position
`i` on; the end of the list is the terminator. -/
def calcLoop : List Char → List Int → Int → Option (List Int × Int)
  | [], stack, sp => some (stack, sp)
  | c :: cs, stack, sp =>
    if c = '\x00' then some (stack, sp)
    else if '0' ≤ c ∧ c ≤ '9' then
      match writeSlot stack (sp + 1) ((c.toNat : Int) - 48) with
      | some st => calcLoop cs st (sp + 1)
      | none => none
    else if c = '+' then
      match binop (fun a b => a + b) stack sp with
      | some (st, sp1) => calcLoop cs st sp1
      | none => none
    else if c = '-' then
      match binop (fun a b => a - b) stack sp with
      | some (st, sp1) => calcLoop cs st sp1
      | none => none
    else if c = '*' then
      match binop (fun a b => a * b) stack sp with
      | some (st, sp1) => calcLoop cs st sp1
      | none => none
    else calcLoop cs stack sp

/-- The function `calc_rpn`; `stack0` is the content of the uninitialised
local array `int stack[10]` at entry.  `none` is an access outside it. -/
def calc_rpn (src : List Char) (stack0 : List Int) : Option Int :=
  match calcLoop src stack0 (-1) with
  | some (stack, sp) => readSlot stack sp
  | none => none

/-! ## Expression trees, after the words of the claim -/

/-- An arithmetic expression over single-digit literals. -/
inductive Expr where
  | lit (d : Fin 10)
  | add (a b : Expr)
  | sub (a b : Expr)
  | mul (a b : Expr)
  deriving DecidableEq

/-- The exact value of an expression. -/
def Expr.value : Expr → Int
  | .lit d => (d.val : Int)
  | .add a b => a.value + b.value
  | .sub a b => a.value - b.value
  | .mul a b => a.value * b.value

/-- The postfix (reverse Polish) rendering without separators. -/
def Expr.rpnText : Expr → List Char
  | .lit d => [Char.ofNat (48 + d.val)]
  | .add a b => a.rpnText ++ b.rpnText ++ ['+']
  | .sub a b => a.rpnText ++ b.rpnText ++ ['-']
  | .mul a b => a.rpnText ++ b.rpnText ++ ['*']

/-- The number of stack slots the postfix evaluation of an expression
needs. -/
def Expr.need : Expr → Nat
  | .lit _ => 1
  | .add a b => max a.need (b.need + 1)
  | .sub a b => max a.need (b.need + 1)
  | .mul a b => max a.need (b.need + 1)

end Rpn

/-!
# `examples/0004-lisp.c`

The globals `text` and `pc` are kept as one value, the list of the characters
of `text` from position `pc` on, the terminator included; a read behind the
terminator is `none`.  The table `static int var[128]` is a `List Int` threaded
through `interpret`.  Arithmetic wraps to 32 bits.  The recursion of
`interpret` carries a fuel argument that `lisp` fixes from the length of the
text.
-/

namespace Lisp

/-- The function `next` on the text from `pc` on: skip blanks, return the
character read and the text after it.  `none` is a read past the terminator. -/
def next : List Char → Option (Char × List Char)
  | [] => none
  | c :: cs => if c = ' ' then next cs else some (c, cs)

/-- Read of `var[k]`. -/
def readVar (var : List Int) (k : Nat) : Option Int := var[k]?

/-- Write of `var[k] = v`. -/
def writeVar (var : List Int) (k : Nat) (v : Int) : Option (List Int) :=
  if k < var.length then some (var.set k v) else none

/-- The function `interpret`: the value returned, the text from the new `pc`
on, and the table `var`.  The fuel bounds the recursion depth. -/
def interpret : Nat → List Char → List Int → Option (Int × List Char × List Int)
  | 0, _, _ => none
  | fuel + 1, text, var =>
    match next text with
    | none => none
    | some (ch, t1) =>
      if ch = '(' then
        match next t1 with
        | none => none
        | some (op, t2) =>
          if op = '+' then
            match interpret fuel t2 var with
            | none => none
            | some (v1, t3, var1) =>
              match interpret fuel t3 var1 with
              | none => none
              | some (v2, t4, var2) =>
                match next t4 with
                | none => none
                | some (_, t5) => some (BF.wrap32 (v1 + v2), t5, var2)
          else if op = '-' then
            match interpret fuel t2 var with
            | none => none
            | some (v1, t3, var1) =>
              match interpret fuel t3 var1 with
              | none => none
              | some (v2, t4, var2) =>
                match next t4 with
                | none => none
                | some (_, t5) => some (BF.wrap32 (v1 - v2), t5, var2)
          else if op = 'l' then
            match next t2 with
            | none => none
            | some (_, t3) =>
            match next t3 with
            | none => none
            | some (_, t4) =>
            match next t4 with
            | none => none
            | some (_, t5) =>
            match next t5 with
            | none => none
            | some (_, t6) =>
            match next t6 with
            | none => none
            | some (id, t7) =>
            match interpret fuel t7 var with
            | none => none
            | some (val, t8, var1) =>
            match writeVar var1 id.toNat val with
            | none => none
            | some var2 =>
            match next t8 with
            | none => none
            | some (_, t9) =>
            match next t9 with
            | none => none
            | some (_, t10) => interpret fuel t10 var2
          else some (-1, t2, var)
      else if '0' ≤ ch ∧ ch ≤ '9' then some ((ch.toNat : Int) - 48, t1, var)
      else
        match readVar var ch.toNat with
        | none => none
        | some v => some (v, t1, var)

/-- The function `lisp`, called while the static table holds `var`: `pc = 0`,
`text = str` (the characters of `str` followed by the terminator). -/
def lisp (str : List Char) (var : List Int) : Option Int :=
  match interpret (str.length + 1) (str ++ ['\x00']) var with
  | some (v, _, _) => some v
  | none => none

/-- The content of `static int var[128]` at process start. -/
def zeroVars : List Int := List.replicate 128 0

/-! ## Expressions, after the words of the claim -/

/-- The grammar `e ::= digit | variable | (+ e e) | (- e e) | (let ((x e)) e)`. -/
inductive Expr where
  | digit (d : Fin 10)
  | var (x : Char)
  | add (a b : Expr)
  | sub (a b : Expr)
  | bind (x : Char) (e1 e2 : Expr)
  deriving DecidableEq

/-- The value of an expression in an environment: `(let ((x e1)) e2)` is the
value of `e2` with `x` bound to the value of `e1`. -/
def Expr.value (env : Char → Option Int) : Expr → Option Int
  | .digit d => some (d.val : Int)
  | .var x => env x
  | .add a b =>
    match a.value env, b.value env with
    | some v1, some v2 => some (v1 + v2)
    | _, _ => none
  | .sub a b =>
    match a.value env, b.value env with
    | some v1, some v2 => some (v1 - v2)
    | _, _ => none
  | .bind x e1 e2 =>
    match e1.value env with
    | some v1 => e2.value (fun y => if y = x then some v1 else env y)
    | none => none

/-- The text of an expression, with single blanks between the items of a
list. -/
def Expr.text : Expr → List Char
  | .digit d => [Char.ofNat (48 + d.val)]
  | .var x => [x]
  | .add a b => "(+ ".toList ++ a.text ++ [' '] ++ b.text ++ [')']
  | .sub a b => "(- ".toList ++ a.text ++ [' '] ++ b.text ++ [')']
  | .bind x e1 e2 => "(let ((".toList ++ [x] ++ [' '] ++ e1.text ++ ")) ".toList ++ e2.text ++ [')']

end Lisp

/-!
# `examples/0006-editdis.c`

The two rows of `static int dp[2][7 + 1]` are two `List Int`, their content at
the call being parameters; `dp0` and `dp1` point to them and `swap_intp`
exchanges the two.  The loops run over explicit counters with the number of
iterations left.  An access outside a row or behind the terminator of a string
is `none`.  Arithmetic wraps to 32 bits.
-/

namespace EditDis

/-- The function `min3`. -/
def min3 (a b c : Int) : Int :=
  if a < b then
    if b < c then a
    else if c < a then c
    else a
  else if b < c then b
  else c

/-- The character `s[i]` of a C string: the terminator at `i = length`, no
value beyond it. -/
def charAt (s : List Char) (i : Nat) : Option Char :=
  if i < s.length then s[i]? else if i = s.length then some '\x00' else none

/-- Read of an entry of a row of `dp`. -/
def readRow (row : List Int) (j : Nat) : Option Int := row[j]?

/-- Write of an entry of a row of `dp`. -/
def writeRow (row : List Int) (j : Nat) (v : Int) : Option (List Int) :=
  if j < row.length then some (row.set j v) else none

/-- The loop `for (int i = 0; i <= n; i++) dp0[i] = i;` from `i` on, with
`count` iterations left. -/
def initLoop : Nat → Nat → List Int → Option (List Int)
  | 0, _, dp0 => some dp0
  | count + 1, i, dp0 =>
    match writeRow dp0 i (i : Int) with
    | none => none
    | some d => initLoop count (i + 1) d

/-- The loop `for (int j = 1; j <= m; j++)` of row `i` from `j` on, with
`count` iterations left: the row `dp1` after it. -/
def innerLoop (str0 str1 : List Char) (i : Nat) (dp0 : List Int) :
    Nat → Nat → List Int → Option (List Int)
  | 0, _, dp1 => some dp1
  | count + 1, j, dp1 =>
    match readRow dp0 j, readRow dp1 (j - 1), readRow dp0 (j - 1),
        charAt str0 i, charAt str1 i with
    | some up, some left, some diag, some c0, some c1 =>
      match writeRow dp1 j
          (min3 (BF.wrap32 (up + 1)) (BF.wrap32 (left + 1))
            (BF.wrap32 (diag + (if c0 = c1 then 0 else 1)))) with
      | none => none
      | some d => innerLoop str0 str1 i dp0 count (j + 1) d
    | _, _, _, _, _ => none

/-- The loop `for (int i = 1; i <= n; i++)` from `i` on, with `count`
iterations left; `swap_intp` exchanges the two rows.  The result is the row
`dp0` points to at the end. -/
def outerLoop (str0 str1 : List Char) (m : Nat) :
    Nat → Nat → List Int → List Int → Option (List Int)
  | 0, _, dp0, _ => some dp0
  | count + 1, i, dp0, dp1 =>
    match innerLoop str0 str1 i dp0 m 1 dp1 with
    | none => none
    | some d1 => outerLoop str0 str1 m count (i + 1) d1 dp0

/-- The function `calc_edit_distance`, called while the static rows `dp[0]`
and `dp[1]` hold `row0` and `row1`.  `none` is an access outside a row or a
string. -/
def calc_edit_distance (str0 str1 : List Char) (row0 row1 : List Int) : Option Int :=
  match initLoop (str0.length + 1) 0 row0 with
  | none => none
  | some dp0 =>
    match writeRow row1 0 0 with
    | none => none
    | some dp1 =>
      match outerLoop str0 str1 str1.length str0.length 1 dp0 dp1 with
      | none => none
      | some d => readRow d str1.length

/-- The content of a row of `static int dp[2][7 + 1]` at process start. -/
def zeroRow : List Int := List.replicate 8 0

end EditDis

/-!
# `examples/0009-gameoflife.c`

A bitmap `uint8_t map[SIZE]` is a `List Nat` of `SIZE = 8` rows; coordinates
are natural numbers (the loops keep `x - 1` and `y - 1` at zero or above).
The two loops run over the explicit lists of their index values.
-/

namespace Life

/-- The function `at`: bit `7 - x` of row `y`. -/
def at_ (map : List Nat) (x y : Nat) : Nat := (map.getD y 0 >>> (7 - x)) &&& 1

/-- The statements of the body of the loop over `x` that count the live
neighbours of `(x, y)` in `src`. -/
def count (src : List Nat) (x y : Nat) : Nat :=
  (if at_ src (x - 1) (y - 1) ≠ 0 then 1 else 0)
  + (if at_ src x (y - 1) ≠ 0 then 1 else 0)
  + (if at_ src (x + 1) (y - 1) ≠ 0 then 1 else 0)
  + (if at_ src (x - 1) y ≠ 0 then 1 else 0)
  + (if at_ src (x + 1) y ≠ 0 then 1 else 0)
  + (if at_ src (x - 1) (y + 1) ≠ 0 then 1 else 0)
  + (if at_ src x (y + 1) ≠ 0 then 1 else 0)
  + (if at_ src (x + 1) (y + 1) ≠ 0 then 1 else 0)

/-- The body of the loop over `x`: the two conditional updates of `res`. -/
def cell (src : List Nat) (y : Nat) (res x : Nat) : Nat :=
  let p := at_ src x y
  let cnt := count src x y
  let res1 := if p = 0 ∧ cnt = 3 then res ||| (1 <<< (7 - x)) else res
  if p ≠ 0 ∧ (cnt = 2 ∨ cnt = 3) then res1 ||| (1 <<< (7 - x)) else res1

/-- The loop `for (int x = 1; x < 8 - 1; x++)` of row `y`, from `res = 0`. -/
def row (src : List Nat) (y : Nat) : Nat :=
  [1, 2, 3, 4, 5, 6].foldl (cell src y) 0

/-- The function `step`: `src` is the copy of the first `SIZE = 8` rows of
`map`; the rows `y = 1, …, SIZE - 2` of `map` are overwritten, the value
reduced to `uint8_t`. -/
def step (map : List Nat) : List Nat :=
  let src := map.take 8
  [1, 2, 3, 4, 5, 6].foldl (fun m y => m.set y (row src y % 256)) map

/-- The initial bitmap of `main`. -/
def glider : List Nat := [0x00, 0x20, 0x10, 0x70, 0x00, 0x00, 0x00, 0x00]

/-- The function `main`. -/
def main : Nat :=
  let map := step (step (step (step glider)))
  ((map.getD 1 0 >>> 3) <<< 12) ||| ((map.getD 2 0 >>> 3) <<< 8)
    ||| ((map.getD 3 0 >>> 3) <<< 4) ||| (map.getD 4 0 >>> 3)

/-- The live neighbours of `(x, y)` among its 8 neighbours. -/
def neighbours (map : List Nat) (x y : Nat) : Nat :=
  at_ map (x - 1) (y - 1) + at_ map x (y - 1) + at_ map (x + 1) (y - 1)
  + at_ map (x - 1) y + at_ map (x + 1) y
  + at_ map (x - 1) (y + 1) + at_ map x (y + 1) + at_ map (x + 1) (y + 1)

/-- Conway's rule for the next state of the cell `(x, y)`: exactly 3 live
neighbours, or alive with exactly 2. -/
def alive (map : List Nat) (x y : Nat) : Prop :=
  neighbours map x y = 3 ∨ (at_ map x y = 1 ∧ neighbours map x y = 2)

instance (map : List Nat) (x y : Nat) : Decidable (alive map x y) := by
  unfold alive; infer_instance

/-- The update of `res` for one `x`, governed by a single condition. -/
def bitIf (b : Bool) (res x : Nat) : Nat :=
  if b = true then res ||| (1 <<< (7 - x)) else res

/-- The row value the loop over `x` assembles from six conditions, reduced to
`uint8_t`. -/
def rowOf (b1 b2 b3 b4 b5 b6 : Bool) : Nat :=
  bitIf b6 (bitIf b5 (bitIf b4 (bitIf b3 (bitIf b2 (bitIf b1 0 1) 2) 3) 4) 5) 6 % 256

/-- Four calls of `step`. -/
def step4 (map : List Nat) : List Nat := step (step (step (step map)))

end Life

namespace BF

/-! ## Elementary facts about memory and the program text -/

theorem wrap32_wrap32_add (a b : Int) : wrap32 (wrap32 a + b) = wrap32 (a + b) := by
  unfold wrap32; omega

theorem wrap32_idem (a : Int) : wrap32 (wrap32 a) = wrap32 a := by
  unfold wrap32; omega

theorem fetch_length (str : List Char) : fetch str str.length = some '\x00' := by
  simp [fetch]

theorem getElem?_append_cons (pre : List Char) (c : Char) (rest : List Char) :
    (pre ++ c :: rest)[pre.length]? = some c := by
  rw [List.getElem?_append_right (le_refl _)]; simp

theorem fetch_append_cons (pre : List Char) (c : Char) (rest : List Char) :
    fetch (pre ++ c :: rest) pre.length = some c := by
  have h := getElem?_append_cons pre c rest
  simp only [fetch, List.length_append, List.length_cons, Int.toNat_ofNat]
  rw [if_pos (by constructor <;> omega)]
  exact h

theorem fetch_of_getElem? (str : List Char) (i : Nat) (c : Char) (h : str[i]? = some c) :
    fetch str i = some c := by
  have hi : i < str.length := by
    by_contra hc
    rw [List.getElem?_eq_none (by omega)] at h
    cases h
  simp only [fetch, Int.toNat_ofNat]
  rw [if_pos (by constructor <;> omega)]
  exact h

theorem readData_inside (d : List Int) (p : Int) (h0 : 0 ≤ p) (h1 : p < d.length) :
    ∃ v, readData d p = some v := by
  have hlt : p.toNat < d.length := by omega
  refine ⟨d[p.toNat], ?_⟩
  simp only [readData]
  rw [if_pos ⟨h0, h1⟩]
  exact List.getElem?_eq_getElem hlt

theorem readData_some_inside (d : List Int) (p v : Int) (h : readData d p = some v) :
    0 ≤ p ∧ p < d.length := by
  unfold readData at h
  by_cases hc : 0 ≤ p ∧ p < d.length
  · exact hc
  · rw [if_neg hc] at h; cases h

theorem writeData_inside (d : List Int) (p v : Int) (h0 : 0 ≤ p) (h1 : p < d.length) :
    writeData d p v = some (d.set p.toNat v) := by
  simp only [writeData]
  rw [if_pos ⟨h0, h1⟩]

theorem readData_set (d : List Int) (p q v : Int) (h0 : 0 ≤ p) (h1 : p < d.length) :
    readData (d.set p.toNat v) q = if q = p then some v else readData d q := by
  unfold readData
  rw [List.length_set]
  by_cases hq : 0 ≤ q ∧ q < d.length
  · rw [if_pos hq, if_pos hq]
    by_cases hqp : q = p
    · subst hqp
      rw [if_pos rfl, List.getElem?_set_self (by omega)]
    · rw [if_neg hqp]
      have : p.toNat ≠ q.toNat := by omega
      rw [List.getElem?_set_ne this]
  · rw [if_neg hq, if_neg hq]
    have : q ≠ p := by intro h; subst h; exact hq ⟨h0, h1⟩
    rw [if_neg this]

/-! ## Single iterations of the main loop -/

theorem step_halt (str : List Char) (c : Config) (v : Int)
    (hi : c.index = str.length) (hv : readData c.data c.pointer = some v) :
    step str c = .halt v := by
  unfold step
  rw [hi, fetch_length]
  simp [← hi, hv]

theorem step_plain (str : List Char) (c : Config) (ch : Char)
    (hf : fetch str c.index = some ch) (h0 : ch ≠ '\x00')
    (h1 : ch ≠ '+') (h2 : ch ≠ '-') (h3 : ch ≠ '[') (h4 : ch ≠ ']') :
    step str c = .next { index := c.index + 1, pointer := movePointer ch c.pointer,
                         data := c.data } := by
  unfold step
  rw [hf]
  simp only [if_neg h0]
  unfold dispatch movePointer
  rw [if_neg h1, if_neg h2]
  by_cases g1 : ch = '>'
  · rw [if_pos g1, if_pos g1]
  · rw [if_neg g1, if_neg g1]
    by_cases g2 : ch = '<'
    · rw [if_pos g2, if_pos g2]
    · rw [if_neg g2, if_neg g2, if_neg h3, if_neg h4]
      by_cases g3 : ch = '.'
      · rw [if_pos g3]
      · rw [if_neg g3]
        by_cases g4 : ch = ','
        · rw [if_pos g4]
        · rw [if_neg g4]

theorem step_plus (str : List Char) (c : Config) (v : Int)
    (hf : fetch str c.index = some '+') (hv : readData c.data c.pointer = some v) :
    step str c = .next { index := c.index + 1, pointer := c.pointer,
                         data := c.data.set c.pointer.toNat (wrap32 (v + 1)) } := by
  have hin := readData_some_inside _ _ _ hv
  unfold step
  rw [hf]
  simp only [dispatch, hv, writeData_inside _ _ _ hin.1 hin.2]
  rfl

theorem step_minus (str : List Char) (c : Config) (v : Int)
    (hf : fetch str c.index = some '-') (hv : readData c.data c.pointer = some v) :
    step str c = .next { index := c.index + 1, pointer := c.pointer,
                         data := c.data.set c.pointer.toNat (wrap32 (v - 1)) } := by
  have hin := readData_some_inside _ _ _ hv
  unfold step
  rw [hf]
  simp only [dispatch, hv, writeData_inside _ _ _ hin.1 hin.2]
  rfl

/-! ## Fuel -/

theorem brainfuckLoop_returned_add (str : List Char) (n : Nat) (c : Config) (v : Int)
    (t : List Int) (p : Int) (h : brainfuckLoop str n c = .returned v t p) (extra : Nat) :
    brainfuckLoop str (n + extra) c = .returned v t p := by
  induction n generalizing c with
  | zero => simp [brainfuckLoop] at h
  | succ n ih =>
    rw [Nat.add_right_comm]
    simp only [brainfuckLoop] at h ⊢
    cases hs : step str c with
    | next c1 => rw [hs] at h; simp only at h ⊢; exact ih c1 h
    | halt v1 => rw [hs] at h; simpa using h
    | fault f => rw [hs] at h; simp at h

theorem iter_add (str : List Char) (a b : Nat) (c c1 : Config)
    (h : iter str a c = some c1) : iter str (a + b) c = iter str b c1 := by
  induction a generalizing c with
  | zero =>
    simp only [iter, Option.some.injEq] at h
    subst h; simp
  | succ a ih =>
    rw [Nat.add_right_comm]
    simp only [iter] at h ⊢
    cases hs : step str c with
    | next c2 => rw [hs] at h; simp only at h ⊢; exact ih c2 h
    | halt v1 => rw [hs] at h; simp at h
    | fault f => rw [hs] at h; simp at h

theorem brainfuckLoop_iter (str : List Char) (a b : Nat) (c c1 : Config)
    (h : iter str a c = some c1) :
    brainfuckLoop str (a + b) c = brainfuckLoop str b c1 := by
  induction a generalizing c with
  | zero =>
    simp only [iter, Option.some.injEq] at h
    subst h; simp
  | succ a ih =>
    rw [Nat.add_right_comm]
    simp only [iter] at h
    simp only [brainfuckLoop]
    cases hs : step str c with
    | next c2 => rw [hs] at h; simp only at h ⊢; exact ih c2 h
    | halt v1 => rw [hs] at h; simp at h
    | fault f => rw [hs] at h; simp at h

theorem iter_one (str : List Char) (c c1 : Config) (h : step str c = .next c1) :
    iter str 1 c = some c1 := by
  simp [iter, h]

theorem step_next_dispatch (str : List Char) (c c1 : Config) (ch : Char)
    (hf : fetch str c.index = some ch) (hs : step str c = .next c1) :
    ∃ c0, dispatch str ch c = .ok c0 ∧ c1 = { c0 with index := c0.index + 1 } := by
  unfold step at hs
  rw [hf] at hs
  simp only at hs
  by_cases h0 : ch = '\x00'
  · rw [if_pos h0] at hs
    cases hv : readData c.data c.pointer with
    | none => rw [hv] at hs; cases hs
    | some v => rw [hv] at hs; cases hs
  · rw [if_neg h0] at hs
    cases hd : dispatch str ch c with
    | fault f => rw [hd] at hs; cases hs
    | ok c0 =>
      rw [hd] at hs
      simp only [Step.next.injEq] at hs
      exact ⟨c0, rfl, hs.symm⟩

/-! ## The program of `main`, and the frame of one iteration -/

set_option maxRecDepth 1000000 in
theorem mainProgram_run :
    brainfuck 65 "++++[>++++++++++<-]>++".toList zeroTape
      = .returned 42 ((zeroTape.set 50 0).set 51 42) 51 := by
  decide

/-- C1: run on a fresh all-zero 100-cell tape with the data pointer at 50,
`brainfuck("++++[>++++++++++<-]>++")` terminates (after 64 instructions, at the
65th loop test, whatever larger budget is given) and returns 42. -/
theorem brainfuck_main_returns_42 :
    (initConfig zeroTape).pointer = 50 ∧ zeroTape.length = 100 ∧
    ∃ t p, ∀ extra : Nat,
      brainfuck (65 + extra) "++++[>++++++++++<-]>++".toList zeroTape = .returned 42 t p :=
  ⟨by decide, by decide, _, _, fun extra =>
    brainfuckLoop_returned_add _ _ _ _ _ _ mainProgram_run extra⟩

theorem dispatch_frame (str : List Char) (ch : Char) (c c1 : Config)
    (h : dispatch str ch c = .ok c1) :
    (c1.pointer ≠ c.pointer → ch = '>' ∨ ch = '<') ∧
    (c1.data ≠ c.data → ch = '+' ∨ ch = '-') ∧
    (∀ q : Int, q ≠ c.pointer → readData c1.data q = readData c.data q) := by
  unfold dispatch at h
  by_cases g1 : ch = '+'
  · rw [if_pos g1] at h
    cases hv : readData c.data c.pointer with
    | none => rw [hv] at h; cases h
    | some v =>
      have hin := readData_some_inside _ _ _ hv
      rw [hv] at h
      simp only [writeData_inside _ _ _ hin.1 hin.2, Dispatch.ok.injEq] at h
      subst h
      refine ⟨fun hp => absurd rfl hp, fun _ => Or.inl g1, fun q hq => ?_⟩
      simp only [readData_set _ _ _ _ hin.1 hin.2, if_neg hq]
  rw [if_neg g1] at h
  by_cases g2 : ch = '-'
  · rw [if_pos g2] at h
    cases hv : readData c.data c.pointer with
    | none => rw [hv] at h; cases h
    | some v =>
      have hin := readData_some_inside _ _ _ hv
      rw [hv] at h
      simp only [writeData_inside _ _ _ hin.1 hin.2, Dispatch.ok.injEq] at h
      subst h
      refine ⟨fun hp => absurd rfl hp, fun _ => Or.inr g2, fun q hq => ?_⟩
      simp only [readData_set _ _ _ _ hin.1 hin.2, if_neg hq]
  rw [if_neg g2] at h
  by_cases g3 : ch = '>'
  · rw [if_pos g3] at h
    simp only [Dispatch.ok.injEq] at h
    subst h
    exact ⟨fun _ => Or.inl g3, fun hd => absurd rfl hd, fun _ _ => rfl⟩
  rw [if_neg g3] at h
  by_cases g4 : ch = '<'
  · rw [if_pos g4] at h
    simp only [Dispatch.ok.injEq] at h
    subst h
    exact ⟨fun _ => Or.inr g4, fun hd => absurd rfl hd, fun _ _ => rfl⟩
  rw [if_neg g4] at h
  have same : ∀ i : Int, c1 = { c with index := i } →
      (c1.pointer ≠ c.pointer → ch = '>' ∨ ch = '<') ∧
      (c1.data ≠ c.data → ch = '+' ∨ ch = '-') ∧
      (∀ q : Int, q ≠ c.pointer → readData c1.data q = readData c.data q) := by
    intro i hi
    subst hi
    exact ⟨fun hp => absurd rfl hp, fun hd => absurd rfl hd, fun _ _ => rfl⟩
  have same0 : c1 = c →
      (c1.pointer ≠ c.pointer → ch = '>' ∨ ch = '<') ∧
      (c1.data ≠ c.data → ch = '+' ∨ ch = '-') ∧
      (∀ q : Int, q ≠ c.pointer → readData c1.data q = readData c.data q) := by
    intro hi
    subst hi
    exact ⟨fun hp => absurd rfl hp, fun hd => absurd rfl hd, fun _ _ => rfl⟩
  by_cases g5 : ch = '.'
  · rw [if_pos g5] at h
    simp only [Dispatch.ok.injEq] at h
    exact same0 h.symm
  rw [if_neg g5] at h
  by_cases g6 : ch = ','
  · rw [if_pos g6] at h
    simp only [Dispatch.ok.injEq] at h
    exact same0 h.symm
  rw [if_neg g6] at h
  by_cases g7 : ch = '['
  · rw [if_pos g7] at h
    cases hv : readData c.data c.pointer with
    | none => rw [hv] at h; cases h
    | some v =>
      rw [hv] at h
      simp only at h
      by_cases hz : v = 0
      · rw [if_pos hz] at h
        cases hj : jumpFront str c.index with
        | none => rw [hj] at h; cases h
        | some i =>
          rw [hj] at h
          simp only [Dispatch.ok.injEq] at h
          exact same i h.symm
      · rw [if_neg hz] at h
        simp only [Dispatch.ok.injEq] at h
        exact same0 h.symm
  rw [if_neg g7] at h
  by_cases g8 : ch = ']'
  · rw [if_pos g8] at h
    cases hv : readData c.data c.pointer with
    | none => rw [hv] at h; cases h
    | some v =>
      rw [hv] at h
      simp only at h
      by_cases hz : v ≠ 0
      · rw [if_pos hz] at h
        cases hj : jumpBack str c.index with
        | none => rw [hj] at h; cases h
        | some i =>
          rw [hj] at h
          simp only [Dispatch.ok.injEq] at h
          exact same i h.symm
      · rw [if_neg hz] at h
        simp only [Dispatch.ok.injEq] at h
        exact same0 h.symm
  rw [if_neg g8] at h
  simp only [Dispatch.ok.injEq] at h
  exact same0 h.symm

/-- C8: one iteration of the main loop of `brainfuck` changes the data pointer
only when the fetched symbol is `'>'` or `'<'`, changes the tape only when it
is `'+'` or `'-'` and then at no cell other than the one under the data
pointer; on `'.'`, `','` and every character outside the eight-symbol alphabet
the iteration succeeds, leaves tape and data pointer unchanged and advances
the program counter by exactly one. -/
theorem step_frame (str : List Char) (c : Config) (ch : Char)
    (hf : fetch str c.index = some ch) :
    (∀ c1, step str c = .next c1 →
      (c1.pointer ≠ c.pointer → ch = '>' ∨ ch = '<') ∧
      (c1.data ≠ c.data → ch = '+' ∨ ch = '-') ∧
      (∀ q : Int, q ≠ c.pointer → readData c1.data q = readData c.data q)) ∧
    (ch ≠ '\x00' → ch ≠ '+' → ch ≠ '-' → ch ≠ '>' → ch ≠ '<' → ch ≠ '[' → ch ≠ ']' →
      step str c = .next { c with index := c.index + 1 }) := by
  constructor
  · intro c1 hs
    obtain ⟨c0, hd, hc1⟩ := step_next_dispatch str c c1 ch hf hs
    subst hc1
    exact dispatch_frame str ch c c0 hd
  · intro h0 h1 h2 h3 h4 h5 h6
    rw [step_plain str c ch hf h0 h1 h2 h5 h6]
    simp [movePointer, h3, h4]

/-- Witness of C8 at the comma of the program `","`. -/
theorem step_frame_witness :
    fetch ",".toList (initConfig zeroTape).index = some ',' ∧
    step ",".toList (initConfig zeroTape)
      = .next { initConfig zeroTape with index := (initConfig zeroTape).index + 1 } :=
  ⟨by decide,
   (step_frame ",".toList (initConfig zeroTape) ',' (by decide)).2
     (by decide) (by decide) (by decide) (by decide) (by decide) (by decide) (by decide)⟩

/-! ## The empty loop on a nonzero cell -/

/-- The configuration in which `"+[]"` spins: at the closing bracket with the
cell under the pointer equal to 1. -/
theorem plusLoop_two : iter "+[]".toList 2 (initConfig zeroTape)
    = some { index := 2, pointer := 50, data := zeroTape.set 50 1 } := by
  decide

theorem plusLoop_spin : step "+[]".toList { index := 2, pointer := 50, data := zeroTape.set 50 1 }
    = .next { index := 2, pointer := 50, data := zeroTape.set 50 1 } := by
  decide

theorem plusLoop_iter_spin (k : Nat) :
    iter "+[]".toList k { index := 2, pointer := 50, data := zeroTape.set 50 1 }
      = some { index := 2, pointer := 50, data := zeroTape.set 50 1 } := by
  induction k with
  | zero => rfl
  | succ k ih => simp only [iter, plusLoop_spin]; exact ih

theorem plusLoop_loop_spin (k : Nat) :
    brainfuckLoop "+[]".toList k { index := 2, pointer := 50, data := zeroTape.set 50 1 }
      = .outOfFuel := by
  induction k with
  | zero => rfl
  | succ k ih => simp only [brainfuckLoop, plusLoop_spin]; exact ih

theorem plusLoop_outOfFuel (n : Nat) : brainfuck n "+[]".toList zeroTape = .outOfFuel := by
  match n with
  | 0 => rfl
  | 1 => decide
  | k + 2 =>
    have h := brainfuckLoop_iter "+[]".toList 2 k _ _ plusLoop_two
    rw [Nat.add_comm] at h
    unfold brainfuck
    rw [h]
    exact plusLoop_loop_spin k

/-- C9: the program `"+[]"` loops forever.  For every instruction budget `n`
(a positive integer), after `n` iterations of the main loop of `brainfuck` from
the initial state the program counter is not at the terminator (position 3) and
the cell under the data pointer is nonzero; and a run with any budget ends in
budget exhaustion, never in a returned value. -/
theorem plus_empty_loop_runs_forever (n : Nat) (hn : 0 < n) :
    (∃ c, iter "+[]".toList n (initConfig zeroTape) = some c ∧ c.index ≠ 3 ∧
      ∃ v, readData c.data c.pointer = some v ∧ v ≠ 0) ∧
    ∀ budget : Nat, brainfuck budget "+[]".toList zeroTape = .outOfFuel := by
  refine ⟨?_, plusLoop_outOfFuel⟩
  match n, hn with
  | 1, _ => exact ⟨{ index := 1, pointer := 50, data := zeroTape.set 50 1 }, by decide,
      by decide, 1, by decide, by decide⟩
  | k + 2, _ =>
    refine ⟨{ index := 2, pointer := 50, data := zeroTape.set 50 1 }, ?_, by decide,
      1, by decide, by decide⟩
    have h := iter_add "+[]".toList 2 k _ _ plusLoop_two
    rw [Nat.add_comm] at h
    rw [h]
    exact plusLoop_iter_spin k

/-- Witness of C9 at a budget of five instructions. -/
theorem plus_empty_loop_runs_forever_witness :
    (0 < 5) ∧
    (∃ c, iter "+[]".toList 5 (initConfig zeroTape) = some c ∧ c.index ≠ 3 ∧
      ∃ v, readData c.data c.pointer = some v ∧ v ≠ 0) ∧
    brainfuck 5 "+[]".toList zeroTape = .outOfFuel :=
  ⟨by decide, (plus_empty_loop_runs_forever 5 (by decide)).1,
    (plus_empty_loop_runs_forever 5 (by decide)).2 5⟩

/-! ## Bracket-free programs -/

theorem iter_succ_of_step (str : List Char) (n : Nat) (c c1 : Config)
    (h : step str c = .next c1) : iter str (n + 1) c = iter str n c1 := by
  simp only [iter, h]

/-- The change of one cell by one symbol other than a bracket. -/
theorem step_straight (str : List Char) (i p : Int) (d : List Int) (ch : Char)
    (hf : fetch str i = some ch) (h0 : ch ≠ '\x00') (h3 : ch ≠ '[') (h4 : ch ≠ ']')
    (hp0 : 0 ≤ p) (hp1 : p < d.length) :
    ∃ d1, step str { index := i, pointer := p, data := d }
          = .next { index := i + 1, pointer := movePointer ch p, data := d1 } ∧
      d1.length = d.length ∧
      ∀ q v, readData d q = some v →
        readData d1 q = some (if p = q then
          (if ch = '+' then wrap32 (v + 1) else if ch = '-' then wrap32 (v - 1) else v)
          else v) := by
  by_cases g1 : ch = '+'
  · subst g1
    obtain ⟨v0, hv0⟩ := readData_inside d p hp0 hp1
    refine ⟨d.set p.toNat (wrap32 (v0 + 1)), ?_, by simp, fun q v hv => ?_⟩
    · rw [step_plus str { index := i, pointer := p, data := d } v0 hf hv0]
      simp [movePointer]
    · rw [readData_set _ _ _ _ hp0 hp1]
      by_cases hq : q = p
      · subst hq
        rw [hv0] at hv
        cases hv
        simp
      · rw [if_neg hq, if_neg (fun h => hq h.symm)]
        exact hv
  by_cases g2 : ch = '-'
  · subst g2
    obtain ⟨v0, hv0⟩ := readData_inside d p hp0 hp1
    refine ⟨d.set p.toNat (wrap32 (v0 - 1)), ?_, by simp, fun q v hv => ?_⟩
    · rw [step_minus str { index := i, pointer := p, data := d } v0 hf hv0]
      simp [movePointer]
    · rw [readData_set _ _ _ _ hp0 hp1]
      by_cases hq : q = p
      · subst hq
        rw [hv0] at hv
        cases hv
        simp
      · rw [if_neg hq, if_neg (fun h => hq h.symm)]
        exact hv
  refine ⟨d, ?_, rfl, fun q v hv => ?_⟩
  · exact step_plain str { index := i, pointer := p, data := d } ch hf h0 g1 g2 h3 h4
  · simp [g1, g2, hv]

/-- A bracket-free stretch `mid` of the program, run from its first symbol. -/
theorem straight_line (mid : List Char) : ∀ (pre post : List Char) (p : Int) (d : List Int),
    (∀ c ∈ mid, c ≠ '[' ∧ c ≠ ']' ∧ c ≠ '\x00') →
    (∀ k, k < mid.length →
      0 ≤ pointerAfter (mid.take k) p ∧ pointerAfter (mid.take k) p < d.length) →
    (∀ q v, readData d q = some v → wrap32 v = v) →
    ∃ d1, iter (pre ++ mid ++ post) mid.length
            { index := pre.length, pointer := p, data := d }
          = some { index := ((pre.length + mid.length : Nat) : Int),
                   pointer := pointerAfter mid p, data := d1 } ∧
      d1.length = d.length ∧
      ∀ q v, readData d q = some v → readData d1 q = some (wrap32 (v + netAt mid p q)) := by
  induction mid with
  | nil =>
    intro pre post p d _ _ hr
    refine ⟨d, by simp [iter, pointerAfter], rfl, fun q v hv => ?_⟩
    simp [netAt, hr q v hv, hv]
  | cons c cs ih =>
    intro pre post p d hfree hin hr
    have hc := hfree c (List.mem_cons_self _ _)
    have hfree1 : ∀ x ∈ cs, x ≠ '[' ∧ x ≠ ']' ∧ x ≠ '\x00' :=
      fun x hx => hfree x (List.mem_cons_of_mem _ hx)
    have hstr : pre ++ c :: cs ++ post = pre ++ c :: (cs ++ post) := by simp
    have hstr1 : pre ++ c :: cs ++ post = (pre ++ [c]) ++ cs ++ post := by simp
    have hf : fetch (pre ++ c :: cs ++ post) (pre.length : Int) = some c := by
      rw [hstr]; exact fetch_append_cons pre c (cs ++ post)
    have hp0 := hin 0 (by simp)
    simp only [List.take_zero, pointerAfter] at hp0
    obtain ⟨d1, hs, hl1, hd1⟩ := step_straight (pre ++ c :: cs ++ post) pre.length p d c hf
      hc.2.2 hc.1 hc.2.1 hp0.1 hp0.2
    have hin1 : ∀ k, k < cs.length →
        0 ≤ pointerAfter (cs.take k) (movePointer c p) ∧
        pointerAfter (cs.take k) (movePointer c p) < d1.length := by
      intro k hk
      have := hin (k + 1) (by simp; omega)
      rw [hl1]
      simpa [pointerAfter] using this
    have hr1 : ∀ q v, readData d1 q = some v → wrap32 v = v := by
      intro q v hv
      have hq := readData_some_inside _ _ _ hv
      rw [hl1] at hq
      obtain ⟨v0, hv0⟩ := readData_inside d q hq.1 hq.2
      have h1 := hd1 q v0 hv0
      rw [hv] at h1
      simp only [Option.some.injEq] at h1
      have hv0r := hr q v0 hv0
      rw [h1]
      split
      · split
        · exact wrap32_idem _
        · split
          · exact wrap32_idem _
          · exact hv0r
      · exact hv0r
    obtain ⟨d2, hit, hl2, hd2⟩ := ih (pre ++ [c]) post (movePointer c p) d1 hfree1 hin1 hr1
    refine ⟨d2, ?_, by rw [hl2, hl1], fun q v hv => ?_⟩
    · rw [List.length_cons, iter_succ_of_step _ _ _ _ hs]
      rw [hstr1]
      have e1 : ((pre ++ [c]).length : Int) = (pre.length : Int) + 1 := by simp
      have e2 : (((pre ++ [c]).length + cs.length : Nat) : Int)
          = ((pre.length + (cs.length + 1) : Nat) : Int) := by
        simp; omega
      rw [e1, e2] at hit
      exact hit
    · rw [hd2 q _ (hd1 q v hv)]
      simp only [netAt, Option.some.injEq]
      by_cases hq : p = q
      · simp only [if_pos hq]
        by_cases g1 : c = '+'
        · simp only [if_pos g1, wrap32_wrap32_add]
          congr 1; omega
        · simp only [if_neg g1]
          by_cases g2 : c = '-'
          · simp only [if_pos g2]
            rw [show v - 1 = v + (-1) by omega, wrap32_wrap32_add]
            congr 1; omega
          · simp only [if_neg g2]; congr 1; omega
      · simp only [if_neg hq]; congr 1; omega

theorem pointerAfter_count (l : List Char) (p : Int) :
    pointerAfter l p = p + (l.count '>' : Int) - (l.count '<' : Int) := by
  induction l generalizing p with
  | nil => simp [pointerAfter]
  | cons c cs ih =>
    rw [pointerAfter, ih, movePointer]
    by_cases g1 : c = '>'
    · subst g1; simp; omega
    · by_cases g2 : c = '<'
      · subst g2; simp; omega
      · rw [if_neg g1, if_neg g2, List.count_cons_of_ne (Ne.symm g1),
          List.count_cons_of_ne (Ne.symm g2)]

theorem zeroTape_inRange (q v : Int) (h : readData zeroTape q = some v) : v = 0 := by
  have hq := readData_some_inside _ _ _ h
  unfold readData at h
  rw [if_pos hq] at h
  have hlt : q.toNat < zeroTape.length := by omega
  rw [List.getElem?_eq_getElem hlt] at h
  simp only [Option.some.injEq] at h
  rw [← h]
  simp only [zeroTape, List.getElem_replicate]


theorem brainfuckLoop_halt (str : List Char) (c : Config) (v : Int) (extra : Nat)
    (hi : c.index = str.length) (hv : readData c.data c.pointer = some v) :
    brainfuckLoop str (1 + extra) c = .returned v c.data c.pointer := by
  rw [Nat.add_comm]
  simp only [brainfuckLoop, step_halt str c v hi hv]

/-- A whole bracket-free program run on the all-zero tape. -/
theorem straight_run (str : List Char)
    (hfree : ∀ c ∈ str, c ≠ '[' ∧ c ≠ ']' ∧ c ≠ '\x00')
    (hin : ∀ k, k ≤ str.length →
      0 ≤ pointerAfter (str.take k) 50 ∧ pointerAfter (str.take k) 50 < 100) :
    ∃ t, ∀ extra, brainfuck (str.length + 1 + extra) str zeroTape
      = .returned (wrap32 (netAt str 50 (pointerAfter str 50))) t (pointerAfter str 50) := by
  have hr : ∀ q v, readData zeroTape q = some v → wrap32 v = v := by
    intro q v hv
    rw [zeroTape_inRange q v hv]; rfl
  have hin1 : ∀ k, k < str.length →
      0 ≤ pointerAfter (str.take k) 50 ∧ pointerAfter (str.take k) 50 < zeroTape.length := by
    intro k hk
    have := hin k (by omega)
    simpa [zeroTape] using this
  obtain ⟨d1, hit, hl, hd⟩ := straight_line str [] [] 50 zeroTape hfree hin1 hr
  simp only [List.nil_append, List.append_nil, List.length_nil, Nat.zero_add,
    Nat.cast_zero] at hit
  have hend := hin str.length (le_refl _)
  rw [List.take_length] at hend
  obtain ⟨v0, hv0⟩ := readData_inside zeroTape (pointerAfter str 50) hend.1
    (by simpa [zeroTape] using hend.2)
  have hv1 := hd _ _ hv0
  rw [zeroTape_inRange _ _ hv0, Int.zero_add] at hv1
  refine ⟨d1, fun extra => ?_⟩
  unfold brainfuck
  have h0 : initConfig zeroTape = { index := 0, pointer := 50, data := zeroTape } := by decide
  rw [h0, Nat.add_assoc, brainfuckLoop_iter str _ _ _ _ hit]
  exact brainfuckLoop_halt str _ _ extra rfl hv1

/-- C4: for every program consisting solely of `'+'`, `'-'`, `'>'`, `'<'` whose
data pointer stays within `[0, 100)`, run from the all-zero tape with the
pointer at 50, `brainfuck` returns the number of `'+'` minus the number of
`'-'` among the instructions executed while the pointer was at the cell on
which it finally rests, reduced to 32 bits; in particular `brainfuck("+++")`
returns 3. -/
theorem brainfuck_straight_line_net (str : List Char)
    (hchars : ∀ c ∈ str, c = '+' ∨ c = '-' ∨ c = '>' ∨ c = '<')
    (hin : ∀ k, k ≤ str.length →
      0 ≤ pointerAfter (str.take k) 50 ∧ pointerAfter (str.take k) 50 < 100) :
    (∃ t, ∀ extra, brainfuck (str.length + 1 + extra) str zeroTape
      = .returned (wrap32 (netAt str 50 (pointerAfter str 50))) t (pointerAfter str 50)) ∧
    (∃ t p, ∀ extra, brainfuck (4 + extra) "+++".toList zeroTape = .returned 3 t p) := by
  constructor
  · refine straight_run str (fun c hc => ?_) hin
    rcases hchars c hc with h | h | h | h <;> subst h <;> decide
  · obtain ⟨t, h⟩ := straight_run "+++".toList (by decide) (by decide)
    exact ⟨t, 50, fun extra => h extra⟩

/-- Witness of C4 at the program `"+>-<+"`, whose pointer ends on the start cell
after two increments there; the decrement happens one cell to the right. -/
theorem brainfuck_straight_line_net_witness :
    ∃ t, brainfuck 6 "+>-<+".toList zeroTape = .returned 2 t 50 := by
  obtain ⟨t, h⟩ := (brainfuck_straight_line_net "+>-<+".toList (by decide) (by decide)).1
  exact ⟨t, h 0⟩

/-- C10: the data pointer starts at index 50, and for every bracket-free program
in which every prefix has (number of `'>'` minus number of `'<'`) within
`[-50, 49]`, the run of `brainfuck` on the all-zero tape never takes the
out-of-bounds branch: before every instruction the data pointer, the only index
at which the tape is read or written, lies in `[0, 100)`, and the run ends with
the read of the result cell at such an index. -/
theorem bracket_free_accesses_in_bounds (str : List Char)
    (hfree : ∀ c ∈ str, c ≠ '[' ∧ c ≠ ']' ∧ c ≠ '\x00')
    (hpre : ∀ k, k ≤ str.length →
      -50 ≤ ((str.take k).count '>' : Int) - ((str.take k).count '<' : Int) ∧
      ((str.take k).count '>' : Int) - ((str.take k).count '<' : Int) ≤ 49) :
    (initConfig zeroTape).pointer = 50 ∧
    (∀ k, k ≤ str.length → ∃ c, iter str k (initConfig zeroTape) = some c ∧
      0 ≤ c.pointer ∧ c.pointer < 100 ∧ c.data.length = 100) ∧
    ∃ v t p, 0 ≤ p ∧ p < 100 ∧ readData t p = some v ∧
      ∀ extra, brainfuck (str.length + 1 + extra) str zeroTape = .returned v t p := by
  have hin : ∀ k, k ≤ str.length →
      0 ≤ pointerAfter (str.take k) 50 ∧ pointerAfter (str.take k) 50 < 100 := by
    intro k hk
    have := hpre k hk
    rw [pointerAfter_count]
    omega
  have hr : ∀ q v, readData zeroTape q = some v → wrap32 v = v := by
    intro q v hv
    rw [zeroTape_inRange q v hv]; rfl
  have h0 : initConfig zeroTape = { index := 0, pointer := 50, data := zeroTape } := by decide
  refine ⟨by decide, fun k hk => ?_, ?_⟩
  · have hmid : ∀ j, j < (str.take k).length →
        0 ≤ pointerAfter ((str.take k).take j) 50 ∧
        pointerAfter ((str.take k).take j) 50 < zeroTape.length := by
      intro j hj
      rw [List.length_take] at hj
      have hjk : min j k = j := by omega
      rw [List.take_take, hjk]
      have := hin j (by omega)
      simpa [zeroTape] using this
    obtain ⟨d1, hit, hl, _⟩ := straight_line (str.take k) [] (str.drop k) 50 zeroTape
      (fun c hc => hfree c (List.mem_of_mem_take hc)) hmid hr
    have hlen : (str.take k).length = k := by rw [List.length_take]; omega
    simp only [List.nil_append, List.take_append_drop, List.length_nil, Nat.zero_add,
      Nat.cast_zero, hlen] at hit
    rw [h0]
    exact ⟨_, hit, (hin k hk).1, (hin k hk).2, by rw [hl]; rfl⟩
  · have hin1 : ∀ k, k < str.length →
        0 ≤ pointerAfter (str.take k) 50 ∧ pointerAfter (str.take k) 50 < zeroTape.length := by
      intro k hk
      have := hin k (by omega)
      simpa [zeroTape] using this
    obtain ⟨d1, hit, hl, hd⟩ := straight_line str [] [] 50 zeroTape hfree hin1 hr
    simp only [List.nil_append, List.append_nil, List.length_nil, Nat.zero_add,
      Nat.cast_zero] at hit
    have hend := hin str.length (le_refl _)
    rw [List.take_length] at hend
    obtain ⟨v1, hv1⟩ := readData_inside d1 (pointerAfter str 50) hend.1
      (by rw [hl]; simpa [zeroTape] using hend.2)
    refine ⟨v1, d1, _, hend.1, hend.2, hv1, fun extra => ?_⟩
    unfold brainfuck
    rw [h0, Nat.add_assoc, brainfuckLoop_iter str _ _ _ _ hit]
    exact brainfuckLoop_halt str _ _ extra rfl hv1

/-- Witness of C10 at a program that walks to the leftmost cell and writes
there. -/
theorem bracket_free_accesses_in_bounds_witness :
    ∃ v t p, 0 ≤ p ∧ p < 100 ∧ readData t p = some v ∧
      ∀ extra, brainfuck (52 + extra)
        "<<<<<<<<<<<<<<<<<<<<<<<<<<<<<<<<<<<<<<<<<<<<<<<<<<+".toList zeroTape
        = .returned v t p :=
  (bracket_free_accesses_in_bounds
    "<<<<<<<<<<<<<<<<<<<<<<<<<<<<<<<<<<<<<<<<<<<<<<<<<<+".toList
    (by decide) (by decide)).2.2

/-! ## Balanced texts and structured programs -/

theorem depthScan_flat (P : Prog) : ∀ (rest : List Char) (d : Nat), P.wf →
    depthScan (P.flat ++ rest) d = depthScan rest d := by
  induction P with
  | done => intro rest d _; rfl
  | op c r ih =>
    intro rest d hw
    simp only [Prog.wf] at hw
    have e : (Prog.op c r).flat ++ rest = c :: (r.flat ++ rest) := by simp [Prog.flat]
    rw [e]
    simp only [depthScan, if_neg hw.1, if_neg hw.2.1]
    exact ih rest d hw.2.2
  | loop b r ihb ihr =>
    intro rest d hw
    simp only [Prog.wf] at hw
    have e : (Prog.loop b r).flat ++ rest = '[' :: (b.flat ++ ']' :: (r.flat ++ rest)) := by
      simp [Prog.flat]
    rw [e]
    simp only [depthScan, if_true]
    rw [ihb _ _ hw.1]
    simp only [depthScan, if_true, Char.reduceEq, if_false]
    exact ihr rest d hw.2

theorem balanced_flat (P : Prog) (hw : P.wf) : Balanced P.flat := by
  have := depthScan_flat P [] 0 hw
  simpa [Balanced, depthScan] using this

theorem depthScan_decompose (w : List Char) : ∀ d : Nat, depthScan w d = some 0 →
    ∃ (P : Prog) (Ps : List Prog), P.wf ∧ (∀ Q ∈ Ps, Q.wf) ∧ Ps.length = d ∧
      w = P.flat ++ closes Ps := by
  induction w with
  | nil =>
    intro d h
    simp only [depthScan, Option.some.injEq] at h
    subst h
    exact ⟨.done, [], trivial, by simp, rfl, rfl⟩
  | cons c cs ih =>
    intro d h
    simp only [depthScan] at h
    by_cases g1 : c = '['
    · rw [if_pos g1] at h
      obtain ⟨P, Ps, hP, hPs, hlen, hcs⟩ := ih (d + 1) h
      match Ps, hPs, hlen, hcs with
      | Q :: Qs, hPs, hlen, hcs =>
        refine ⟨.loop P Q, Qs, ⟨hP, hPs Q (List.mem_cons_self _ _)⟩,
          fun R hR => hPs R (List.mem_cons_of_mem _ hR), by simpa using hlen, ?_⟩
        rw [hcs, g1]
        simp [Prog.flat, closes]
    · rw [if_neg g1] at h
      by_cases g2 : c = ']'
      · rw [if_pos g2] at h
        match d, h with
        | d1 + 1, h =>
          obtain ⟨P, Ps, hP, hPs, hlen, hcs⟩ := ih d1 h
          refine ⟨.done, P :: Ps, trivial, ?_, by simp [hlen], ?_⟩
          · intro R hR
            rcases List.mem_cons.1 hR with h1 | h1
            · subst h1; exact hP
            · exact hPs R h1
          · rw [hcs, g2]
            simp [Prog.flat, closes]
      · rw [if_neg g2] at h
        obtain ⟨P, Ps, hP, hPs, hlen, hcs⟩ := ih d h
        refine ⟨.op c P, Ps, ⟨g1, g2, hP⟩, hPs, hlen, ?_⟩
        rw [hcs]
        simp [Prog.flat]

theorem balanced_decompose (w : List Char) (h : Balanced w) :
    ∃ P : Prog, P.wf ∧ P.flat = w := by
  obtain ⟨P, Ps, hP, _, hlen, hw⟩ := depthScan_decompose w 0 h
  have : Ps = [] := List.length_eq_zero.1 hlen
  subst this
  exact ⟨P, hP, by simp [hw, closes]⟩

/-! ## Brackets inside a structured text -/

theorem flat_open_split (P : Prog) : ∀ (pre rest : List Char), P.wf →
    P.flat = pre ++ '[' :: rest →
    ∃ (b : Prog) (post : List Char), b.wf ∧ rest = b.flat ++ ']' :: post := by
  induction P with
  | done => intro pre rest _ h; simp [Prog.flat] at h
  | op c r ih =>
    intro pre rest hw h
    simp only [Prog.wf] at hw
    simp only [Prog.flat] at h
    match pre, h with
    | [], h =>
      simp only [List.nil_append, List.cons.injEq] at h
      exact absurd h.1 hw.1
    | x :: pre1, h =>
      simp only [List.cons_append, List.cons.injEq] at h
      exact ih pre1 rest hw.2.2 h.2
  | loop b r ihb ihr =>
    intro pre rest hw h
    simp only [Prog.wf] at hw
    simp only [Prog.flat] at h
    match pre, h with
    | [], h =>
      simp only [List.nil_append, List.cons.injEq, true_and] at h
      exact ⟨b, r.flat, hw.1, h.symm⟩
    | x :: pre1, h =>
      simp only [List.cons_append, List.cons.injEq] at h
      obtain ⟨_, h⟩ := h
      rcases List.append_eq_append_iff.1 h with ⟨a1, ha, hb⟩ | ⟨c1, ha, hb⟩
      · -- the bracket lies in the continuation `r`
        match a1, hb with
        | [], hb => simp at hb
        | y :: a2, hb =>
          simp only [List.cons_append, List.cons.injEq] at hb
          exact ihr a2 rest hw.2 hb.2
      · -- the bracket lies in the body `b`
        match c1, hb with
        | [], hb => simp at hb
        | y :: c2, hb =>
          simp only [List.cons_append, List.cons.injEq] at hb
          obtain ⟨hy, hb⟩ := hb
          subst hy
          obtain ⟨b1, post1, hb1, hc2⟩ := ihb pre1 c2 hw.1 ha
          refine ⟨b1, post1 ++ ']' :: r.flat, hb1, ?_⟩
          rw [hb, hc2]
          simp

theorem flat_close_split (P : Prog) : ∀ (pre rest : List Char), P.wf →
    P.flat = pre ++ ']' :: rest →
    ∃ (b : Prog) (pre0 : List Char), b.wf ∧ pre = pre0 ++ '[' :: b.flat := by
  induction P with
  | done => intro pre rest _ h; simp [Prog.flat] at h
  | op c r ih =>
    intro pre rest hw h
    simp only [Prog.wf] at hw
    simp only [Prog.flat] at h
    match pre, h with
    | [], h =>
      simp only [List.nil_append, List.cons.injEq] at h
      exact absurd h.1 hw.2.1
    | x :: pre1, h =>
      simp only [List.cons_append, List.cons.injEq] at h
      obtain ⟨b, pre0, hb, hp⟩ := ih pre1 rest hw.2.2 h.2
      exact ⟨b, x :: pre0, hb, by rw [hp]; rfl⟩
  | loop b r ihb ihr =>
    intro pre rest hw h
    simp only [Prog.wf] at hw
    simp only [Prog.flat] at h
    match pre, h with
    | [], h => simp at h
    | x :: pre1, h =>
      simp only [List.cons_append, List.cons.injEq] at h
      obtain ⟨hx, h⟩ := h
      subst hx
      rcases List.append_eq_append_iff.1 h with ⟨a1, ha, hb⟩ | ⟨c1, ha, hb⟩
      · match a1, hb with
        | [], hb =>
          -- the closing bracket of this very loop
          simp only [List.nil_append, List.cons.injEq, true_and] at hb
          refine ⟨b, [], hw.1, ?_⟩
          rw [ha]; simp
        | y :: a2, hb =>
          simp only [List.cons_append, List.cons.injEq] at hb
          obtain ⟨hy, hb⟩ := hb
          subst hy
          obtain ⟨b1, pre0, hb1, hp⟩ := ihr a2 rest hw.2 hb
          refine ⟨b1, '[' :: (b.flat ++ ']' :: pre0), hb1, ?_⟩
          rw [ha, hp]; simp
      · match c1, hb with
        | [], hb =>
          simp only [List.nil_append, List.cons.injEq, true_and] at hb
          refine ⟨b, [], hw.1, ?_⟩
          rw [List.append_nil] at ha
          rw [← ha]; simp
        | y :: c2, hb =>
          simp only [List.cons_append, List.cons.injEq] at hb
          obtain ⟨hy, hb⟩ := hb
          subst hy
          obtain ⟨b1, pre0, hb1, hp⟩ := ihb pre1 c2 hw.1 ha
          exact ⟨b1, '[' :: pre0, hb1, by rw [hp]; rfl⟩

/-! ## The scans over a structured text -/

theorem jumpFrontLoop_step (str : List Char) (f : Nat) (i count : Int) (c : Char)
    (hf : fetch str i = some c) (h0 : c ≠ '\x00')
    (hc : (if c = '[' then count + 1 else if c = ']' then count - 1 else count) ≠ 0) :
    jumpFrontLoop str (f + 1) i count
      = jumpFrontLoop str f (i + 1)
          (if c = '[' then count + 1 else if c = ']' then count - 1 else count) := by
  simp only [jumpFrontLoop, hf, if_neg h0, if_neg hc]

theorem jumpBackLoop_step (str : List Char) (f : Nat) (i count : Int) (c : Char)
    (hi : 0 ≤ i) (hf : fetch str i = some c)
    (hc : (if c = '[' then count - 1 else if c = ']' then count + 1 else count) ≠ 0) :
    jumpBackLoop str (f + 1) i count
      = jumpBackLoop str f (i - 1)
          (if c = '[' then count - 1 else if c = ']' then count + 1 else count) := by
  have hi1 : ¬ i < 0 := by omega
  simp only [jumpBackLoop, hf, if_neg hi1, if_neg hc]

theorem jumpFrontLoop_flat (str : List Char) (hnul : ∀ c ∈ str, c ≠ '\x00') (P : Prog) :
    ∀ (pre rest : List Char) (f : Nat) (count : Int), P.wf → str = pre ++ P.flat ++ rest →
      0 < count →
      jumpFrontLoop str (P.flat.length + f) pre.length count
        = jumpFrontLoop str f ((pre.length + P.flat.length : Nat) : Int) count := by
  induction P with
  | done => intro pre rest f count _ _ _; simp [Prog.flat]
  | op c r ih =>
    intro pre rest f count hw hstr hc
    simp only [Prog.wf] at hw
    have e1 : str = pre ++ c :: (r.flat ++ rest) := by rw [hstr]; simp [Prog.flat]
    have e2 : str = (pre ++ [c]) ++ r.flat ++ rest := by rw [hstr]; simp [Prog.flat]
    have hf : fetch str pre.length = some c := by rw [e1]; exact fetch_append_cons _ _ _
    have hc0 : c ≠ '\x00' := hnul c (by rw [e1]; simp)
    have hfuel : (Prog.op c r).flat.length + f = (r.flat.length + f) + 1 := by
      simp [Prog.flat]; omega
    rw [hfuel, jumpFrontLoop_step str _ _ _ c hf hc0 (by rw [if_neg hw.1, if_neg hw.2.1]; omega)]
    rw [if_neg hw.1, if_neg hw.2.1]
    have h := ih (pre ++ [c]) rest f count hw.2.2 e2 hc
    have i1 : (((pre ++ [c]).length : Nat) : Int) = (pre.length : Int) + 1 := by simp
    have i2 : (((pre ++ [c]).length + r.flat.length : Nat) : Int)
        = ((pre.length + (Prog.op c r).flat.length : Nat) : Int) := by
      simp [Prog.flat]; omega
    rw [i1, i2] at h
    exact h
  | loop b r ihb ihr =>
    intro pre rest f count hw hstr hc
    simp only [Prog.wf] at hw
    have e1 : str = pre ++ '[' :: (b.flat ++ ']' :: (r.flat ++ rest)) := by
      rw [hstr]; simp [Prog.flat]
    have e2 : str = (pre ++ ['[']) ++ b.flat ++ (']' :: (r.flat ++ rest)) := by
      rw [hstr]; simp [Prog.flat]
    have e3 : str = (pre ++ '[' :: b.flat) ++ ']' :: (r.flat ++ rest) := by
      rw [hstr]; simp [Prog.flat]
    have e4 : str = (pre ++ '[' :: b.flat ++ [']']) ++ r.flat ++ rest := by
      rw [hstr]; simp [Prog.flat]
    have hf1 : fetch str pre.length = some '[' := by rw [e1]; exact fetch_append_cons _ _ _
    have hf2 : fetch str ((pre ++ '[' :: b.flat).length : Nat) = some ']' := by
      rw [e3]; exact fetch_append_cons _ _ _
    have hfuel : (Prog.loop b r).flat.length + f
        = (b.flat.length + ((r.flat.length + f) + 1)) + 1 := by
      simp [Prog.flat]; omega
    rw [hfuel, jumpFrontLoop_step str _ _ _ '[' hf1 (by decide) (by simp; omega)]
    simp only [if_true]
    have h1 := ihb (pre ++ ['[']) (']' :: (r.flat ++ rest)) ((r.flat.length + f) + 1)
      (count + 1) hw.1 e2 (by omega)
    have i1 : (((pre ++ ['[']).length : Nat) : Int) = (pre.length : Int) + 1 := by simp
    have i2 : (((pre ++ ['[']).length + b.flat.length : Nat) : Int)
        = (((pre ++ '[' :: b.flat).length : Nat) : Int) := by
      simp; omega
    rw [i1, i2] at h1
    rw [h1, jumpFrontLoop_step str _ _ _ ']' hf2 (by decide) (by simp; omega)]
    simp only [Char.reduceEq, if_false, if_true]
    have h2 := ihr (pre ++ '[' :: b.flat ++ [']']) rest f count hw.2 e4 hc
    have i3 : (((pre ++ '[' :: b.flat ++ [']']).length : Nat) : Int)
        = (((pre ++ '[' :: b.flat).length : Nat) : Int) + 1 := by simp; omega
    have i4 : (((pre ++ '[' :: b.flat ++ [']']).length + r.flat.length : Nat) : Int)
        = ((pre.length + (Prog.loop b r).flat.length : Nat) : Int) := by
      simp [Prog.flat]; omega
    rw [i3, i4] at h2
    have i5 : count + 1 - 1 = count := by omega
    rw [i5]
    exact h2

theorem jumpBackLoop_flat (str : List Char) (P : Prog) :
    ∀ (pre rest : List Char) (f : Nat) (count : Int), P.wf → str = pre ++ P.flat ++ rest →
      0 < count →
      jumpBackLoop str (P.flat.length + f) (((pre.length + P.flat.length : Nat) : Int) - 1) count
        = jumpBackLoop str f ((pre.length : Int) - 1) count := by
  induction P with
  | done => intro pre rest f count _ _ _; simp [Prog.flat]
  | op c r ih =>
    intro pre rest f count hw hstr hc
    simp only [Prog.wf] at hw
    have e1 : str = pre ++ c :: (r.flat ++ rest) := by rw [hstr]; simp [Prog.flat]
    have e2 : str = (pre ++ [c]) ++ r.flat ++ rest := by rw [hstr]; simp [Prog.flat]
    have hf : fetch str pre.length = some c := by rw [e1]; exact fetch_append_cons _ _ _
    have hfuel : (Prog.op c r).flat.length + f = r.flat.length + (f + 1) := by
      simp [Prog.flat]; omega
    have h := ih (pre ++ [c]) rest (f + 1) count hw.2.2 e2 hc
    have i1 : (((pre ++ [c]).length : Nat) : Int) - 1 = (pre.length : Int) := by simp
    have i2 : (((pre ++ [c]).length + r.flat.length : Nat) : Int)
        = ((pre.length + (Prog.op c r).flat.length : Nat) : Int) := by
      simp [Prog.flat]; omega
    rw [i1, i2] at h
    rw [hfuel, h, jumpBackLoop_step str _ _ _ c (by omega) hf
      (by rw [if_neg hw.1, if_neg hw.2.1]; omega)]
    rw [if_neg hw.1, if_neg hw.2.1]
  | loop b r ihb ihr =>
    intro pre rest f count hw hstr hc
    simp only [Prog.wf] at hw
    have e1 : str = pre ++ '[' :: (b.flat ++ ']' :: (r.flat ++ rest)) := by
      rw [hstr]; simp [Prog.flat]
    have e2 : str = (pre ++ ['[']) ++ b.flat ++ (']' :: (r.flat ++ rest)) := by
      rw [hstr]; simp [Prog.flat]
    have e3 : str = (pre ++ '[' :: b.flat) ++ ']' :: (r.flat ++ rest) := by
      rw [hstr]; simp [Prog.flat]
    have e4 : str = (pre ++ '[' :: b.flat ++ [']']) ++ r.flat ++ rest := by
      rw [hstr]; simp [Prog.flat]
    have hf1 : fetch str pre.length = some '[' := by rw [e1]; exact fetch_append_cons _ _ _
    have hf2 : fetch str ((pre ++ '[' :: b.flat).length : Nat) = some ']' := by
      rw [e3]; exact fetch_append_cons _ _ _
    have hfuel : (Prog.loop b r).flat.length + f
        = r.flat.length + ((b.flat.length + (f + 1)) + 1) := by
      simp [Prog.flat]; omega
    have h2 := ihr (pre ++ '[' :: b.flat ++ [']']) rest ((b.flat.length + (f + 1)) + 1) count
      hw.2 e4 hc
    have i3 : (((pre ++ '[' :: b.flat ++ [']']).length : Nat) : Int) - 1
        = (((pre ++ '[' :: b.flat).length : Nat) : Int) := by simp; omega
    have i4 : (((pre ++ '[' :: b.flat ++ [']']).length + r.flat.length : Nat) : Int)
        = ((pre.length + (Prog.loop b r).flat.length : Nat) : Int) := by
      simp [Prog.flat]; omega
    rw [i3, i4] at h2
    rw [hfuel, h2, jumpBackLoop_step str _ _ _ ']' (by omega) hf2 (by simp; omega)]
    simp only [Char.reduceEq, if_false, if_true]
    have h1 := ihb (pre ++ ['[']) (']' :: (r.flat ++ rest)) (f + 1) (count + 1) hw.1 e2
      (by omega)
    have i1 : (((pre ++ ['[']).length : Nat) : Int) - 1 = (pre.length : Int) := by simp
    have i2 : (((pre ++ ['[']).length + b.flat.length : Nat) : Int) - 1
        = (((pre ++ '[' :: b.flat).length : Nat) : Int) - 1 := by
      simp; omega
    rw [i1, i2] at h1
    rw [h1, jumpBackLoop_step str _ _ _ '[' (by omega) hf1 (by simp; omega)]
    simp only [if_true]
    have i5 : count + 1 - 1 = count := by omega
    rw [i5]

/-- The forward scan from the opening bracket of a loop stops on its closing
bracket. -/
theorem jumpFront_loop (str : List Char) (hnul : ∀ c ∈ str, c ≠ '\x00') (b : Prog)
    (pre post : List Char) (hw : b.wf) (hstr : str = pre ++ '[' :: (b.flat ++ ']' :: post)) :
    jumpFront str pre.length = some (((pre.length + 1 + b.flat.length : Nat) : Int)) := by
  have hf1 : fetch str pre.length = some '[' := by rw [hstr]; exact fetch_append_cons _ _ _
  have e2 : str = (pre ++ ['[']) ++ b.flat ++ (']' :: post) := by rw [hstr]; simp
  have e3 : str = (pre ++ '[' :: b.flat) ++ ']' :: post := by rw [hstr]; simp
  have hf2 : fetch str ((pre ++ '[' :: b.flat).length : Nat) = some ']' := by
    rw [e3]; exact fetch_append_cons _ _ _
  have hfuel : str.length + 1 = (b.flat.length + ((pre.length + post.length + 1) + 1)) + 1 := by
    rw [hstr]; simp; omega
  unfold jumpFront
  rw [hf1]
  simp only [ne_eq, not_true_eq_false, if_false]
  rw [hfuel, jumpFrontLoop_step str _ _ _ '[' hf1 (by decide) (by simp)]
  simp only [if_true]
  have h1 := jumpFrontLoop_flat str hnul b (pre ++ ['[']) (']' :: post)
    ((pre.length + post.length + 1) + 1) (0 + 1) hw e2 (by omega)
  have i1 : (((pre ++ ['[']).length : Nat) : Int) = (pre.length : Int) + 1 := by simp
  have i2 : (((pre ++ ['[']).length + b.flat.length : Nat) : Int)
      = (((pre ++ '[' :: b.flat).length : Nat) : Int) := by
    simp; omega
  rw [i1, i2] at h1
  rw [h1]
  simp only [jumpFrontLoop, hf2, Char.reduceEq, if_false, if_true]
  simp
  omega

/-- The backward scan from the closing bracket of a loop stops on its opening
bracket. -/
theorem jumpBack_loop (str : List Char) (b : Prog)
    (pre post : List Char) (hw : b.wf) (hstr : str = pre ++ '[' :: (b.flat ++ ']' :: post)) :
    jumpBack str (((pre.length + 1 + b.flat.length : Nat) : Int)) = some (pre.length : Int) := by
  have hf1 : fetch str pre.length = some '[' := by rw [hstr]; exact fetch_append_cons _ _ _
  have e2 : str = (pre ++ ['[']) ++ b.flat ++ (']' :: post) := by rw [hstr]; simp
  have e3 : str = (pre ++ '[' :: b.flat) ++ ']' :: post := by rw [hstr]; simp
  have hf2 : fetch str ((pre ++ '[' :: b.flat).length : Nat) = some ']' := by
    rw [e3]; exact fetch_append_cons _ _ _
  have i0 : ((pre.length + 1 + b.flat.length : Nat) : Int)
      = (((pre ++ '[' :: b.flat).length : Nat) : Int) := by simp; omega
  have hfuel : str.length + 2 = (b.flat.length + ((pre.length + post.length + 2) + 1)) + 1 := by
    rw [hstr]; simp; omega
  unfold jumpBack
  rw [i0, hf2]
  simp only [ne_eq, not_true_eq_false, if_false]
  rw [hfuel, jumpBackLoop_step str _ _ _ ']' (by omega) hf2 (by simp)]
  simp only [Char.reduceEq, if_false, if_true]
  have h1 := jumpBackLoop_flat str b (pre ++ ['[']) (']' :: post)
    ((pre.length + post.length + 2) + 1) (0 + 1) hw e2 (by omega)
  have i1 : (((pre ++ ['[']).length : Nat) : Int) - 1 = (pre.length : Int) := by simp
  have i2 : (((pre ++ ['[']).length + b.flat.length : Nat) : Int) - 1
      = (((pre ++ '[' :: b.flat).length : Nat) : Int) - 1 := by
    simp; omega
  rw [i1, i2] at h1
  rw [h1]
  have hnn : ¬ ((pre.length : Int) < 0) := by omega
  simp only [jumpBackLoop, hf1, if_neg hnn, if_true]
  simp

/-! ## Positions and matching brackets -/

theorem split_at (str : List Char) : ∀ (i : Nat) (c : Char), str[i]? = some c →
    str = str.take i ++ c :: str.drop (i + 1) ∧ (str.take i).length = i := by
  induction str with
  | nil => intro i c h; simp at h
  | cons x xs ih =>
    intro i c h
    match i, h with
    | 0, h =>
      simp only [List.getElem?_cons_zero, Option.some.injEq] at h
      subst h; simp
    | k + 1, h =>
      simp only [List.getElem?_cons_succ] at h
      obtain ⟨h1, h2⟩ := ih k c h
      refine ⟨?_, by simpa using h2⟩
      simp only [List.take_succ_cons, List.drop_succ_cons, List.cons_append, List.cons.injEq,
        true_and]
      exact h1

theorem fetch_inside (str : List Char) (i : Int) (ch : Char)
    (hf : fetch str i = some ch) (h0 : ch ≠ '\x00') :
    0 ≤ i ∧ i < str.length ∧ str[i.toNat]? = some ch := by
  unfold fetch at hf
  by_cases h1 : 0 ≤ i ∧ i < str.length
  · rw [if_pos h1] at hf
    exact ⟨h1.1, h1.2, hf⟩
  · rw [if_neg h1] at hf
    by_cases h2 : i = str.length
    · rw [if_pos h2] at hf
      simp only [Option.some.injEq] at hf
      exact absurd hf.symm h0
    · rw [if_neg h2] at hf; cases hf

theorem isMatch_split (str : List Char) (i j : Nat) (h : IsMatch str i j) :
    ∃ (pre w post : List Char), str = pre ++ '[' :: (w ++ ']' :: post) ∧ pre.length = i ∧
      pre.length + 1 + w.length = j ∧ Balanced w := by
  obtain ⟨hij, hi, hj, hb⟩ := h
  obtain ⟨e1, l1⟩ := split_at str i '[' hi
  have hjlt : j < str.length := by
    by_contra hc
    rw [List.getElem?_eq_none (by omega)] at hj
    cases hj
  have hj2 : (str.drop (i + 1))[j - i - 1]? = some ']' := by
    rw [List.getElem?_drop]
    have : i + 1 + (j - i - 1) = j := by omega
    rw [this]; exact hj
  obtain ⟨e2, l2⟩ := split_at (str.drop (i + 1)) (j - i - 1) ']' hj2
  refine ⟨str.take i, (str.drop (i + 1)).take (j - i - 1),
    (str.drop (i + 1)).drop (j - i - 1 + 1), ?_, l1, ?_, hb⟩
  · rw [← e2]; exact e1
  · rw [l1, l2]; omega

theorem isMatch_of_split (str pre w post : List Char)
    (hstr : str = pre ++ '[' :: (w ++ ']' :: post)) (hb : Balanced w) :
    IsMatch str pre.length (pre.length + 1 + w.length) := by
  refine ⟨by omega, ?_, ?_, ?_⟩
  · rw [hstr]; exact getElem?_append_cons _ _ _
  · have e : str = (pre ++ '[' :: w) ++ ']' :: post := by rw [hstr]; simp
    have l : (pre ++ '[' :: w).length = pre.length + 1 + w.length := by simp; omega
    rw [e, ← l]; exact getElem?_append_cons _ _ _
  · have e : str = (pre ++ ['[']) ++ (w ++ ']' :: post) := by rw [hstr]; simp
    have l : (pre ++ ['[']).length = pre.length + 1 := by simp
    have k : pre.length + 1 + w.length - pre.length - 1 = w.length := by omega
    rw [e, ← l, List.drop_left, l, k, List.take_left]
    exact hb

theorem balanced_open (str : List Char) (hbal : Balanced str) (i : Nat)
    (hi : str[i]? = some '[') :
    ∃ (pre : List Char) (b : Prog) (post : List Char), b.wf ∧
      str = pre ++ '[' :: (b.flat ++ ']' :: post) ∧ pre.length = i := by
  obtain ⟨P, hP, hflat⟩ := balanced_decompose str hbal
  obtain ⟨e1, l1⟩ := split_at str i '[' hi
  obtain ⟨b, post, hb, hrest⟩ := flat_open_split P (str.take i) (str.drop (i + 1)) hP
    (by rw [hflat]; exact e1)
  exact ⟨str.take i, b, post, hb, by rw [← hrest]; exact e1, l1⟩

theorem balanced_close (str : List Char) (hbal : Balanced str) (j : Nat)
    (hj : str[j]? = some ']') :
    ∃ (pre : List Char) (b : Prog) (post : List Char), b.wf ∧
      str = pre ++ '[' :: (b.flat ++ ']' :: post) ∧ pre.length + 1 + b.flat.length = j := by
  obtain ⟨P, hP, hflat⟩ := balanced_decompose str hbal
  obtain ⟨e1, l1⟩ := split_at str j ']' hj
  obtain ⟨b, pre0, hb, hpre⟩ := flat_close_split P (str.take j) (str.drop (j + 1)) hP
    (by rw [hflat]; exact e1)
  refine ⟨pre0, b, str.drop (j + 1), hb, ?_, ?_⟩
  · have : str = (pre0 ++ '[' :: b.flat) ++ ']' :: str.drop (j + 1) := by
      rw [← hpre]; exact e1
    exact this.trans (by simp)
  · rw [hpre] at l1
    simp at l1
    omega

/-- C2: for every program whose brackets are balanced and every position `i`
holding `'['`, the matching `']'` exists, and with `j` its position `jumpFront`
started at index `i` ends with index `j` and `jumpBack` started at index `j`
ends with index `i`: the two scans land on each other's position. -/
theorem jump_round_trip (str : List Char) (hnul : ∀ c ∈ str, c ≠ '\x00')
    (hbal : Balanced str) (i : Nat) (hi : str[i]? = some '[') :
    (∃ j, IsMatch str i j) ∧
    ∀ j, IsMatch str i j →
      jumpFront str (i : Int) = some (j : Int) ∧ jumpBack str (j : Int) = some (i : Int) := by
  constructor
  · obtain ⟨pre, b, post, hb, hstr, hl⟩ := balanced_open str hbal i hi
    refine ⟨pre.length + 1 + b.flat.length, ?_⟩
    rw [← hl]
    exact isMatch_of_split str pre b.flat post hstr (balanced_flat b hb)
  · intro j hm
    obtain ⟨pre, w, post, hstr, hl, hj, hw⟩ := isMatch_split str i j hm
    obtain ⟨b, hb, hflat⟩ := balanced_decompose w hw
    subst hflat
    rw [← hl, ← hj]
    exact ⟨jumpFront_loop str hnul b pre post hb hstr, jumpBack_loop str b pre post hb hstr⟩

/-- Witness of C2 at the loop of the program of `main`: the brackets at
positions 4 and 18. -/
theorem jump_round_trip_witness :
    IsMatch "++++[>++++++++++<-]>++".toList 4 18 ∧
    jumpFront "++++[>++++++++++<-]>++".toList 4 = some 18 ∧
    jumpBack "++++[>++++++++++<-]>++".toList 18 = some 4 :=
  ⟨by decide,
   (jump_round_trip "++++[>++++++++++<-]>++".toList (by decide) (by decide) 4 (by decide)).2
     18 (by decide)⟩

/-! ## The program counter stays inside the program -/

/-- Where the `switch` leaves the program counter. -/
theorem dispatch_index (str : List Char) (ch : Char) (c c1 : Config)
    (h : dispatch str ch c = .ok c1) :
    c1.index = c.index ∨
    (ch = '[' ∧ jumpFront str c.index = some c1.index) ∨
    (ch = ']' ∧ jumpBack str c.index = some c1.index) := by
  unfold dispatch at h
  split_ifs at h with g1 g2 g3 g4 g5 g6 g7 g8
  all_goals first
    | (simp only [Dispatch.ok.injEq] at h; subst h; exact Or.inl rfl)
    | skip
  all_goals
    cases hv : readData c.data c.pointer with
    | none => rw [hv] at h; cases h
    | some v =>
      rw [hv] at h
      simp only at h
      first
        | (cases hw : writeData c.data c.pointer (wrap32 (v + 1)) with
            | none => rw [hw] at h; cases h
            | some d => rw [hw] at h; simp only [Dispatch.ok.injEq] at h; subst h; exact Or.inl rfl)
        | (cases hw : writeData c.data c.pointer (wrap32 (v - 1)) with
            | none => rw [hw] at h; cases h
            | some d => rw [hw] at h; simp only [Dispatch.ok.injEq] at h; subst h; exact Or.inl rfl)
        | (split_ifs at h with hz
           · cases hj : jumpFront str c.index with
             | none => rw [hj] at h; cases h
             | some i =>
               rw [hj] at h; simp only [Dispatch.ok.injEq] at h; subst h
               exact Or.inr (Or.inl ⟨g7, rfl⟩)
           · simp only [Dispatch.ok.injEq] at h; subst h; exact Or.inl rfl)
        | (split_ifs at h with hz
           · cases hj : jumpBack str c.index with
             | none => rw [hj] at h; cases h
             | some i =>
               rw [hj] at h; simp only [Dispatch.ok.injEq] at h; subst h
               exact Or.inr (Or.inr ⟨g8, rfl⟩)
           · simp only [Dispatch.ok.injEq] at h; subst h; exact Or.inl rfl)

theorem jumpFront_in_bounds (str : List Char) (hnul : ∀ c ∈ str, c ≠ '\x00')
    (hbal : Balanced str) (i : Int) (hf : fetch str i = some '[') :
    ∃ j, jumpFront str i = some j ∧ i < j ∧ j < str.length := by
  obtain ⟨h0, _, hi⟩ := fetch_inside str i '[' hf (by decide)
  obtain ⟨pre, b, post, hb, hstr, hl⟩ := balanced_open str hbal i.toNat hi
  have hj := jumpFront_loop str hnul b pre post hb hstr
  have e : ((pre.length : Nat) : Int) = i := by rw [hl]; omega
  rw [e] at hj
  refine ⟨_, hj, ?_, ?_⟩
  · rw [← e]; push_cast; omega
  · rw [hstr]; simp; omega

theorem jumpBack_in_bounds (str : List Char) (hbal : Balanced str) (i : Int)
    (hf : fetch str i = some ']') :
    ∃ j, jumpBack str i = some j ∧ 0 ≤ j ∧ j < i := by
  obtain ⟨h0, _, hi⟩ := fetch_inside str i ']' hf (by decide)
  obtain ⟨pre, b, post, hb, hstr, hl⟩ := balanced_close str hbal i.toNat hi
  have hj := jumpBack_loop str b pre post hb hstr
  have e : ((pre.length + 1 + b.flat.length : Nat) : Int) = i := by rw [hl]; omega
  rw [e] at hj
  refine ⟨_, hj, by omega, ?_⟩
  rw [← e]; push_cast; omega

theorem dispatch_in_bounds (str : List Char) (hnul : ∀ c ∈ str, c ≠ '\x00')
    (hbal : Balanced str) (c c1 : Config) (ch : Char)
    (hf : fetch str c.index = some ch) (h0 : ch ≠ '\x00')
    (hd : dispatch str ch c = .ok c1) :
    0 ≤ c1.index ∧ c1.index < str.length := by
  obtain ⟨hi0, hi1, _⟩ := fetch_inside str c.index ch hf h0
  rcases dispatch_index str ch c c1 hd with h | ⟨hc, hj⟩ | ⟨hc, hj⟩
  · rw [h]; exact ⟨hi0, hi1⟩
  · subst hc
    obtain ⟨j, hj1, h1, h2⟩ := jumpFront_in_bounds str hnul hbal c.index hf
    rw [hj] at hj1
    cases hj1
    exact ⟨by omega, h2⟩
  · subst hc
    obtain ⟨j, hj1, h1, h2⟩ := jumpBack_in_bounds str hbal c.index hf
    rw [hj] at hj1
    cases hj1
    exact ⟨h1, by omega⟩

theorem step_in_bounds (str : List Char) (hnul : ∀ c ∈ str, c ≠ '\x00')
    (hbal : Balanced str) (c c1 : Config) (hs : step str c = .next c1) :
    0 ≤ c1.index ∧ c1.index ≤ str.length := by
  cases hf : fetch str c.index with
  | none => simp [step, hf] at hs
  | some ch =>
    by_cases h0 : ch = '\x00'
    · unfold step at hs
      rw [hf] at hs
      simp only [if_pos h0] at hs
      cases hv : readData c.data c.pointer with
      | none => rw [hv] at hs; cases hs
      | some v => rw [hv] at hs; cases hs
    · obtain ⟨c0, hd, hc1⟩ := step_next_dispatch str c c1 ch hf hs
      have := dispatch_in_bounds str hnul hbal c c0 ch hf h0 hd
      subst hc1
      simp only
      omega

theorem iter_in_bounds (str : List Char) (hnul : ∀ c ∈ str, c ≠ '\x00')
    (hbal : Balanced str) (n : Nat) : ∀ (c c1 : Config),
    0 ≤ c.index ∧ c.index ≤ str.length → iter str n c = some c1 →
    0 ≤ c1.index ∧ c1.index ≤ str.length := by
  induction n with
  | zero =>
    intro c c1 hc h
    simp only [iter, Option.some.injEq] at h
    subst h; exact hc
  | succ n ih =>
    intro c c1 hc h
    simp only [iter] at h
    cases hs : step str c with
    | next c2 =>
      rw [hs] at h
      exact ih c2 c1 (step_in_bounds str hnul hbal c c2 hs) h
    | halt v => rw [hs] at h; cases h
    | fault f => rw [hs] at h; cases h

theorem fetch_in_bounds (str : List Char) (i : Int) (h0 : 0 ≤ i) (h1 : i ≤ str.length) :
    ∃ ch, fetch str i = some ch := by
  by_cases h : i < str.length
  · have hlt : i.toNat < str.length := by omega
    refine ⟨str[i.toNat], ?_⟩
    unfold fetch
    rw [if_pos ⟨h0, h⟩]
    exact List.getElem?_eq_getElem hlt
  · have : i = str.length := by omega
    rw [this]
    exact ⟨_, fetch_length str⟩

/-- C7: for every program with balanced brackets, in every state that the main
loop of `brainfuck` reaches the program counter lies in `[0, length]`, so the
fetch `str[index]` reads a position of the program or its terminator; and the
`switch`, in particular every call of `jumpFront` and `jumpBack`, leaves the
program counter at a position of the program, in `[0, length)`, the scans
landing strictly after and strictly before the bracket they start from. -/
theorem program_counter_in_bounds (str : List Char) (hnul : ∀ c ∈ str, c ≠ '\x00')
    (hbal : Balanced str) (data : List Int) (n : Nat) (c : Config)
    (hreach : iter str n (initConfig data) = some c) :
    (0 ≤ c.index ∧ c.index ≤ str.length) ∧
    (∃ ch, fetch str c.index = some ch) ∧
    (∀ ch c1, fetch str c.index = some ch → ch ≠ '\x00' → dispatch str ch c = .ok c1 →
      0 ≤ c1.index ∧ c1.index < str.length) ∧
    (fetch str c.index = some '[' →
      ∃ j, jumpFront str c.index = some j ∧ c.index < j ∧ j < str.length) ∧
    (fetch str c.index = some ']' →
      ∃ j, jumpBack str c.index = some j ∧ 0 ≤ j ∧ j < c.index) := by
  have hb := iter_in_bounds str hnul hbal n (initConfig data) c
    ⟨le_refl _, by simp [initConfig]⟩ hreach
  exact ⟨hb, fetch_in_bounds str c.index hb.1 hb.2,
    fun ch c1 hf h0 hd => dispatch_in_bounds str hnul hbal c c1 ch hf h0 hd,
    jumpFront_in_bounds str hnul hbal c.index,
    jumpBack_in_bounds str hbal c.index⟩

set_option maxRecDepth 1000000 in
/-- Witness of C7 in the program of `main`, at the state reached after 19
instructions: the program counter is back inside the loop. -/
theorem program_counter_in_bounds_witness :
    ∃ c, iter "++++[>++++++++++<-]>++".toList 19 (initConfig zeroTape) = some c ∧
      0 ≤ c.index ∧ c.index ≤ "++++[>++++++++++<-]>++".toList.length :=
  ⟨{ index := 5, pointer := 50, data := (zeroTape.set 50 3).set 51 10 }, by decide,
    (program_counter_in_bounds "++++[>++++++++++<-]>++".toList (by decide) (by decide)
      zeroTape 19 { index := 5, pointer := 50, data := (zeroTape.set 50 3).set 51 10 }
      (by decide)).1⟩

/-! ## Scans that find no partner -/

theorem depthScan_append (u v : List Char) : ∀ (d e : Nat), depthScan u d = some e →
    depthScan (u ++ v) d = depthScan v e := by
  induction u with
  | nil =>
    intro d e h
    simp only [depthScan, Option.some.injEq] at h
    subst h; rfl
  | cons y ys ih =>
    intro d e h
    rw [List.cons_append]
    simp only [depthScan] at h ⊢
    split_ifs at h ⊢ with g1 g2
    · exact ih _ _ h
    · match d, h with
      | d1 + 1, h => exact ih _ _ h
    · exact ih _ _ h

theorem depthScan_snoc (u : List Char) (x : Char) (d e : Nat) (h : depthScan u d = some e) :
    depthScan (u ++ [x]) d = depthScan [x] e :=
  depthScan_append u [x] d e h

/-- The forward scan, having passed the text `u` after the opening bracket
with `c` brackets of `u` still open, either runs to the terminator or stops on
a closing bracket that encloses a balanced text. -/
theorem jumpFrontLoop_search (str : List Char) (hnul : ∀ x ∈ str, x ≠ '\x00')
    (pre : List Char) (w : List Char) :
    ∀ (u : List Char) (c fuel : Nat), str = pre ++ '[' :: (u ++ w) → depthScan u 0 = some c →
      w.length + 1 ≤ fuel →
      ∃ r, jumpFrontLoop str fuel ((pre.length + 1 + u.length : Nat) : Int) ((c : Int) + 1)
             = some r ∧
        (r = str.length ∨
          ∃ (u0 post : List Char), str = pre ++ '[' :: (u0 ++ ']' :: post) ∧ Balanced u0 ∧
            r = ((pre.length + 1 + u0.length : Nat) : Int)) := by
  induction w with
  | nil =>
    intro u c fuel hstr _ hfuel
    have hlen : ((pre.length + 1 + u.length : Nat) : Int) = str.length := by
      rw [hstr]; simp; omega
    match fuel, hfuel with
    | f + 1, _ =>
      refine ⟨str.length, ?_, Or.inl rfl⟩
      rw [hlen]
      simp only [jumpFrontLoop, fetch_length, if_true]
  | cons x xs ih =>
    intro u c fuel hstr hu hfuel
    have e1 : str = (pre ++ '[' :: u) ++ x :: xs := by rw [hstr]; simp
    have e2 : str = pre ++ '[' :: ((u ++ [x]) ++ xs) := by rw [hstr]; simp
    have l1 : ((pre.length + 1 + u.length : Nat) : Int) = ((pre ++ '[' :: u).length : Nat) := by
      simp; omega
    have l2 : ((pre.length + 1 + u.length : Nat) : Int) + 1
        = ((pre.length + 1 + (u ++ [x]).length : Nat) : Int) := by
      simp; omega
    have hf : fetch str ((pre.length + 1 + u.length : Nat) : Int) = some x := by
      rw [l1, e1]; exact fetch_append_cons _ _ _
    have hx0 : x ≠ '\x00' := hnul x (by rw [e1]; simp)
    have hsn := depthScan_snoc u x 0 c hu
    match fuel, hfuel with
    | f + 1, hfuel =>
      have hf1 : xs.length + 1 ≤ f := by simp at hfuel; omega
      by_cases g1 : x = '['
      · have hu1 : depthScan (u ++ [x]) 0 = some (c + 1) := by
          rw [hsn]; simp [depthScan, g1]
        obtain ⟨r, hr, hcase⟩ := ih (u ++ [x]) (c + 1) f e2 hu1 hf1
        refine ⟨r, ?_, hcase⟩
        rw [jumpFrontLoop_step str f _ _ x hf hx0 (by rw [if_pos g1]; omega), if_pos g1, l2]
        rw [← hr]; push_cast; rfl
      · by_cases g2 : x = ']'
        · match c, hu, hsn with
          | 0, hu, _ =>
            refine ⟨((pre.length + 1 + u.length : Nat) : Int), ?_, Or.inr ⟨u, xs, ?_, hu, rfl⟩⟩
            · simp only [jumpFrontLoop, hf, if_neg hx0, if_neg g1, if_pos g2]
              simp
            · rw [hstr, g2]
          | c1 + 1, hu, hsn =>
            have hu1 : depthScan (u ++ [x]) 0 = some c1 := by
              rw [hsn]; simp [depthScan, g2]
            obtain ⟨r, hr, hcase⟩ := ih (u ++ [x]) c1 f e2 hu1 hf1
            refine ⟨r, ?_, hcase⟩
            rw [jumpFrontLoop_step str f _ _ x hf hx0
              (by rw [if_neg g1, if_pos g2]; push_cast; omega), if_neg g1, if_pos g2, l2]
            rw [← hr]; push_cast
            have : (c1 : Int) + 1 + 1 - 1 = (c1 : Int) + 1 := by omega
            rw [this]
        · have hu1 : depthScan (u ++ [x]) 0 = some c := by
            rw [hsn]; simp [depthScan, g1, g2]
          obtain ⟨r, hr, hcase⟩ := ih (u ++ [x]) c f e2 hu1 hf1
          refine ⟨r, ?_, hcase⟩
          rw [jumpFrontLoop_step str f _ _ x hf hx0
            (by rw [if_neg g1, if_neg g2]; omega), if_neg g1, if_neg g2, l2]
          exact hr

/-- The backward scan, having passed the text `u` before the closing bracket
with `c` brackets of `u` still to be opened, either runs to index `-1` or
stops on an opening bracket that encloses a balanced text. -/
theorem jumpBackLoop_search (str : List Char) (post : List Char) (pre : List Char) :
    ∀ (u : List Char) (c fuel : Nat), str = pre ++ (u ++ ']' :: post) →
      (∀ d, depthScan u (d + c) = some d) → pre.length + 1 ≤ fuel →
      ∃ r, jumpBackLoop str fuel ((pre.length : Int) - 1) ((c : Int) + 1) = some r ∧
        (r = -1 ∨
          ∃ (pre0 u0 : List Char), str = pre0 ++ '[' :: (u0 ++ ']' :: post) ∧ Balanced u0 ∧
            r = (pre0.length : Int)) := by
  induction pre using List.reverseRecOn with
  | nil =>
    intro u c fuel _ _ hfuel
    match fuel, hfuel with
    | f + 1, _ =>
      refine ⟨-1, ?_, Or.inl rfl⟩
      simp [jumpBackLoop]
  | append_singleton xs x ih =>
    intro u c fuel hstr hu hfuel
    have e1 : str = xs ++ x :: (u ++ ']' :: post) := by rw [hstr]; simp
    have e2 : str = xs ++ ((x :: u) ++ ']' :: post) := by rw [hstr]; simp
    have l1 : (((xs ++ [x]).length : Nat) : Int) - 1 = (xs.length : Int) := by simp
    have hf : fetch str (xs.length : Int) = some x := by
      rw [e1]; exact fetch_append_cons _ _ _
    rw [l1]
    match fuel, hfuel with
    | f + 1, hfuel =>
      have hf1 : xs.length + 1 ≤ f := by simp at hfuel; omega
      by_cases g1 : x = '['
      · match c, hu with
        | 0, hu =>
          refine ⟨(xs.length : Int), ?_, Or.inr ⟨xs, u, ?_, ?_, rfl⟩⟩
          · have hnn : ¬ ((xs.length : Int) < 0) := by omega
            simp only [jumpBackLoop, hf, if_neg hnn, if_pos g1]
            simp
          · rw [e1, g1]
          · exact hu 0
        | c1 + 1, hu =>
          have hu1 : ∀ d, depthScan (x :: u) (d + c1) = some d := by
            intro d
            simp only [depthScan, if_pos g1]
            exact hu d
          obtain ⟨r, hr, hcase⟩ := ih (x :: u) c1 f e2 hu1 hf1
          refine ⟨r, ?_, hcase⟩
          rw [jumpBackLoop_step str f _ _ x (by omega) hf
            (by rw [if_pos g1]; push_cast; omega), if_pos g1]
          rw [← hr]; push_cast
          have : (c1 : Int) + 1 + 1 - 1 = (c1 : Int) + 1 := by omega
          rw [this]
      · by_cases g2 : x = ']'
        · have hu1 : ∀ d, depthScan (x :: u) (d + (c + 1)) = some d := by
            intro d
            simp only [depthScan, if_neg g1, if_pos g2]
            exact hu d
          obtain ⟨r, hr, hcase⟩ := ih (x :: u) (c + 1) f e2 hu1 hf1
          refine ⟨r, ?_, hcase⟩
          rw [jumpBackLoop_step str f _ _ x (by omega) hf
            (by rw [if_neg g1, if_pos g2]; omega), if_neg g1, if_pos g2]
          rw [← hr]; push_cast; rfl
        · have hu1 : ∀ d, depthScan (x :: u) (d + c) = some d := by
            intro d
            simp only [depthScan, if_neg g1, if_neg g2]
            exact hu d
          obtain ⟨r, hr, hcase⟩ := ih (x :: u) c f e2 hu1 hf1
          refine ⟨r, ?_, hcase⟩
          rw [jumpBackLoop_step str f _ _ x (by omega) hf
            (by rw [if_neg g1, if_neg g2]; omega), if_neg g1, if_neg g2]
          exact hr

/-- The forward scan started on an opening bracket without partner stops at
the terminator. -/
theorem jumpFront_unmatched (str : List Char) (hnul : ∀ x ∈ str, x ≠ '\x00') (i : Nat)
    (hi : str[i]? = some '[') (hun : ¬ ∃ j, IsMatch str i j) :
    jumpFront str (i : Int) = some (str.length : Int) := by
  obtain ⟨e1, l1⟩ := split_at str i '[' hi
  have hf := fetch_of_getElem? str i '[' hi
  have e2 : str = str.take i ++ '[' :: ([] ++ str.drop (i + 1)) := by simpa using e1
  have hlen : str.length = i + 1 + (str.drop (i + 1)).length := by
    conv_lhs => rw [e1]
    simp [l1]; omega
  obtain ⟨r, hr, hcase⟩ := jumpFrontLoop_search str hnul (str.take i) (str.drop (i + 1)) [] 0
    str.length e2 rfl (by omega)
  rw [l1] at hr
  simp only [List.length_nil, Nat.add_zero, Nat.cast_zero, Int.zero_add] at hr
  have hjf : jumpFront str (i : Int) = some r := by
    unfold jumpFront
    rw [hf]
    simp only [ne_eq, not_true_eq_false, if_false]
    rw [jumpFrontLoop_step str _ _ _ '[' hf (by decide) (by simp)]
    simp only [if_true]
    rw [← hr]; push_cast; rfl
  rcases hcase with h | ⟨u0, post, hstr, hb, hr0⟩
  · rw [hjf, h]
  · exfalso
    apply hun
    have hm := isMatch_of_split str (str.take i) u0 post hstr hb
    rw [l1] at hm
    exact ⟨_, hm⟩

/-- The backward scan started on a closing bracket without partner stops at
index `-1`. -/
theorem jumpBack_unmatched (str : List Char) (j : Nat)
    (hj : str[j]? = some ']') (hun : ¬ ∃ i, IsMatch str i j) :
    jumpBack str (j : Int) = some (-1) := by
  obtain ⟨e1, l1⟩ := split_at str j ']' hj
  have hf := fetch_of_getElem? str j ']' hj
  have e2 : str = str.take j ++ ([] ++ ']' :: str.drop (j + 1)) := by simpa using e1
  have hlen : j < str.length := by
    by_contra hc
    rw [List.getElem?_eq_none (by omega)] at hj
    cases hj
  obtain ⟨r, hr, hcase⟩ := jumpBackLoop_search str (str.drop (j + 1)) (str.take j) [] 0
    (str.length + 1) e2 (fun d => rfl) (by rw [l1]; omega)
  rw [l1] at hr
  have hjb : jumpBack str (j : Int) = some r := by
    unfold jumpBack
    rw [hf]
    simp only [ne_eq, not_true_eq_false, if_false]
    rw [jumpBackLoop_step str _ _ _ ']' (by omega) hf (by simp)]
    simp only [Char.reduceEq, if_false, if_true]
    rw [← hr]; push_cast; rfl
  rcases hcase with h | ⟨pre0, u0, hstr, hb, hr0⟩
  · rw [hjb, h]
  · exfalso
    apply hun
    have hm := isMatch_of_split str pre0 u0 (str.drop (j + 1)) hstr hb
    have hl : pre0.length + 1 + u0.length = j := by
      have h3 := congrArg List.length (hstr.symm.trans e1)
      simp only [List.length_append, List.length_cons, l1] at h3
      omega
    rw [hl] at hm
    exact ⟨_, hm⟩

theorem step_close_taken (str : List Char) (c : Config) (v i : Int)
    (hf : fetch str c.index = some ']') (hv : readData c.data c.pointer = some v)
    (hz : v ≠ 0) (hj : jumpBack str c.index = some i) :
    step str c = .next { c with index := i + 1 } := by
  unfold step
  rw [hf]
  simp only [Char.reduceEq, if_false, dispatch, hv, hj, ne_eq, hz, not_false_eq_true, if_true]

theorem step_open_taken (str : List Char) (c : Config) (i : Int)
    (hf : fetch str c.index = some '[') (hv : readData c.data c.pointer = some 0)
    (hj : jumpFront str c.index = some i) :
    step str c = .next { c with index := i + 1 } := by
  unfold step
  rw [hf]
  simp only [Char.reduceEq, if_false, dispatch, hv, hj, if_true]

/-! ## The scans always return -/

/-- The forward scan returns an index from its start up to the terminator, from
every position of the program. -/
theorem jumpFront_total (str : List Char) (hnul : ∀ x ∈ str, x ≠ '\x00') (i : Int)
    (h0 : 0 ≤ i) (h1 : i ≤ str.length) :
    ∃ j, jumpFront str i = some j ∧ i ≤ j ∧ j ≤ str.length := by
  obtain ⟨ch, hf⟩ := fetch_in_bounds str i h0 h1
  by_cases hc : ch = '['
  · subst hc
    obtain ⟨_, hlt, hi⟩ := fetch_inside str i '[' hf (by decide)
    obtain ⟨e1, l1⟩ := split_at str i.toNat '[' hi
    have e2 : str = str.take i.toNat ++ '[' :: ([] ++ str.drop (i.toNat + 1)) := by
      simpa using e1
    have hlen : str.length = i.toNat + 1 + (str.drop (i.toNat + 1)).length := by
      conv_lhs => rw [e1]
      simp only [List.length_append, List.length_cons, l1]
      omega
    have hfuel : (str.drop (i.toNat + 1)).length + 1 ≤ str.length := by omega
    have hi2 : ((i.toNat + 1 : Nat) : Int) = i + 1 := by omega
    obtain ⟨r, hr, hcase⟩ := jumpFrontLoop_search str hnul (str.take i.toNat)
      (str.drop (i.toNat + 1)) [] 0 str.length e2 rfl hfuel
    rw [l1] at hr
    simp only [List.length_nil, Nat.add_zero, Nat.cast_zero, Int.zero_add] at hr
    rw [hi2] at hr
    have hjf : jumpFront str i = some r := by
      unfold jumpFront
      rw [hf]
      simp only [ne_eq, not_true_eq_false, if_false]
      rw [jumpFrontLoop_step str _ _ _ '[' hf (by decide) (by simp)]
      simp only [if_true]
      exact hr
    refine ⟨r, hjf, ?_⟩
    rcases hcase with h | ⟨u0, post, hstr, _, hr0⟩
    · omega
    · have h3 := congrArg List.length hstr
      simp only [List.length_append, List.length_cons, l1] at h3
      rw [l1] at hr0
      omega
  · refine ⟨i, ?_, le_refl _, h1⟩
    unfold jumpFront
    rw [hf]
    simp only [ne_eq, hc, not_false_eq_true, if_true]

/-- The backward scan returns an index from `-1` up to its start, from every
position of the program. -/
theorem jumpBack_total (str : List Char) (i : Int) (h0 : 0 ≤ i) (h1 : i ≤ str.length) :
    ∃ j, jumpBack str i = some j ∧ -1 ≤ j ∧ j ≤ i := by
  obtain ⟨ch, hf⟩ := fetch_in_bounds str i h0 h1
  by_cases hc : ch = ']'
  · subst hc
    obtain ⟨_, hlt, hi⟩ := fetch_inside str i ']' hf (by decide)
    obtain ⟨e1, l1⟩ := split_at str i.toNat ']' hi
    have e2 : str = str.take i.toNat ++ ([] ++ ']' :: str.drop (i.toNat + 1)) := by
      simpa using e1
    have hfuel : (str.take i.toNat).length + 1 ≤ str.length + 1 := by rw [l1]; omega
    have hi2 : ((i.toNat : Nat) : Int) = i := by omega
    obtain ⟨r, hr, hcase⟩ := jumpBackLoop_search str (str.drop (i.toNat + 1))
      (str.take i.toNat) [] 0 (str.length + 1) e2 (fun d => rfl) hfuel
    rw [l1] at hr
    rw [hi2] at hr
    have hjb : jumpBack str i = some r := by
      unfold jumpBack
      rw [hf]
      simp only [ne_eq, not_true_eq_false, if_false]
      rw [jumpBackLoop_step str _ _ _ ']' h0 hf (by simp)]
      simp only [Char.reduceEq, if_false, if_true]
      exact hr
    refine ⟨r, hjb, ?_⟩
    rcases hcase with h | ⟨pre0, u0, hstr, _, hr0⟩
    · omega
    · have h3 := congrArg List.length (hstr.symm.trans e1)
      simp only [List.length_append, List.length_cons, l1] at h3
      omega
  · refine ⟨i, ?_, by omega, le_refl _⟩
    unfold jumpBack
    rw [hf]
    simp only [ne_eq, hc, not_false_eq_true, if_true]

/-! ## Unmatched brackets in the main loop -/

/-- C6, as stated, fails: in the program `"["` the jump is taken at the
unmatched `'['` (the cell is zero), no error is raised, and the iteration
leaves the program counter at 2, outside `[0, length] = [0, 1]`; the following
fetch is an out-of-bounds read of the program. -/
theorem unmatched_open_leaves_program :
    "[".toList[0]? = some '[' ∧ (¬ ∃ j, IsMatch "[".toList 0 j) ∧
    readData (initConfig zeroTape).data (initConfig zeroTape).pointer = some 0 ∧
    step "[".toList (initConfig zeroTape)
      = .next { index := 2, pointer := 50, data := zeroTape } ∧
    ¬ ((2 : Int) ≤ ("[".toList.length : Int)) ∧
    ∀ n, brainfuck (n + 2) "[".toList zeroTape = .fault .program := by
  refine ⟨by decide, ?_, by decide, by decide, by decide, fun n => ?_⟩
  · rintro ⟨j, _, _, hj, _⟩
    match j, hj with
    | 0, hj => simp at hj
    | k + 1, hj => simp at hj
  · have h1 : step "[".toList (initConfig zeroTape)
        = .next { index := 2, pointer := 50, data := zeroTape } := by decide
    have h2 : step "[".toList { index := 2, pointer := 50, data := zeroTape }
        = .fault .program := by decide
    unfold brainfuck
    simp only [brainfuckLoop, h1, h2]

/-- C6, amended: `brainfuck` raises no error at an unmatched bracket.  When
`'['` has no matching `']'`, `jumpFront` started on it stops with the index
on the terminator, at `length`.  When `']'` has no matching `'['`, `jumpBack`
started on it stops with the index at `-1`, and the iteration of the main loop
that takes this jump (the cell being nonzero) continues the run at index 0. -/
theorem unmatched_bracket_scans (str : List Char) (hnul : ∀ x ∈ str, x ≠ '\x00') :
    (∀ i : Nat, str[i]? = some '[' → (¬ ∃ j, IsMatch str i j) →
      jumpFront str (i : Int) = some (str.length : Int)) ∧
    (∀ j : Nat, str[j]? = some ']' → (¬ ∃ i, IsMatch str i j) →
      jumpBack str (j : Int) = some (-1) ∧
      ∀ (c : Config) (v : Int), c.index = (j : Int) → readData c.data c.pointer = some v →
        v ≠ 0 → step str c = .next { c with index := 0 }) := by
  refine ⟨fun i hi hun => jumpFront_unmatched str hnul i hi hun, fun j hj hun => ?_⟩
  have hb := jumpBack_unmatched str j hj hun
  refine ⟨hb, fun c v hc hv hz => ?_⟩
  have hf : fetch str c.index = some ']' := by
    rw [hc]; exact fetch_of_getElem? str j ']' hj
  rw [← hc] at hb
  exact step_close_taken str c v (-1) hf hv hz hb

/-- Witness of the amended C6 at the program `"+]"`. -/
theorem unmatched_bracket_scans_witness :
    jumpBack "+]".toList 1 = some (-1) ∧
    step "+]".toList { index := 1, pointer := 50, data := zeroTape.set 50 1 }
      = .next { index := 0, pointer := 50, data := zeroTape.set 50 1 } := by
  have hun : ¬ ∃ i, IsMatch "+]".toList i 1 := by
    rintro ⟨i, hlt, hi, _, _⟩
    match i, hlt, hi with
    | 0, _, hi => simp at hi
  have h := (unmatched_bracket_scans "+]".toList (by decide)).2 1 (by decide) hun
  exact ⟨h.1, h.2 { index := 1, pointer := 50, data := zeroTape.set 50 1 } 1 rfl
    (by decide) (by decide)⟩

/-! ## Successive calls share the static tape -/

theorem brainfuckLoop_returned_unique (str : List Char) (n m : Nat) (c : Config)
    (v1 v2 : Int) (t1 t2 : List Int) (p1 p2 : Int)
    (h1 : brainfuckLoop str n c = .returned v1 t1 p1)
    (h2 : brainfuckLoop str m c = .returned v2 t2 p2) :
    v1 = v2 ∧ t1 = t2 ∧ p1 = p2 := by
  have a := brainfuckLoop_returned_add str n c v1 t1 p1 h1 m
  have b := brainfuckLoop_returned_add str m c v2 t2 p2 h2 n
  rw [Nat.add_comm] at b
  rw [a] at b
  simp only [Outcome.returned.injEq] at b
  exact b

set_option maxRecDepth 100000 in
/-- C5, as stated, fails: the tape is static storage, so the second of two
successive calls `brainfuck("+++")` starts on the tape the first call left and
returns 6, not 3. -/
theorem second_call_returns_6 :
    (brainfuck 4 "+++".toList zeroTape).value? = some 3 ∧
    (secondCall 4 "+++".toList "+++".toList zeroTape).value? = some 6 ∧
    (secondCall 4 "+++".toList "+++".toList zeroTape).value?
      ≠ (brainfuck 4 "+++".toList zeroTape).value? := by
  decide

set_option maxRecDepth 100000 in
/-- C5, amended: a run of `brainfuck` is a function of the program and of the
content of the static tape at the call: two runs on the same program from the
same tape content that return, return the same value, tape and data pointer,
whatever their instruction budgets.  Only the first call of a process starts
from the all-zero tape; a later call starts from the tape left by the call
before it, with the program counter and data pointer set anew, so two
successive calls `brainfuck("+++")` return 3 and then 6. -/
theorem brainfuck_function_of_program_and_tape (str : List Char) (data : List Int)
    (n m : Nat) (v1 v2 : Int) (t1 t2 : List Int) (p1 p2 : Int)
    (h1 : brainfuck n str data = .returned v1 t1 p1)
    (h2 : brainfuck m str data = .returned v2 t2 p2) :
    (v1 = v2 ∧ t1 = t2 ∧ p1 = p2) ∧
    (∀ str2 : List Char, secondCall n str str2 data
      = brainfuckLoop str2 n
          { index := 0, pointer := ((t1.length / 2 : Nat) : Int), data := t1 }) ∧
    ((brainfuck 4 "+++".toList zeroTape).value? = some 3 ∧
      (secondCall 4 "+++".toList "+++".toList zeroTape).value? = some 6) := by
  refine ⟨brainfuckLoop_returned_unique str n m _ v1 v2 t1 t2 p1 p2 h1 h2, fun str2 => ?_,
    by decide⟩
  unfold secondCall
  rw [h1]
  rfl

set_option maxRecDepth 100000 in
/-- Witness of the amended C5 at two successive calls `brainfuck("+++")`. -/
theorem brainfuck_function_of_program_and_tape_witness :
    brainfuck 4 "+++".toList zeroTape = .returned 3 (zeroTape.set 50 3) 50 ∧
    secondCall 4 "+++".toList "+++".toList zeroTape
      = brainfuckLoop "+++".toList 4 { index := 0, pointer := 50, data := zeroTape.set 50 3 } :=
  ⟨by decide,
   (brainfuck_function_of_program_and_tape "+++".toList zeroTape 4 5 3 3
      (zeroTape.set 50 3) (zeroTape.set 50 3) 50 50 (by decide) (by decide)).2.1 "+++".toList⟩

/-! ## The parser -/

theorem seq_done (P : Prog) : P.seq .done = P := by
  induction P with
  | done => rfl
  | op c r ih => simp only [Prog.seq, ih]
  | loop b r _ ihr => simp only [Prog.seq, ihr]

theorem parseRev_flat (P : Prog) : ∀ (rest : List Char) (cur : Prog) (stack : List Prog),
    P.wf → parseRev (P.flat.reverse ++ rest) cur stack = parseRev rest (P.seq cur) stack := by
  induction P with
  | done => intro rest cur stack _; rfl
  | op c r ih =>
    intro rest cur stack hw
    simp only [Prog.wf] at hw
    have e : (Prog.op c r).flat.reverse ++ rest = r.flat.reverse ++ c :: rest := by
      simp [Prog.flat]
    rw [e, ih _ _ _ hw.2.2]
    simp only [parseRev, if_neg hw.2.1, if_neg hw.1, Prog.seq]
  | loop b r ihb ihr =>
    intro rest cur stack hw
    simp only [Prog.wf] at hw
    have e : (Prog.loop b r).flat.reverse ++ rest
        = r.flat.reverse ++ ']' :: (b.flat.reverse ++ '[' :: rest) := by
      simp [Prog.flat]
    rw [e, ihr _ _ _ hw.2]
    simp only [parseRev, if_true]
    rw [ihb _ _ _ hw.1]
    simp only [parseRev, Char.reduceEq, if_false, if_true, seq_done, Prog.seq]

theorem parse_flat (P : Prog) (hw : P.wf) : parse P.flat = some P := by
  have h := parseRev_flat P [] .done [] hw
  rw [List.append_nil, seq_done] at h
  unfold parse
  rw [h]
  rfl

theorem parse_balanced (str : List Char) (hbal : Balanced str) :
    ∃ P : Prog, P.wf ∧ P.flat = str ∧ parse str = some P := by
  obtain ⟨P, hw, hflat⟩ := balanced_decompose str hbal
  exact ⟨P, hw, hflat, by rw [← hflat]; exact parse_flat P hw⟩

/-! ## Single iterations against the structured effects -/

theorem step_op (str : List Char) (i : Int) (m : Machine) (c : Char)
    (hf : fetch str i = some c) (h0 : c ≠ '\x00') (h1 : c ≠ '[') (h2 : c ≠ ']') :
    step str { index := i, pointer := m.pointer, data := m.data }
      = match opEffect c m with
        | some m1 => .next { index := i + 1, pointer := m1.pointer, data := m1.data }
        | none => .fault .tape := by
  by_cases g1 : c = '+'
  · subst g1
    cases hv : readData m.data m.pointer with
    | none => simp [step, hf, dispatch, opEffect, hv]
    | some v =>
      rw [step_plus str _ v hf hv]
      simp [opEffect, hv]
  by_cases g2 : c = '-'
  · subst g2
    cases hv : readData m.data m.pointer with
    | none => simp [step, hf, dispatch, opEffect, hv]
    | some v =>
      rw [step_minus str _ v hf hv]
      simp [opEffect, hv]
  rw [step_plain str _ c hf h0 g1 g2 h1 h2]
  unfold opEffect movePointer
  rw [if_neg g1, if_neg g2]
  by_cases g3 : c = '>'
  · simp [g3]
  · by_cases g4 : c = '<'
    · simp [g4]
    · simp [g3, g4]

theorem step_open (str : List Char) (c : Config) (hf : fetch str c.index = some '[') :
    step str c
      = match readData c.data c.pointer with
        | none => .fault .tape
        | some v =>
          if v = 0 then
            match jumpFront str c.index with
            | none => .fault .program
            | some j => .next { c with index := j + 1 }
          else .next { c with index := c.index + 1 } := by
  unfold step
  rw [hf]
  simp only [Char.reduceEq, if_false, dispatch, if_true]
  cases readData c.data c.pointer with
  | none => rfl
  | some v =>
    simp only
    by_cases hz : v = 0
    · simp only [if_pos hz]
      cases jumpFront str c.index <;> rfl
    · simp only [if_neg hz]

theorem step_close (str : List Char) (c : Config) (hf : fetch str c.index = some ']') :
    step str c
      = match readData c.data c.pointer with
        | none => .fault .tape
        | some v =>
          if v = 0 then .next { c with index := c.index + 1 }
          else
            match jumpBack str c.index with
            | none => .fault .program
            | some j => .next { c with index := j + 1 } := by
  unfold step
  rw [hf]
  simp only [Char.reduceEq, if_false, dispatch, if_true]
  cases readData c.data c.pointer with
  | none => rfl
  | some v =>
    simp only
    by_cases hz : v = 0
    · simp only [hz, ne_eq, not_true_eq_false, if_false, if_true]
    · simp only [ne_eq, hz, not_false_eq_true, if_true, if_false]
      cases jumpBack str c.index <;> rfl

theorem step_loop_open (str : List Char) (hnul : ∀ x ∈ str, x ≠ '\x00') (b : Prog)
    (pre post : List Char) (hw : b.wf) (hstr : str = pre ++ '[' :: (b.flat ++ ']' :: post))
    (p : Int) (d : List Int) :
    step str { index := pre.length, pointer := p, data := d }
      = match readData d p with
        | none => .fault .tape
        | some v =>
          if v = 0 then
            .next { index := ((pre.length + 1 + b.flat.length : Nat) : Int) + 1,
                    pointer := p, data := d }
          else .next { index := (pre.length : Int) + 1, pointer := p, data := d } := by
  have hf : fetch str pre.length = some '[' := by rw [hstr]; exact fetch_append_cons _ _ _
  have hj := jumpFront_loop str hnul b pre post hw hstr
  rw [step_open str _ hf]
  simp only [hj]

theorem step_loop_close (str : List Char) (b : Prog)
    (pre post : List Char) (hw : b.wf) (hstr : str = pre ++ '[' :: (b.flat ++ ']' :: post))
    (p : Int) (d : List Int) :
    step str { index := ((pre.length + 1 + b.flat.length : Nat) : Int), pointer := p, data := d }
      = match readData d p with
        | none => .fault .tape
        | some v =>
          if v = 0 then
            .next { index := ((pre.length + 1 + b.flat.length : Nat) : Int) + 1,
                    pointer := p, data := d }
          else .next { index := (pre.length : Int) + 1, pointer := p, data := d } := by
  have e3 : str = (pre ++ '[' :: b.flat) ++ ']' :: post := by rw [hstr]; simp
  have l3 : ((pre.length + 1 + b.flat.length : Nat) : Int)
      = (((pre ++ '[' :: b.flat).length : Nat) : Int) := by simp; omega
  have hf : fetch str ((pre.length + 1 + b.flat.length : Nat) : Int) = some ']' := by
    rw [l3, e3]; exact fetch_append_cons _ _ _
  have hj := jumpBack_loop str b pre post hw hstr
  rw [step_close str _ hf]
  simp only [hj]

/-! ## The flat loop follows the structured execution -/

theorem iter_trans (str : List Char) (a b : Nat) (c c1 c2 : Config)
    (h1 : iter str a c = some c1) (h2 : iter str b c1 = some c2) :
    iter str (a + b) c = some c2 := by
  rw [iter_add str a b c c1 h1]; exact h2

theorem execProg_add (n : Nat) : ∀ (P : Prog) (m : Machine) (r : Result) (extra : Nat),
    execProg n P m = r → r ≠ .outOfFuel → execProg (n + extra) P m = r := by
  induction n with
  | zero =>
    intro P m r extra h hr
    simp only [execProg] at h
    exact absurd h.symm hr
  | succ n ih =>
    intro P m r extra h hr
    rw [Nat.add_right_comm]
    cases P with
    | done => simpa [execProg] using h
    | op c rest =>
      simp only [execProg] at h ⊢
      cases ho : opEffect c m with
      | none => rw [ho] at h; exact h
      | some m1 =>
        rw [ho] at h
        exact ih rest m1 r extra h hr
    | loop body rest =>
      simp only [execProg] at h ⊢
      cases hv : readData m.data m.pointer with
      | none => rw [hv] at h; exact h
      | some v =>
        rw [hv] at h
        simp only at h ⊢
        by_cases hz : v = 0
        · rw [if_pos hz] at h ⊢
          exact ih rest m r extra h hr
        · rw [if_neg hz] at h ⊢
          cases hb : execProg n body m with
          | done m1 =>
            rw [hb] at h
            rw [ih body m (.done m1) extra hb (by simp)]
            exact ih _ m1 r extra h hr
          | fault =>
            rw [hb] at h
            rw [ih body m .fault extra hb (by simp)]
            exact h
          | outOfFuel =>
            rw [hb] at h
            exact absurd h.symm hr

/-- A structured execution of the part `P` of the program is followed by the
flat loop: to the end of `P` when it ends, to a tape fault when it faults. -/
theorem exec_to_flat (str : List Char) (hnul : ∀ x ∈ str, x ≠ '\x00') (n : Nat) :
    ∀ (P : Prog) (pre post : List Char) (m : Machine), P.wf → str = pre ++ P.flat ++ post →
      (∀ m1, execProg n P m = .done m1 →
        ∃ k, iter str k { index := pre.length, pointer := m.pointer, data := m.data }
          = some { index := ((pre.length + P.flat.length : Nat) : Int),
                   pointer := m1.pointer, data := m1.data }) ∧
      (execProg n P m = .fault →
        ∃ k c, iter str k { index := pre.length, pointer := m.pointer, data := m.data } = some c ∧
          step str c = .fault .tape) := by
  induction n with
  | zero =>
    intro P pre post m _ _
    constructor
    · intro m1 h; simp [execProg] at h
    · intro h; simp [execProg] at h
  | succ n ih =>
    intro P pre post m hw hstr
    cases P with
    | done =>
      constructor
      · intro m1 h
        simp only [execProg, Result.done.injEq] at h
        subst h
        exact ⟨0, by simp [iter, Prog.flat]⟩
      · intro h; simp [execProg] at h
    | op c rest =>
      simp only [Prog.wf] at hw
      have e1 : str = pre ++ c :: (rest.flat ++ post) := by rw [hstr]; simp [Prog.flat]
      have e2 : str = (pre ++ [c]) ++ rest.flat ++ post := by rw [hstr]; simp [Prog.flat]
      have hf : fetch str pre.length = some c := by rw [e1]; exact fetch_append_cons _ _ _
      have hc0 : c ≠ '\x00' := hnul c (by rw [e1]; simp)
      have hs := step_op str pre.length m c hf hc0 hw.1 hw.2.1
      have i1 : (((pre ++ [c]).length : Nat) : Int) = (pre.length : Int) + 1 := by simp
      have i2 : (((pre ++ [c]).length + rest.flat.length : Nat) : Int)
          = ((pre.length + (Prog.op c rest).flat.length : Nat) : Int) := by
        simp [Prog.flat]; omega
      cases ho : opEffect c m with
      | none =>
        rw [ho] at hs
        constructor
        · intro m1 h; simp [execProg, ho] at h
        · intro _; exact ⟨0, _, rfl, hs⟩
      | some m2 =>
        rw [ho] at hs
        simp only at hs
        obtain ⟨ihd, ihf⟩ := ih rest (pre ++ [c]) post m2 hw.2.2 e2
        rw [i1] at ihd ihf
        rw [i2] at ihd
        constructor
        · intro m1 h
          simp only [execProg, ho] at h
          obtain ⟨k, hk⟩ := ihd m1 h
          exact ⟨1 + k, iter_trans str 1 k _ _ _ (iter_one str _ _ hs) hk⟩
        · intro h
          simp only [execProg, ho] at h
          obtain ⟨k, c1, hk, hc1⟩ := ihf h
          exact ⟨1 + k, c1, iter_trans str 1 k _ _ _ (iter_one str _ _ hs) hk, hc1⟩
    | loop body rest =>
      simp only [Prog.wf] at hw
      have e1 : str = pre ++ '[' :: (body.flat ++ ']' :: (rest.flat ++ post)) := by
        rw [hstr]; simp [Prog.flat]
      have e2 : str = (pre ++ ['[']) ++ body.flat ++ (']' :: (rest.flat ++ post)) := by
        rw [hstr]; simp [Prog.flat]
      have e4 : str = (pre ++ '[' :: body.flat ++ [']']) ++ rest.flat ++ post := by
        rw [hstr]; simp [Prog.flat]
      have i1 : (((pre ++ ['[']).length : Nat) : Int) = (pre.length : Int) + 1 := by simp
      have i2 : (((pre ++ ['[']).length + body.flat.length : Nat) : Int)
          = ((pre.length + 1 + body.flat.length : Nat) : Int) := by
        simp
      have i3 : (((pre ++ '[' :: body.flat ++ [']']).length : Nat) : Int)
          = ((pre.length + 1 + body.flat.length : Nat) : Int) + 1 := by simp; omega
      have i4 : (((pre ++ '[' :: body.flat ++ [']']).length + rest.flat.length : Nat) : Int)
          = ((pre.length + (Prog.loop body rest).flat.length : Nat) : Int) := by
        simp [Prog.flat]; omega
      have hso := step_loop_open str hnul body pre (rest.flat ++ post) hw.1 e1
      have hsc := step_loop_close str body pre (rest.flat ++ post) hw.1 e1
      cases hv : readData m.data m.pointer with
      | none =>
        have hs := hso m.pointer m.data
        rw [hv] at hs
        constructor
        · intro m1 h; simp [execProg, hv] at h
        · intro _; exact ⟨0, _, rfl, hs⟩
      | some v =>
        by_cases hz : v = 0
        · -- the loop is skipped
          have hs := hso m.pointer m.data
          rw [hv] at hs
          simp only [if_pos hz] at hs
          obtain ⟨ihd, ihf⟩ := ih rest (pre ++ '[' :: body.flat ++ [']']) post m hw.2 e4
          rw [i3] at ihd ihf
          rw [i4] at ihd
          constructor
          · intro m1 h
            simp only [execProg, hv, if_pos hz] at h
            obtain ⟨k, hk⟩ := ihd m1 h
            exact ⟨1 + k, iter_trans str 1 k _ _ _ (iter_one str _ _ hs) hk⟩
          · intro h
            simp only [execProg, hv, if_pos hz] at h
            obtain ⟨k, c1, hk, hc1⟩ := ihf h
            exact ⟨1 + k, c1, iter_trans str 1 k _ _ _ (iter_one str _ _ hs) hk, hc1⟩
        · -- the body is entered
          have hs := hso m.pointer m.data
          rw [hv] at hs
          simp only [if_neg hz] at hs
          obtain ⟨ibd, ibf⟩ := ih body (pre ++ ['[']) (']' :: (rest.flat ++ post)) m hw.1 e2
          rw [i1] at ibd ibf
          rw [i2] at ibd
          cases hb : execProg n body m with
          | outOfFuel =>
            constructor
            · intro m1 h; simp [execProg, hv, hz, hb] at h
            · intro h; simp [execProg, hv, hz, hb] at h
          | fault =>
            constructor
            · intro m1 h; simp [execProg, hv, hz, hb] at h
            · intro _
              obtain ⟨k, c1, hk, hc1⟩ := ibf hb
              exact ⟨1 + k, c1, iter_trans str 1 k _ _ _ (iter_one str _ _ hs) hk, hc1⟩
          | done m2 =>
            obtain ⟨k1, hk1⟩ := ibd m2 hb
            obtain ⟨ild, ilf⟩ := ih (.loop body rest) pre post m2 ⟨hw.1, hw.2⟩ hstr
            -- the iteration at the closing bracket is the one at the opening bracket
            have hsame :
                step str
                  { index := ((pre.length + 1 + body.flat.length : Nat) : Int),
                    pointer := m2.pointer, data := m2.data }
                = step str { index := pre.length, pointer := m2.pointer, data := m2.data } := by
              rw [hsc, hso]
            constructor
            · intro m1 h
              simp only [execProg, hv, if_neg hz, hb] at h
              obtain ⟨k2, hk2⟩ := ild m1 h
              match k2, hk2 with
              | 0, hk2 =>
                simp only [iter, Option.some.injEq, Config.mk.injEq] at hk2
                have := hk2.1
                simp [Prog.flat] at this
                omega
              | k3 + 1, hk2 =>
                refine ⟨1 + (k1 + (k3 + 1)), iter_trans str 1 _ _ _ _ (iter_one str _ _ hs)
                  (iter_trans str k1 (k3 + 1) _ _ _ hk1 ?_)⟩
                simp only [iter, hsame] at hk2 ⊢
                exact hk2
            · intro h
              simp only [execProg, hv, if_neg hz, hb] at h
              obtain ⟨k2, c1, hk2, hc1⟩ := ilf h
              match k2, hk2 with
              | 0, hk2 =>
                simp only [iter, Option.some.injEq] at hk2
                subst hk2
                rw [← hsame] at hc1
                exact ⟨1 + k1, _, iter_trans str 1 k1 _ _ _ (iter_one str _ _ hs) hk1, hc1⟩
              | k3 + 1, hk2 =>
                refine ⟨1 + (k1 + (k3 + 1)), c1, iter_trans str 1 _ _ _ _ (iter_one str _ _ hs)
                  (iter_trans str k1 (k3 + 1) _ _ _ hk1 ?_), hc1⟩
                simp only [iter, hsame] at hk2 ⊢
                exact hk2

/-! ## The structured execution follows the flat loop -/

theorem brainfuckLoop_succ_of_step (str : List Char) (k : Nat) (c c1 : Config)
    (h : step str c = .next c1) : brainfuckLoop str (k + 1) c = brainfuckLoop str k c1 := by
  simp only [brainfuckLoop, h]

theorem brainfuckLoop_succ_of_fault (str : List Char) (k : Nat) (c : Config) (f : Fault)
    (h : step str c = .fault f) : brainfuckLoop str (k + 1) c = .fault f := by
  simp only [brainfuckLoop, h]

theorem brainfuckLoop_same_step (str : List Char) (k : Nat) (c c1 : Config)
    (h : step str c = step str c1) (hd : c.data = c1.data) (hp : c.pointer = c1.pointer) :
    brainfuckLoop str (k + 1) c = brainfuckLoop str (k + 1) c1 := by
  simp only [brainfuckLoop, h, hd, hp]

/-- A run of the flat loop that ends, started at the first symbol of the part
`P` of the program, contains a structured execution of `P`: either that
execution ends and the run goes on from the end of `P`, or it faults and so
does the run. -/
theorem flat_to_exec (str : List Char) (hnul : ∀ x ∈ str, x ≠ '\x00') (k : Nat) :
    ∀ (P : Prog) (pre post : List Char) (m : Machine) (o : Outcome), P.wf →
      str = pre ++ P.flat ++ post → o ≠ .outOfFuel →
      brainfuckLoop str k { index := pre.length, pointer := m.pointer, data := m.data } = o →
      (∃ n m1 k1, k1 ≤ k ∧ execProg n P m = .done m1 ∧
        brainfuckLoop str k1 { index := ((pre.length + P.flat.length : Nat) : Int),
                               pointer := m1.pointer, data := m1.data } = o) ∨
      (o = .fault .tape ∧ ∃ n, execProg n P m = .fault) := by
  induction k using Nat.strong_induction_on with
  | _ k ih =>
    intro P pre post m o hw hstr ho h
    cases P with
    | done =>
      left
      refine ⟨1, m, k, le_refl _, rfl, ?_⟩
      simpa [Prog.flat] using h
    | op c rest =>
      simp only [Prog.wf] at hw
      have e1 : str = pre ++ c :: (rest.flat ++ post) := by rw [hstr]; simp [Prog.flat]
      have e2 : str = (pre ++ [c]) ++ rest.flat ++ post := by rw [hstr]; simp [Prog.flat]
      have hf : fetch str pre.length = some c := by rw [e1]; exact fetch_append_cons _ _ _
      have hc0 : c ≠ '\x00' := hnul c (by rw [e1]; simp)
      have hs := step_op str pre.length m c hf hc0 hw.1 hw.2.1
      have i1 : (((pre ++ [c]).length : Nat) : Int) = (pre.length : Int) + 1 := by simp
      have i2 : (((pre ++ [c]).length + rest.flat.length : Nat) : Int)
          = ((pre.length + (Prog.op c rest).flat.length : Nat) : Int) := by
        simp [Prog.flat]; omega
      match k, ih, h with
      | 0, _, h => exact absurd h.symm ho
      | k0 + 1, ih, h =>
        cases hop : opEffect c m with
        | none =>
          rw [hop] at hs
          rw [brainfuckLoop_succ_of_fault str k0 _ _ hs] at h
          right
          exact ⟨h.symm, 1, by simp [execProg, hop]⟩
        | some m2 =>
          rw [hop] at hs
          simp only at hs
          rw [brainfuckLoop_succ_of_step str k0 _ _ hs, ← i1] at h
          rcases ih k0 (by omega) rest (pre ++ [c]) post m2 o hw.2.2 e2 ho h with
            ⟨n, m1, k1, hk1, hex, hrun⟩ | ⟨hof, n, hex⟩
          · left
            rw [i2] at hrun
            exact ⟨n + 1, m1, k1, by omega, by simp only [execProg, hop]; exact hex, hrun⟩
          · right
            exact ⟨hof, n + 1, by simp only [execProg, hop]; exact hex⟩
    | loop body rest =>
      simp only [Prog.wf] at hw
      have e1 : str = pre ++ '[' :: (body.flat ++ ']' :: (rest.flat ++ post)) := by
        rw [hstr]; simp [Prog.flat]
      have e2 : str = (pre ++ ['[']) ++ body.flat ++ (']' :: (rest.flat ++ post)) := by
        rw [hstr]; simp [Prog.flat]
      have e4 : str = (pre ++ '[' :: body.flat ++ [']']) ++ rest.flat ++ post := by
        rw [hstr]; simp [Prog.flat]
      have i1 : (((pre ++ ['[']).length : Nat) : Int) = (pre.length : Int) + 1 := by simp
      have i2 : (((pre ++ ['[']).length + body.flat.length : Nat) : Int)
          = ((pre.length + 1 + body.flat.length : Nat) : Int) := by
        simp
      have i3 : (((pre ++ '[' :: body.flat ++ [']']).length : Nat) : Int)
          = ((pre.length + 1 + body.flat.length : Nat) : Int) + 1 := by simp; omega
      have i4 : (((pre ++ '[' :: body.flat ++ [']']).length + rest.flat.length : Nat) : Int)
          = ((pre.length + (Prog.loop body rest).flat.length : Nat) : Int) := by
        simp [Prog.flat]; omega
      have hso := step_loop_open str hnul body pre (rest.flat ++ post) hw.1 e1
      have hsc := step_loop_close str body pre (rest.flat ++ post) hw.1 e1
      match k, ih, h with
      | 0, _, h => exact absurd h.symm ho
      | k0 + 1, ih, h =>
        have hs := hso m.pointer m.data
        cases hv : readData m.data m.pointer with
        | none =>
          rw [hv] at hs
          rw [brainfuckLoop_succ_of_fault str k0 _ _ hs] at h
          right
          exact ⟨h.symm, 1, by simp [execProg, hv]⟩
        | some v =>
          rw [hv] at hs
          by_cases hz : v = 0
          · simp only [if_pos hz] at hs
            rw [brainfuckLoop_succ_of_step str k0 _ _ hs, ← i3] at h
            rcases ih k0 (by omega) rest (pre ++ '[' :: body.flat ++ [']']) post m o hw.2 e4 ho h
              with ⟨n, m1, k1, hk1, hex, hrun⟩ | ⟨hof, n, hex⟩
            · left
              rw [i4] at hrun
              exact ⟨n + 1, m1, k1, by omega,
                by simp only [execProg, hv, if_pos hz]; exact hex, hrun⟩
            · right
              exact ⟨hof, n + 1, by simp only [execProg, hv, if_pos hz]; exact hex⟩
          · simp only [if_neg hz] at hs
            rw [brainfuckLoop_succ_of_step str k0 _ _ hs, ← i1] at h
            rcases ih k0 (by omega) body (pre ++ ['[']) (']' :: (rest.flat ++ post)) m o hw.1 e2
              ho h with ⟨n1, m2, k1, hk1, hex1, hrun1⟩ | ⟨hof, n, hex⟩
            · rw [i2] at hrun1
              match k1, hk1, hrun1 with
              | 0, _, hrun1 => exact absurd hrun1.symm ho
              | k2 + 1, hk1, hrun1 =>
                have hsame :
                    step str
                      { index := ((pre.length + 1 + body.flat.length : Nat) : Int),
                        pointer := m2.pointer, data := m2.data }
                    = step str
                      { index := pre.length, pointer := m2.pointer, data := m2.data } := by
                  rw [hsc, hso]
                rw [brainfuckLoop_same_step str k2 _ _ hsame rfl rfl] at hrun1
                rcases ih (k2 + 1) (by omega) (.loop body rest) pre post m2 o ⟨hw.1, hw.2⟩ hstr
                  ho hrun1 with ⟨n2, m1, k3, hk3, hex2, hrun2⟩ | ⟨hof, n2, hex2⟩
                · left
                  refine ⟨n1 + n2 + 1, m1, k3, by omega, ?_, hrun2⟩
                  simp only [execProg, hv, if_neg hz]
                  rw [execProg_add n1 body m (.done m2) n2 hex1 (by simp)]
                  simp only
                  have := execProg_add n2 (.loop body rest) m2 (.done m1) n1 hex2 (by simp)
                  rw [Nat.add_comm] at this
                  exact this
                · right
                  refine ⟨hof, n1 + n2 + 1, ?_⟩
                  simp only [execProg, hv, if_neg hz]
                  rw [execProg_add n1 body m (.done m2) n2 hex1 (by simp)]
                  simp only
                  have := execProg_add n2 (.loop body rest) m2 .fault n1 hex2 (by simp)
                  rw [Nat.add_comm] at this
                  exact this
            · right
              exact ⟨hof, n + 1, by simp only [execProg, hv, if_neg hz, hex]⟩

/-! ## The refinement -/

theorem brainfuckLoop_at_end (str : List Char) (k : Nat) (c : Config)
    (hi : c.index = str.length) :
    brainfuckLoop str (k + 1) c
      = match readData c.data c.pointer with
        | none => .fault .tape
        | some v => .returned v c.data c.pointer := by
  simp only [brainfuckLoop, step, hi, fetch_length, if_true]
  cases readData c.data c.pointer <;> rfl

/-- C3: for every program with balanced brackets, the flat interpreter loop of
`brainfuck` (dispatch plus `jumpFront`/`jumpBack` on the program counter) and
the structured semantics in which `[ body ]` means "while the current cell is
nonzero, execute body" have the same outcomes: the one ends with a return
value, final tape and data pointer exactly when the other ends with the same
three, and the one leaves the tape exactly when the other does; so the flat
loop terminates exactly when the structured execution terminates. -/
theorem brainfuck_refines_structured (str : List Char) (hnul : ∀ x ∈ str, x ≠ '\x00')
    (hbal : Balanced str) (data : List Int) (o : Outcome) (ho : o ≠ .outOfFuel) :
    (∃ n, brainfuck n str data = o) ↔ (∃ n, structured n str data = o) := by
  obtain ⟨P, hw, hflat, hparse⟩ := parse_balanced str hbal
  have hstr : str = [] ++ P.flat ++ [] := by simp [hflat]
  have hlen : (((([] : List Char).length + P.flat.length : Nat)) : Int) = str.length := by
    simp [hflat]
  constructor
  · rintro ⟨k, hk⟩
    have h0 : brainfuckLoop str k
        { index := (([] : List Char).length : Nat),
          pointer := (Machine.mk data ((data.length / 2 : Nat) : Int)).pointer,
          data := (Machine.mk data ((data.length / 2 : Nat) : Int)).data } = o := hk
    rcases flat_to_exec str hnul k P [] [] ⟨data, ((data.length / 2 : Nat) : Int)⟩ o hw hstr ho h0
      with ⟨n, m1, k1, _, hex, hrun⟩ | ⟨hof, n, hex⟩
    · refine ⟨n, ?_⟩
      match k1, hrun with
      | 0, hrun => exact absurd hrun.symm ho
      | k2 + 1, hrun =>
        rw [brainfuckLoop_at_end str k2 _ hlen] at hrun
        simp only [structured, hparse, hex]
        exact hrun
    · refine ⟨n, ?_⟩
      simp only [structured, hparse, hex]
      exact hof.symm
  · rintro ⟨n, hn⟩
    obtain ⟨hd, hf⟩ := exec_to_flat str hnul n P [] [] ⟨data, ((data.length / 2 : Nat) : Int)⟩
      hw hstr
    simp only [structured, hparse] at hn
    cases hex : execProg n P ⟨data, ((data.length / 2 : Nat) : Int)⟩ with
    | done m1 =>
      rw [hex] at hn
      simp only at hn
      obtain ⟨k, hk⟩ := hd m1 hex
      refine ⟨k + 1, ?_⟩
      unfold brainfuck
      have h1 := brainfuckLoop_iter str k 1 _ _ hk
      have h2 : initConfig data
          = { index := (([] : List Char).length : Nat),
              pointer := (Machine.mk data ((data.length / 2 : Nat) : Int)).pointer,
              data := (Machine.mk data ((data.length / 2 : Nat) : Int)).data } := rfl
      rw [h2, h1, brainfuckLoop_at_end str 0 _ hlen]
      exact hn
    | fault =>
      rw [hex] at hn
      simp only at hn
      obtain ⟨k, c, hk, hc⟩ := hf hex
      refine ⟨k + 1, ?_⟩
      unfold brainfuck
      have h1 := brainfuckLoop_iter str k 1 _ _ hk
      have h2 : initConfig data
          = { index := (([] : List Char).length : Nat),
              pointer := (Machine.mk data ((data.length / 2 : Nat) : Int)).pointer,
              data := (Machine.mk data ((data.length / 2 : Nat) : Int)).data } := rfl
      rw [h2, h1, brainfuckLoop_succ_of_fault str 0 c _ hc]
      exact hn
    | outOfFuel =>
      rw [hex] at hn
      exact absurd hn.symm ho

set_option maxRecDepth 1000000 in
/-- Witness of C3 at the program of `main`: the structured execution also ends
with 42 under the pointer, at cell 51, on the same tape. -/
theorem brainfuck_refines_structured_witness :
    ∃ n, structured n "++++[>++++++++++<-]>++".toList zeroTape
      = .returned 42 ((zeroTape.set 50 0).set 51 42) 51 :=
  (brainfuck_refines_structured "++++[>++++++++++<-]>++".toList (by decide) (by decide)
    zeroTape (.returned 42 ((zeroTape.set 50 0).set 51 42) 51) (by simp)).1 ⟨65, by decide⟩

/-! ## The reference matcher and the scans -/

theorem balanced_append (u w : List Char) (hu : Balanced u) (hw : Balanced w) :
    Balanced (u ++ w) := by
  unfold Balanced at *
  rw [depthScan_append u w 0 0 hu]
  exact hw

theorem balanced_single (c : Char) (h1 : c ≠ '[') (h2 : c ≠ ']') : Balanced [c] := by
  simp [Balanced, depthScan, h1, h2]

theorem balanced_wrap (u : List Char) (hu : Balanced u) : Balanced ('[' :: (u ++ [']'])) := by
  obtain ⟨b, hb, hflat⟩ := balanced_decompose u hu
  have h := balanced_flat (.loop b .done) ⟨hb, trivial⟩
  simpa [Prog.flat, hflat] using h

theorem stackInv_append (w : List Char) (hw : Balanced w) (pre : List Char) (stack : List Nat)
    (h : StackInv pre stack) : StackInv (pre ++ w) stack := by
  match stack, h with
  | [], _ => trivial
  | i :: st, ⟨p, u, hpre, hlen, hu, hrest⟩ =>
    exact ⟨p, u ++ w, by rw [hpre]; simp, hlen, balanced_append u w hu hw, hrest⟩

/-- Every pair the reference matcher reports is a pair of matching brackets. -/
theorem matchScan_sound (str : List Char) (rest : List Char) :
    ∀ (pre : List Char) (stack : List Nat), str = pre ++ rest → StackInv pre stack →
      ∀ i j, (i, j) ∈ matchScan rest pre.length stack → IsMatch str i j := by
  induction rest with
  | nil => intro pre stack _ _ i j h; simp [matchScan] at h
  | cons c cs ih =>
    intro pre stack hstr hinv i j h
    have hstr1 : str = (pre ++ [c]) ++ cs := by rw [hstr]; simp
    have hlen : (pre ++ [c]).length = pre.length + 1 := by simp
    simp only [matchScan] at h
    by_cases g1 : c = '['
    · rw [if_pos g1, ← hlen] at h
      have hinv1 : StackInv (pre ++ [c]) (pre.length :: stack) :=
        ⟨pre, [], by rw [g1], rfl, rfl, hinv⟩
      exact ih (pre ++ [c]) (pre.length :: stack) hstr1 hinv1 i j h
    · rw [if_neg g1] at h
      by_cases g2 : c = ']'
      · rw [if_pos g2] at h
        match stack, hinv, h with
        | [], _, h =>
          simp only at h
          rw [← hlen] at h
          exact ih (pre ++ [c]) [] hstr1 trivial i j h
        | k :: st, ⟨p, u, hpre, hk, hu, hrest⟩, h =>
          simp only [List.mem_cons] at h
          rcases h with h | h
          · simp only [Prod.mk.injEq] at h
            have hs : str = p ++ '[' :: (u ++ ']' :: cs) := by
              rw [hstr, hpre, g2]; simp
            have hm := isMatch_of_split str p u cs hs hu
            have hl : pre.length = p.length + 1 + u.length := by
              rw [hpre]; simp; omega
            rw [h.1, h.2, ← hk, hl]
            exact hm
          · rw [← hlen] at h
            have hinv1 : StackInv (pre ++ [c]) st := by
              have hw := stackInv_append ('[' :: (u ++ [']'])) (balanced_wrap u hu) p st hrest
              have e : pre ++ [c] = p ++ '[' :: (u ++ [']']) := by
                rw [hpre, g2]; simp
              rw [e]; exact hw
            exact ih (pre ++ [c]) st hstr1 hinv1 i j h
      · rw [if_neg g2, ← hlen] at h
        exact ih (pre ++ [c]) stack hstr1
          (stackInv_append [c] (balanced_single c g1 g2) pre stack hinv) i j h

theorem matchPairs_sound (str : List Char) (i j : Nat) (h : (i, j) ∈ matchPairs str) :
    IsMatch str i j :=
  matchScan_sound str str [] [] rfl trivial i j h

/-- The reference matcher passes a balanced text with its stack restored. -/
theorem matchScan_flat (P : Prog) : ∀ (rest : List Char) (pos : Nat) (stack : List Nat),
    P.wf → ∃ X, matchScan (P.flat ++ rest) pos stack
      = X ++ matchScan rest (pos + P.flat.length) stack := by
  induction P with
  | done => intro rest pos stack _; exact ⟨[], by simp [Prog.flat]⟩
  | op c r ih =>
    intro rest pos stack hw
    simp only [Prog.wf] at hw
    obtain ⟨X, hX⟩ := ih rest (pos + 1) stack hw.2.2
    refine ⟨X, ?_⟩
    have e : (Prog.op c r).flat ++ rest = c :: (r.flat ++ rest) := by simp [Prog.flat]
    have l : pos + (Prog.op c r).flat.length = pos + 1 + r.flat.length := by
      simp [Prog.flat]; omega
    rw [e, l]
    simp only [matchScan, if_neg hw.1, if_neg hw.2.1]
    exact hX
  | loop b r ihb ihr =>
    intro rest pos stack hw
    simp only [Prog.wf] at hw
    obtain ⟨X, hX⟩ := ihb (']' :: (r.flat ++ rest)) (pos + 1) (pos :: stack) hw.1
    obtain ⟨Y, hY⟩ := ihr rest (pos + 1 + b.flat.length + 1) stack hw.2
    refine ⟨X ++ (pos, pos + 1 + b.flat.length) :: Y, ?_⟩
    have e : (Prog.loop b r).flat ++ rest = '[' :: (b.flat ++ ']' :: (r.flat ++ rest)) := by
      simp [Prog.flat]
    have l : pos + (Prog.loop b r).flat.length = pos + 1 + b.flat.length + 1 + r.flat.length := by
      simp [Prog.flat]; omega
    rw [e, l]
    simp only [matchScan, if_true]
    rw [hX]
    simp only [matchScan, Char.reduceEq, if_false, if_true]
    rw [hY]
    simp

theorem matchScan_split (a : List Char) : ∀ (b : List Char) (pos : Nat) (stack : List Nat),
    ∃ X s, matchScan (a ++ b) pos stack = X ++ matchScan b (pos + a.length) s := by
  induction a with
  | nil => intro b pos stack; exact ⟨[], stack, by simp⟩
  | cons c cs ih =>
    intro b pos stack
    have l : pos + (c :: cs).length = pos + 1 + cs.length := by simp; omega
    rw [l, List.cons_append]
    simp only [matchScan]
    by_cases g1 : c = '['
    · rw [if_pos g1]; exact ih b (pos + 1) (pos :: stack)
    · rw [if_neg g1]
      by_cases g2 : c = ']'
      · rw [if_pos g2]
        match stack with
        | [] => exact ih b (pos + 1) []
        | k :: st =>
          obtain ⟨X, s, hX⟩ := ih b (pos + 1) st
          exact ⟨(k, pos) :: X, s, by simp only [hX, List.cons_append]⟩
      · rw [if_neg g2]; exact ih b (pos + 1) stack

/-- Every pair of matching brackets is reported by the reference matcher. -/
theorem matchPairs_complete (str : List Char) (i j : Nat) (h : IsMatch str i j) :
    (i, j) ∈ matchPairs str := by
  obtain ⟨pre, w, post, hstr, hl, hj, hw⟩ := isMatch_split str i j h
  obtain ⟨b, hb, hflat⟩ := balanced_decompose w hw
  subst hflat
  obtain ⟨X, s, hX⟩ := matchScan_split pre ('[' :: (b.flat ++ ']' :: post)) 0 []
  obtain ⟨Y, hY⟩ := matchScan_flat b (']' :: post) (0 + pre.length + 1) ((0 + pre.length) :: s) hb
  unfold matchPairs
  rw [hstr, hX]
  simp only [matchScan, if_true]
  rw [hY]
  simp only [matchScan, Char.reduceEq, if_false, if_true]
  have e1 : 0 + pre.length = i := by omega
  have e2 : i + 1 + b.flat.length = j := by omega
  rw [e1, e2]
  simp

theorem jumpFront_other (str : List Char) (i : Int) (c : Char)
    (hf : fetch str i = some c) (hc : c ≠ '[') : jumpFront str i = some i := by
  unfold jumpFront
  rw [hf]
  simp only [ne_eq, hc, not_false_eq_true, if_true]

theorem jumpBack_other (str : List Char) (i : Int) (c : Char)
    (hf : fetch str i = some c) (hc : c ≠ ']') : jumpBack str i = some i := by
  unfold jumpBack
  rw [hf]
  simp only [ne_eq, hc, not_false_eq_true, if_true]

/-- C17: `jumpFront` and `jumpBack` agree with the reference stack-based
bracket matcher.  For every program and every pair `(i, j)` the matcher
reports (a `'['` at `i` with its matching `']'` at `j`), `jumpFront` started at
`i` stops with the index exactly at `j`, on the closing bracket, and `jumpBack`
started at `j` stops with the index exactly at `i`; `jumpFront` leaves the
index unchanged when the symbol at the index is not `'['`, and `jumpBack` when
it is not `']'`. -/
theorem jumps_agree_with_matcher (str : List Char) (hnul : ∀ x ∈ str, x ≠ '\x00') :
    (∀ i j, (i, j) ∈ matchPairs str →
      str[i]? = some '[' ∧ str[j]? = some ']' ∧
      jumpFront str (i : Int) = some (j : Int) ∧ jumpBack str (j : Int) = some (i : Int)) ∧
    (∀ (i : Int) (c : Char), fetch str i = some c → c ≠ '[' → jumpFront str i = some i) ∧
    (∀ (i : Int) (c : Char), fetch str i = some c → c ≠ ']' → jumpBack str i = some i) := by
  refine ⟨fun i j h => ?_, jumpFront_other str, jumpBack_other str⟩
  have hm := matchPairs_sound str i j h
  obtain ⟨pre, w, post, hstr, hl, hj, hw⟩ := isMatch_split str i j hm
  obtain ⟨b, hb, hflat⟩ := balanced_decompose w hw
  subst hflat
  refine ⟨hm.2.1, hm.2.2.1, ?_, ?_⟩
  · rw [← hl, ← hj]
    exact jumpFront_loop str hnul b pre post hb hstr
  · rw [← hl, ← hj]
    exact jumpBack_loop str b pre post hb hstr

/-- Witness of C17 at the loop of the program of `main`. -/
theorem jumps_agree_with_matcher_witness :
    matchPairs "++++[>++++++++++<-]>++".toList = [(4, 18)] ∧
    jumpFront "++++[>++++++++++<-]>++".toList 4 = some 18 ∧
    jumpBack "++++[>++++++++++<-]>++".toList 18 = some 4 :=
  ⟨by decide,
   ((jumps_agree_with_matcher "++++[>++++++++++<-]>++".toList (by decide)).1 4 18
      (by decide)).2.2⟩

theorem jumpBackLoop_range (str : List Char) (fuel : Nat) : ∀ (i count r : Int), -1 ≤ i →
    jumpBackLoop str fuel i count = some r → -1 ≤ r ∧ r ≤ i := by
  induction fuel with
  | zero => intro i count r _ h; simp [jumpBackLoop] at h
  | succ f ih =>
    intro i count r hi h
    simp only [jumpBackLoop] at h
    by_cases hneg : i < 0
    · rw [if_pos hneg] at h
      simp only [Option.some.injEq] at h
      omega
    · rw [if_neg hneg] at h
      cases hf : fetch str i with
      | none => rw [hf] at h; cases h
      | some c =>
        rw [hf] at h
        simp only at h
        split_ifs at h
        all_goals first
          | (simp only [Option.some.injEq] at h; omega)
          | (have hb := ih (i - 1) _ r (by omega) h; omega)

/-- C18: for every program and every position `j` holding a `']'` for which
the reference matcher finds no matching `'['`, `jumpBack` started at `j`
returns with the index equal to exactly `-1` and without a fault: the loop
never takes the index below `-1` (from a start of at least `-1` its result lies
between `-1` and the start), and a read of the program at `-1`, which the
model would report as `none`, does not happen. -/
theorem jumpBack_without_partner (str : List Char) (j : Nat) (hj : str[j]? = some ']')
    (hun : ∀ i, (i, j) ∉ matchPairs str) :
    jumpBack str (j : Int) = some (-1) ∧
    fetch str (-1) = none ∧
    (∀ (fuel : Nat) (i count r : Int), -1 ≤ i → jumpBackLoop str fuel i count = some r →
      -1 ≤ r ∧ r ≤ i) := by
  refine ⟨jumpBack_unmatched str j hj ?_, by simp [fetch], jumpBackLoop_range str⟩
  rintro ⟨i, hm⟩
  exact hun i (matchPairs_complete str i j hm)

/-- Witness of C18 at the program `"+]"`. -/
theorem jumpBack_without_partner_witness : jumpBack "+]".toList 1 = some (-1) := by
  have hp : matchPairs "+]".toList = [] := by decide
  exact (jumpBack_without_partner "+]".toList 1 (by decide)
    (fun i h => by rw [hp] at h; cases h)).1

end BF

namespace Fib

/-! ## `fib` -/

theorem wrap32_fib_step (x y : Int) :
    BF.wrap32 (BF.wrap32 x + BF.wrap32 y) = BF.wrap32 (x + y) := by
  rw [BF.wrap32_wrap32_add, Int.add_comm, BF.wrap32_wrap32_add, Int.add_comm]

/-- The loop with `k` iterations left holds the 32-bit values of two
consecutive Fibonacci numbers. -/
theorem fibLoop_fib (N : Nat) (k : Nat) : ∀ (i fuel : Nat), i + k = N → k + 1 ≤ fuel →
    fibLoop (N : Int) fuel (i : Int) (BF.wrap32 (Nat.fib i)) (BF.wrap32 (Nat.fib (i + 1)))
      = some (BF.wrap32 (Nat.fib N)) := by
  induction k with
  | zero =>
    intro i fuel hi hfuel
    match fuel, hfuel with
    | f + 1, _ =>
      have hiN : i = N := by omega
      subst hiN
      have : ¬ ((i : Int) < (i : Int)) := by omega
      simp only [fibLoop, if_neg this]
  | succ k ih =>
    intro i fuel hi hfuel
    match fuel, hfuel with
    | f + 1, hfuel =>
      have hlt : (i : Int) < (N : Int) := by omega
      simp only [fibLoop, if_pos hlt]
      have h := ih (i + 1) f (by omega) (by omega)
      rw [wrap32_fib_step]
      have e : ((Nat.fib i : Nat) : Int) + ((Nat.fib (i + 1) : Nat) : Int)
          = ((Nat.fib (i + 1 + 1) : Nat) : Int) := by
        rw [Nat.fib_add_two]; push_cast; ring
      rw [e]
      push_cast at h
      exact h

theorem fib_nonneg (N : Nat) : fib (N : Int) = some (BF.wrap32 (Nat.fib N)) := by
  have h := fibLoop_fib N N 0 (N + 1) (by omega) (by omega)
  simpa [fib, BF.wrap32] using h

theorem fib_nonpos (n : Int) (h : n ≤ 0) : fib n = some 0 := by
  have h1 : n.toNat = 0 := by omega
  have h2 : ¬ ((0 : Int) < n) := by omega
  simp only [fib, h1, fibLoop, if_neg h2]

theorem fib_46 : Nat.fib 46 = 1836311903 := by decide

theorem wrap32_small (N : Nat) (h : N ≤ 46) : BF.wrap32 (Nat.fib N) = (Nat.fib N : Int) := by
  have h1 : Nat.fib N ≤ Nat.fib 46 := Nat.fib_mono h
  rw [fib_46] at h1
  unfold BF.wrap32
  omega

/-- C16: for every `n ≥ 0`, `fib(n)` returns the `n`-th Fibonacci number
(`F(0) = 0`, `F(1) = 1`, `F(k+2) = F(k+1) + F(k)`) reduced to 32-bit two's
complement, which is the exact value `F(n)` for every `n ≤ 46`; for every
`n ≤ 0` it returns 0; and `fib(5) = 5`. -/
theorem fib_returns_fibonacci (n : Int) :
    (0 ≤ n → fib n = some (BF.wrap32 (Nat.fib n.toNat))) ∧
    (0 ≤ n → n ≤ 46 → fib n = some (Nat.fib n.toNat : Int)) ∧
    (n ≤ 0 → fib n = some 0) ∧
    fib 5 = some 5 ∧
    (Nat.fib 0 = 0 ∧ Nat.fib 1 = 1 ∧ ∀ k, Nat.fib (k + 2) = Nat.fib (k + 1) + Nat.fib k) := by
  have key : 0 ≤ n → fib n = some (BF.wrap32 (Nat.fib n.toNat)) := by
    intro h0
    have h := fib_nonneg n.toNat
    have e : ((n.toNat : Nat) : Int) = n := by omega
    rw [e] at h
    exact h
  refine ⟨key, fun h0 h1 => ?_, fib_nonpos n, by decide, Nat.fib_zero, Nat.fib_one, fun k => ?_⟩
  · rw [key h0, wrap32_small n.toNat (by omega)]
  · rw [Nat.fib_add_two, Nat.add_comm]

/-- Witness of C16 at `n = 46`, the last argument with an exact result. -/
theorem fib_returns_fibonacci_witness : fib 46 = some 1836311903 := by
  have h := (fib_returns_fibonacci 46).2.1 (by decide) (by decide)
  rw [h]
  have : (46 : Int).toNat = 46 := by decide
  rw [this, fib_46]
  rfl

end Fib

namespace Prime

/-! ## `prime` -/

/-- A number from 2 on with no divisor among the primes below it is a prime. -/
theorem prime_of_no_prime_divisor (i : Nat) (h2 : 2 ≤ i)
    (h : ∀ k, k < Nat.count Nat.Prime i → ¬ Nat.nth Nat.Prime k ∣ i) : Nat.Prime i := by
  by_contra hnp
  have hlt : Nat.minFac i < i := (Nat.not_prime_iff_minFac_lt h2).1 hnp
  have hq : Nat.Prime (Nat.minFac i) := Nat.minFac_prime (by omega)
  have hk := Nat.count_strict_mono hq hlt
  apply h _ hk
  rw [Nat.nth_count hq]
  exact Nat.minFac_dvd i

/-- A prime has no divisor among the primes below it. -/
theorem no_prime_divisor_of_prime (i : Nat) (hp : Nat.Prime i) (k : Nat)
    (hk : k < Nat.count Nat.Prime i) : ¬ Nat.nth Nat.Prime k ∣ i := by
  intro hd
  have hlt := Nat.nth_lt_of_lt_count hk
  have hq := Nat.prime_nth_prime k
  rcases hp.eq_one_or_self_of_dvd _ hd with h1 | h1
  · exact hq.one_lt.ne' h1
  · omega

/-- The inner loop over a table that holds the primes below `i`: it stops at
`nprimes` exactly when no table entry from `j` on divides `i`. -/
theorem trial_spec (primes : List Nat) (nprimes i : Nat)
    (htab : ∀ k, k < nprimes → primes[k]? = some (Nat.nth Nat.Prime k)) (d : Nat) :
    ∀ (j fuel : Nat), j + d = nprimes → d + 1 ≤ fuel →
      ∃ r, trial primes nprimes i fuel j = some r ∧ r ≤ nprimes ∧ j ≤ r ∧
        (∀ k, j ≤ k → k < r → ¬ Nat.nth Nat.Prime k ∣ i) ∧
        (r < nprimes → Nat.nth Nat.Prime r ∣ i) := by
  induction d with
  | zero =>
    intro j fuel hj hfuel
    match fuel, hfuel with
    | f + 1, _ =>
      refine ⟨j, ?_, by omega, le_refl _, fun k h1 h2 => by omega, fun h => by omega⟩
      simp only [trial, if_neg (by omega : ¬ j < nprimes)]
  | succ d ih =>
    intro j fuel hj hfuel
    match fuel, hfuel with
    | f + 1, hfuel =>
      have hlt : j < nprimes := by omega
      have hp := Nat.prime_nth_prime j
      have hp0 : Nat.nth Nat.Prime j ≠ 0 := hp.pos.ne'
      simp only [trial, if_pos hlt, htab j hlt, if_neg hp0]
      by_cases hdiv : i % Nat.nth Nat.Prime j = 0
      · refine ⟨j, ?_, by omega, le_refl _, fun k h1 h2 => by omega,
          fun _ => Nat.dvd_of_mod_eq_zero hdiv⟩
        simp [hdiv]
      · obtain ⟨r, hr, hr1, hr2, hr3, hr4⟩ := ih (j + 1) f (by omega) (by omega)
        refine ⟨r, ?_, hr1, by omega, fun k h1 h2 => ?_, hr4⟩
        · simp only [ne_eq, hdiv, not_false_eq_true, if_true]
          exact hr
        · by_cases hkj : k = j
          · subst hkj
            intro hd
            exact hdiv (Nat.mod_eq_zero_of_dvd hd)
          · exact hr3 k (by omega) h2

theorem primeLoop_returned_add (index : Int) (fuel : Nat) :
    ∀ (primes : List Nat) (nprimes i v extra : Nat),
      primeLoop index fuel primes nprimes i = .returned v →
      primeLoop index (fuel + extra) primes nprimes i = .returned v := by
  induction fuel with
  | zero => intro primes nprimes i v extra h; simp [primeLoop] at h
  | succ f ih =>
    intro primes nprimes i v extra h
    rw [Nat.add_right_comm]
    simp only [primeLoop] at h ⊢
    cases ht : trial primes nprimes i (nprimes + 1) 0 with
    | none => rw [ht] at h; cases h
    | some j =>
      rw [ht] at h
      simp only at h ⊢
      split_ifs at h ⊢ with h1 h2 h3
      · exact ih _ _ _ _ _ h
      · exact h
      · exact ih _ _ _ _ _ h

/-- The outer loop, entered at `i` with the table holding the primes below
`i`, returns the prime number `index`, counted from zero. -/
theorem primeLoop_spec (index : Nat) (d : Nat) :
    ∀ (i fuel : Nat) (primes : List Nat) (nprimes : Nat),
      i + d = Nat.nth Nat.Prime index → d + 1 ≤ fuel → 2 ≤ i →
      index ≤ primes.length → nprimes = Nat.count Nat.Prime i → nprimes ≤ index →
      (∀ k, k < nprimes → primes[k]? = some (Nat.nth Nat.Prime k)) →
      primeLoop (index : Int) fuel primes nprimes i = .returned (Nat.nth Nat.Prime index) := by
  induction d with
  | zero =>
    intro i fuel primes nprimes hi hfuel h2 hlen hcount hle htab
    match fuel, hfuel with
    | f + 1, _ =>
      have hit : i = Nat.nth Nat.Prime index := by omega
      have hpi : Nat.Prime i := by rw [hit]; exact Nat.prime_nth_prime index
      obtain ⟨r, hr, hr1, _, _, hr4⟩ := trial_spec primes nprimes i htab nprimes 0
        (nprimes + 1) (by omega) (by omega)
      have hrn : r = nprimes := by
        by_contra hne
        have hlt : r < nprimes := by omega
        exact no_prime_divisor_of_prime i hpi r (by rw [← hcount]; exact hlt) (hr4 hlt)
      have hnidx : nprimes = index := by
        have h1 : Nat.nth Nat.Prime (Nat.count Nat.Prime i) = i := Nat.nth_count hpi
        rw [← hcount, hit] at h1
        exact (Nat.nth_strictMono Nat.infinite_setOf_prime).injective h1
      simp only [primeLoop, hr]
      simp only [hrn, ne_eq, not_true_eq_false, if_false, hnidx, if_true, hit]
  | succ d ih =>
    intro i fuel primes nprimes hi hfuel h2 hlen hcount hle htab
    match fuel, hfuel with
    | f + 1, hfuel =>
      obtain ⟨r, hr, hr1, _, hr3, hr4⟩ := trial_spec primes nprimes i htab nprimes 0
        (nprimes + 1) (by omega) (by omega)
      have hilt : i < Nat.nth Nat.Prime index := by omega
      by_cases hpi : Nat.Prime i
      · have hrn : r = nprimes := by
          by_contra hne
          have hlt : r < nprimes := by omega
          exact no_prime_divisor_of_prime i hpi r (by rw [← hcount]; exact hlt) (hr4 hlt)
        have hnth : Nat.nth Nat.Prime nprimes = i := by rw [hcount]; exact Nat.nth_count hpi
        have hne : nprimes ≠ index := by
          intro he
          rw [he] at hnth
          omega
        have hne' : ¬ ((nprimes : Int) = (index : Int)) := by omega
        have hc1 : nprimes + 1 = Nat.count Nat.Prime (i + 1) := by
          rw [Nat.count_succ, if_pos hpi, hcount]
        simp only [primeLoop, hr]
        simp only [hrn, ne_eq, not_true_eq_false, if_false, hne',
          if_pos (by omega : nprimes < primes.length)]
        apply ih (i + 1) f _ (nprimes + 1) (by omega) (by omega) (by omega) (by simpa using hlen)
          hc1 (by omega)
        intro k hk
        by_cases hkn : k = nprimes
        · subst hkn
          rw [List.getElem?_set_self (by omega), hnth]
        · rw [List.getElem?_set_ne (by omega)]
          exact htab k (by omega)
      · have hrn : r ≠ nprimes := by
          intro he
          apply hpi
          apply prime_of_no_prime_divisor i h2
          intro k hk
          exact hr3 k (by omega) (by rw [he, hcount]; exact hk)
        have hc1 : nprimes = Nat.count Nat.Prime (i + 1) := by
          rw [Nat.count_succ, if_neg hpi, hcount]; rfl
        simp only [primeLoop, hr]
        simp only [ne_eq, hrn, not_false_eq_true, if_true]
        exact ih (i + 1) f primes nprimes (by omega) (by omega) (by omega) hlen hc1 hle htab

theorem count_prime_three : Nat.count Nat.Prime 3 = 1 := by
  rw [Nat.count_succ, Nat.count_succ, Nat.count_succ, Nat.count_zero]
  have h0 : ¬ Nat.Prime 0 := Nat.not_prime_zero
  have h1 : ¬ Nat.Prime 1 := Nat.not_prime_one
  simp [h0, h1, Nat.prime_two]

theorem prime_pos_index (index : Nat) (h1 : 1 ≤ index) (primes : List Nat)
    (hlen : index ≤ primes.length) (extra : Nat) :
    prime (Nat.nth Nat.Prime index - 2 + extra) (index : Int) primes
      = .returned (Nat.nth Nat.Prime index) := by
  have hmono : Nat.nth Nat.Prime 0 < Nat.nth Nat.Prime index :=
    Nat.nth_strictMono Nat.infinite_setOf_prime (by omega)
  rw [Nat.nth_prime_zero_eq_two] at hmono
  have hidx : ¬ ((index : Int) ≤ 0) := by omega
  unfold prime
  rw [if_neg hidx, if_pos (by omega : 0 < primes.length)]
  apply primeLoop_returned_add
  apply primeLoop_spec index (Nat.nth Nat.Prime index - 3) 3 _ _ 1 (by omega) (by omega)
    (by omega) (by simpa using hlen) count_prime_three.symm h1
  intro k hk
  have hk0 : k = 0 := by omega
  subst hk0
  rw [List.getElem?_set_self (by omega), Nat.nth_prime_zero_eq_two]

theorem hasDivisor_true (n : Nat) (fuel : Nat) : ∀ k, hasDivisor n fuel k = true →
    ∃ d, k ≤ d ∧ d * d ≤ n ∧ d ∣ n := by
  induction fuel with
  | zero => intro k h; simp [hasDivisor] at h
  | succ f ih =>
    intro k h
    simp only [hasDivisor] at h
    split_ifs at h with h1 h2
    · exact ⟨k, le_refl _, by omega, Nat.dvd_of_mod_eq_zero h2⟩
    · obtain ⟨d, hd1, hd2, hd3⟩ := ih (k + 1) h
      exact ⟨d, by omega, hd2, hd3⟩

theorem hasDivisor_false (n : Nat) (fuel : Nat) : ∀ k, hasDivisor n fuel k = false →
    ∀ d, k ≤ d → d < k + fuel → d * d ≤ n → ¬ d ∣ n := by
  induction fuel with
  | zero => intro k _ d h1 h2; omega
  | succ f ih =>
    intro k h d hd1 hd2 hd3
    simp only [hasDivisor] at h
    split_ifs at h with h1 h2
    · have : k * k ≤ d * d := Nat.mul_le_mul hd1 hd1
      omega
    · by_cases hdk : d = k
      · subst hdk
        intro hdvd
        exact h2 (Nat.mod_eq_zero_of_dvd hdvd)
      · exact ih (k + 1) h d (by omega) (by omega) hd3

theorem isPrimeB_iff (n : Nat) : isPrimeB n = true ↔ Nat.Prime n := by
  rw [Nat.prime_def_le_sqrt]
  unfold isPrimeB
  simp only [Bool.and_eq_true, decide_eq_true_eq, Bool.not_eq_true']
  constructor
  · rintro ⟨h2, hnd⟩
    refine ⟨h2, fun m hm hsq => ?_⟩
    have hmm : m * m ≤ n := Nat.le_sqrt.1 hsq
    have hmn : m ≤ n := le_trans (Nat.le_mul_self m) hmm
    exact hasDivisor_false n n 2 hnd m hm (by omega) hmm
  · rintro ⟨h2, hnd⟩
    refine ⟨h2, ?_⟩
    by_contra hc
    have ht : hasDivisor n n 2 = true := by
      cases hh : hasDivisor n n 2
      · exact absurd hh hc
      · rfl
    obtain ⟨d, hd1, hd2, hd3⟩ := hasDivisor_true n n 2 ht
    exact hnd d hd1 (Nat.le_sqrt.2 hd2) hd3

theorem countB_eq_count (n : Nat) : countB n = Nat.count Nat.Prime n := by
  induction n with
  | zero => rfl
  | succ n ih =>
    rw [countB, Nat.count_succ, ih]
    by_cases hp : Nat.Prime n
    · rw [if_pos hp, if_pos ((isPrimeB_iff n).2 hp)]
    · rw [if_neg hp, if_neg (fun h => hp ((isPrimeB_iff n).1 h))]

set_option maxRecDepth 1000000 in
theorem countB_541 : countB 541 = 99 ∧ isPrimeB 541 = true := by decide

/-- The prime number 99, counted from zero, is 541. -/
theorem nth_prime_99 : Nat.nth Nat.Prime 99 = 541 := by
  have hc : Nat.count Nat.Prime 541 = 99 := by rw [← countB_eq_count]; exact countB_541.1
  have hp : Nat.Prime 541 := (isPrimeB_iff 541).1 countB_541.2
  rw [← hc]
  exact Nat.nth_count hp

/-- C11: for every index with `0 ≤ index ≤ 100`, `prime(index)` terminates and
returns the `index`-th prime number counting from zero (`prime(0) = 2`,
`prime(1) = 3`, ..., `prime(99) = 541`), whatever the static table held at
entry and without an access outside its 100 entries; for every `index ≤ 0` it
returns 2. -/
theorem prime_returns_nth_prime (index : Int) (primes : List Nat)
    (hlen : primes.length = 100) :
    (0 ≤ index → index ≤ 100 →
      ∀ extra, prime (Nat.nth Nat.Prime index.toNat - 2 + extra) index primes
        = .returned (Nat.nth Nat.Prime index.toNat)) ∧
    (index ≤ 0 → ∀ fuel, prime fuel index primes = .returned 2) ∧
    (Nat.nth Nat.Prime 0 = 2 ∧ Nat.nth Nat.Prime 1 = 3 ∧ Nat.nth Nat.Prime 99 = 541) ∧
    (prime 0 0 primes = .returned 2 ∧ prime 1 1 primes = .returned 3 ∧
      prime 539 99 primes = .returned 541) := by
  have h99 : Nat.nth Nat.Prime 99 = 541 := nth_prime_99
  have h1 : Nat.nth Nat.Prime 1 = 3 := by
    have hc : Nat.count Nat.Prime 3 = 1 := count_prime_three
    rw [← hc]
    exact Nat.nth_count Nat.prime_three
  have hpos : ∀ (i : Nat), 1 ≤ i → i ≤ 100 → ∀ extra,
      prime (Nat.nth Nat.Prime i - 2 + extra) (i : Int) primes
        = .returned (Nat.nth Nat.Prime i) :=
    fun i hi1 hi2 extra => prime_pos_index i hi1 primes (by omega) extra
  have hneg : ∀ idx : Int, idx ≤ 0 → ∀ fuel, prime fuel idx primes = .returned 2 := by
    intro idx h fuel
    simp only [prime, if_pos h]
  refine ⟨fun h0 h100 extra => ?_, hneg index, ⟨Nat.nth_prime_zero_eq_two, h1, h99⟩,
    hneg 0 (le_refl _) 0, ?_, ?_⟩
  · by_cases hz : index = 0
    · subst hz
      rw [hneg 0 (le_refl _)]
      simp [Nat.nth_prime_zero_eq_two]
    · have e : ((index.toNat : Nat) : Int) = index := by omega
      have h := hpos index.toNat (by omega) (by omega) extra
      rw [e] at h
      exact h
  · have h := hpos 1 (le_refl _) (by omega) 0
    rw [h1] at h
    exact h
  · have h := hpos 99 (by omega) (by omega) 0
    rw [h99] at h
    exact h

/-- Witness of C11 at the call of `main`, `prime(99)`, on the table of a fresh
process. -/
theorem prime_returns_nth_prime_witness : prime 539 99 zeroTable = .returned 541 := by
  have h := (prime_returns_nth_prime 99 zeroTable (by decide)).1 (by decide) (by decide) 0
  have e : (99 : Int).toNat = 99 := by decide
  rw [e, nth_prime_99] at h
  exact h

end Prime

namespace Rpn

/-! ## `calc_rpn` -/

theorem wrap32_eq_sub (a : Int) :
    BF.wrap32 a = a - 4294967296 * ((a + 2147483648) / 4294967296) := by
  unfold BF.wrap32; omega

theorem wrap32_add_mul (a t : Int) : BF.wrap32 (a + 4294967296 * t) = BF.wrap32 a := by
  unfold BF.wrap32
  have : a + 4294967296 * t + 2147483648 = (a + 2147483648) + 4294967296 * t := by ring
  rw [this, Int.add_mul_emod_self_left]

theorem wrap32_add_wrap (a b : Int) :
    BF.wrap32 (BF.wrap32 a + BF.wrap32 b) = BF.wrap32 (a + b) := by
  rw [BF.wrap32_wrap32_add, Int.add_comm, BF.wrap32_wrap32_add, Int.add_comm]

theorem wrap32_sub_wrap (a b : Int) :
    BF.wrap32 (BF.wrap32 a - BF.wrap32 b) = BF.wrap32 (a - b) := by
  rw [wrap32_eq_sub a, wrap32_eq_sub b]
  have : a - 4294967296 * ((a + 2147483648) / 4294967296)
      - (b - 4294967296 * ((b + 2147483648) / 4294967296))
      = (a - b) + 4294967296 * ((b + 2147483648) / 4294967296
          - (a + 2147483648) / 4294967296) := by ring
  rw [this, wrap32_add_mul]

theorem wrap32_mul_wrap (a b : Int) :
    BF.wrap32 (BF.wrap32 a * BF.wrap32 b) = BF.wrap32 (a * b) := by
  rw [wrap32_eq_sub a, wrap32_eq_sub b]
  have : (a - 4294967296 * ((a + 2147483648) / 4294967296))
      * (b - 4294967296 * ((b + 2147483648) / 4294967296))
      = a * b + 4294967296 * (4294967296 * ((a + 2147483648) / 4294967296)
            * ((b + 2147483648) / 4294967296)
          - a * ((b + 2147483648) / 4294967296)
          - b * ((a + 2147483648) / 4294967296)) := by ring
  rw [this, wrap32_add_mul]

theorem readSlot_nat (stack : List Int) (k : Nat) : readSlot stack (k : Int) = stack[k]? := by
  unfold readSlot
  by_cases h : k < stack.length
  · rw [if_pos ⟨by omega, by omega⟩]; rfl
  · rw [if_neg (by omega), List.getElem?_eq_none (by omega)]

theorem writeSlot_nat (stack : List Int) (k : Nat) (v : Int) (h : k < stack.length) :
    writeSlot stack (k : Int) v = some (stack.set k v) := by
  unfold writeSlot
  rw [if_pos ⟨by omega, by omega⟩]; rfl

/-- Blanks are passed over by the loop. -/
theorem calcLoop_filter (src : List Char) : ∀ (stack : List Int) (sp : Int),
    calcLoop (src.filter (fun c => c ≠ ' ')) stack sp = calcLoop src stack sp := by
  induction src with
  | nil => intro stack sp; rfl
  | cons c cs ih =>
    intro stack sp
    by_cases hc : c = ' '
    · subst hc
      have : calcLoop (' ' :: cs) stack sp = calcLoop cs stack sp := by
        simp [calcLoop]
      rw [this, ← ih]
      simp
    · have hf : (c :: cs).filter (fun c => c ≠ ' ') = c :: cs.filter (fun c => c ≠ ' ') := by
        simp [hc]
      rw [hf]
      simp only [calcLoop, ih]

theorem digit_char : ∀ d : Fin 10,
    Char.ofNat (48 + d.val) ≠ '\x00' ∧ '0' ≤ Char.ofNat (48 + d.val) ∧
    Char.ofNat (48 + d.val) ≤ '9' ∧ ((Char.ofNat (48 + d.val)).toNat : Int) - 48 = (d.val : Int) := by
  decide

theorem calcLoop_digit (d : Fin 10) (rest : List Char) (stack : List Int) (k : Nat)
    (hk : k < stack.length) :
    calcLoop (Char.ofNat (48 + d.val) :: rest) stack ((k : Int) - 1)
      = calcLoop rest (stack.set k (d.val : Int)) (k : Int) := by
  obtain ⟨h0, h1, h2, h3⟩ := digit_char d
  have e : (k : Int) - 1 + 1 = (k : Int) := by omega
  simp only [calcLoop, if_neg h0, h1, h2, and_self, if_true, h3, e, writeSlot_nat stack k _ hk]

/-- One of the three operator cases on a stack whose two top slots are `k` and
`k + 1`. -/
theorem binop_top (op : Int → Int → Int) (stack : List Int) (k : Nat) (a b : Int)
    (hk : k + 1 < stack.length) (ha : stack[k]? = some a) (hb : stack[k + 1]? = some b) :
    binop op stack ((k : Int) + 1) = some (stack.set k (BF.wrap32 (op a b)), (k : Int)) := by
  have e1 : (k : Int) + 1 - 1 = (k : Int) := by omega
  have e2 : (k : Int) + 1 = ((k + 1 : Nat) : Int) := by omega
  unfold binop
  rw [e1, readSlot_nat, ha, e2, readSlot_nat, hb]
  simp only
  rw [writeSlot_nat stack k _ (by omega)]

/-- The postfix text of an expression, run with `k` slots in use, leaves the
32-bit value of the expression in slot `k` and the slots below untouched. -/
theorem calcLoop_rpnText (e : Expr) : ∀ (rest : List Char) (stack : List Int) (k : Nat),
    k + e.need ≤ stack.length →
    ∃ stack1, calcLoop (e.rpnText ++ rest) stack ((k : Int) - 1) = calcLoop rest stack1 (k : Int) ∧
      stack1.length = stack.length ∧ stack1[k]? = some (BF.wrap32 e.value) ∧
      ∀ i, i < k → stack1[i]? = stack[i]? := by
  induction e with
  | lit d =>
    intro rest stack k hk
    simp only [Expr.need] at hk
    refine ⟨stack.set k (d.val : Int), ?_, by simp, ?_, fun i hi => ?_⟩
    · exact calcLoop_digit d rest stack k (by omega)
    · rw [List.getElem?_set_self (by omega)]
      have : BF.wrap32 (d.val : Int) = (d.val : Int) := by
        have := d.isLt
        unfold BF.wrap32; omega
      simp [Expr.value, this]
    · rw [List.getElem?_set_ne (by omega)]
  | add a b iha ihb =>
    intro rest stack k hk
    simp only [Expr.need] at hk
    obtain ⟨s1, h1, l1, v1, p1⟩ := iha (b.rpnText ++ ('+' :: rest)) stack k (by omega)
    obtain ⟨s2, h2, l2, v2, p2⟩ := ihb ('+' :: rest) s1 (k + 1) (by omega)
    have hb : b.need ≥ 1 := by cases b <;> simp [Expr.need]
    have e : (Expr.add a b).rpnText ++ rest = a.rpnText ++ (b.rpnText ++ ('+' :: rest)) := by
      simp [Expr.rpnText]
    have e2 : ((k + 1 : Nat) : Int) - 1 = (k : Int) := by omega
    rw [e2] at h2
    have hop := binop_top (fun x y => x + y) s2 k (BF.wrap32 a.value) (BF.wrap32 b.value)
      (by omega) (by rw [p2 k (by omega)]; exact v1) v2
    refine ⟨s2.set k (BF.wrap32 (BF.wrap32 a.value + BF.wrap32 b.value)), ?_, by simp; omega,
      ?_, fun i hi => ?_⟩
    · rw [e, h1, h2]
      have e3 : ((k + 1 : Nat) : Int) = (k : Int) + 1 := by omega
      rw [e3]
      simp only [calcLoop, Char.reduceEq, if_false, hop]
      simp
    · rw [List.getElem?_set_self (by omega), wrap32_add_wrap]; rfl
    · rw [List.getElem?_set_ne (by omega), p2 i (by omega), p1 i hi]
  | sub a b iha ihb =>
    intro rest stack k hk
    simp only [Expr.need] at hk
    obtain ⟨s1, h1, l1, v1, p1⟩ := iha (b.rpnText ++ ('-' :: rest)) stack k (by omega)
    obtain ⟨s2, h2, l2, v2, p2⟩ := ihb ('-' :: rest) s1 (k + 1) (by omega)
    have hb : b.need ≥ 1 := by cases b <;> simp [Expr.need]
    have e : (Expr.sub a b).rpnText ++ rest = a.rpnText ++ (b.rpnText ++ ('-' :: rest)) := by
      simp [Expr.rpnText]
    have e2 : ((k + 1 : Nat) : Int) - 1 = (k : Int) := by omega
    rw [e2] at h2
    have hop := binop_top (fun x y => x - y) s2 k (BF.wrap32 a.value) (BF.wrap32 b.value)
      (by omega) (by rw [p2 k (by omega)]; exact v1) v2
    refine ⟨s2.set k (BF.wrap32 (BF.wrap32 a.value - BF.wrap32 b.value)), ?_, by simp; omega,
      ?_, fun i hi => ?_⟩
    · rw [e, h1, h2]
      have e3 : ((k + 1 : Nat) : Int) = (k : Int) + 1 := by omega
      rw [e3]
      simp only [calcLoop, Char.reduceEq, if_false, hop]
      simp
    · rw [List.getElem?_set_self (by omega), wrap32_sub_wrap]; rfl
    · rw [List.getElem?_set_ne (by omega), p2 i (by omega), p1 i hi]
  | mul a b iha ihb =>
    intro rest stack k hk
    simp only [Expr.need] at hk
    obtain ⟨s1, h1, l1, v1, p1⟩ := iha (b.rpnText ++ ('*' :: rest)) stack k (by omega)
    obtain ⟨s2, h2, l2, v2, p2⟩ := ihb ('*' :: rest) s1 (k + 1) (by omega)
    have hb : b.need ≥ 1 := by cases b <;> simp [Expr.need]
    have e : (Expr.mul a b).rpnText ++ rest = a.rpnText ++ (b.rpnText ++ ('*' :: rest)) := by
      simp [Expr.rpnText]
    have e2 : ((k + 1 : Nat) : Int) - 1 = (k : Int) := by omega
    rw [e2] at h2
    have hop := binop_top (fun x y => x * y) s2 k (BF.wrap32 a.value) (BF.wrap32 b.value)
      (by omega) (by rw [p2 k (by omega)]; exact v1) v2
    refine ⟨s2.set k (BF.wrap32 (BF.wrap32 a.value * BF.wrap32 b.value)), ?_, by simp; omega,
      ?_, fun i hi => ?_⟩
    · rw [e, h1, h2]
      have e3 : ((k + 1 : Nat) : Int) = (k : Int) + 1 := by omega
      rw [e3]
      simp only [calcLoop, Char.reduceEq, if_false, hop]
      simp
    · rw [List.getElem?_set_self (by omega), wrap32_mul_wrap]; rfl
    · rw [List.getElem?_set_ne (by omega), p2 i (by omega), p1 i hi]

theorem calc_rpn_value (e : Expr) (src : List Char) (stack0 : List Int)
    (hlen : stack0.length = 10) (hneed : e.need ≤ 10)
    (hsrc : src.filter (fun c => c ≠ ' ') = e.rpnText) :
    calc_rpn src stack0 = some (BF.wrap32 e.value) := by
  obtain ⟨s1, h1, _, v1, _⟩ := calcLoop_rpnText e [] stack0 0 (by omega)
  unfold calc_rpn
  rw [← calcLoop_filter, hsrc]
  rw [List.append_nil] at h1
  have e0 : ((0 : Nat) : Int) - 1 = -1 := by decide
  rw [e0] at h1
  rw [h1]
  simp only [calcLoop]
  rw [readSlot_nat]
  exact v1

/-- C12: for every arithmetic expression tree over single-digit literals and
the binary operators `+`, `-`, `*` whose postfix evaluation needs at most 10
stack slots, `calc_rpn` applied to its postfix rendering, with blanks anywhere
between the tokens, returns the value of the expression under 32-bit
wraparound arithmetic, whatever the local array held at entry; and
`calc_rpn("3 4 + 2 1 - *") = 7`. -/
theorem calc_rpn_evaluates (e : Expr) (src : List Char) (stack0 : List Int)
    (hlen : stack0.length = 10) (hneed : e.need ≤ 10)
    (hsrc : src.filter (fun c => c ≠ ' ') = e.rpnText) :
    calc_rpn src stack0 = some (BF.wrap32 e.value) ∧
    calc_rpn "3 4 + 2 1 - *".toList stack0 = some 7 := by
  refine ⟨calc_rpn_value e src stack0 hlen hneed hsrc, ?_⟩
  exact calc_rpn_value (.mul (.add (.lit 3) (.lit 4)) (.sub (.lit 2) (.lit 1)))
    "3 4 + 2 1 - *".toList stack0 hlen (by decide) (by decide)

/-- Witness of C12 at an expression whose value leaves the 32-bit range:
eleven factors 9, the product `9^11` reduced to `1316288537`. -/
theorem calc_rpn_evaluates_witness :
    calc_rpn "9 9 * 9 * 9 * 9 * 9 * 9 * 9 * 9 * 9 * 9 *".toList (List.replicate 10 0)
      = some 1316288537 :=
  (calc_rpn_evaluates
    (.mul (.mul (.mul (.mul (.mul (.mul (.mul (.mul (.mul (.mul (.lit 9) (.lit 9)) (.lit 9))
      (.lit 9)) (.lit 9)) (.lit 9)) (.lit 9)) (.lit 9)) (.lit 9)) (.lit 9)) (.lit 9))
    "9 9 * 9 * 9 * 9 * 9 * 9 * 9 * 9 * 9 * 9 *".toList (List.replicate 10 0)
    (by decide) (by decide) (by decide)).1

end Rpn

namespace EditDis

/-! ## `calc_edit_distance` -/

theorem min3_eq_min (a b c : Int) : min3 a b c = min a (min b c) := by
  unfold min3
  split_ifs <;> omega

set_option maxRecDepth 100000 in
/-- C14: `calc_edit_distance` does not return the Levenshtein distance.  For
`str0 = "a"`, `str1 = "b"` it returns 0 where the edit distance is 1: the
comparison `str0[i] == str1[i]` looks at the characters behind the pair under
consideration (here the two terminators), and `dp1[0]` is never set to `i`.
The call of `main` on `"kitten"`, `"sitting"` returns 3, which is the edit
distance of these two words; `min3` is the minimum of its three arguments. -/
theorem calc_edit_distance_not_levenshtein :
    calc_edit_distance "a".toList "b".toList zeroRow zeroRow = some 0 ∧
    levenshtein Levenshtein.defaultCost "a".toList "b".toList = 1 ∧
    calc_edit_distance "".toList "a".toList zeroRow zeroRow = some 0 ∧
    levenshtein Levenshtein.defaultCost "".toList "a".toList = 1 ∧
    calc_edit_distance "kitten".toList "sitting".toList zeroRow zeroRow = some 3 ∧
    levenshtein Levenshtein.defaultCost "kitten".toList "sitting".toList = 3 ∧
    (∀ a b c : Int, min3 a b c = min a (min b c)) := by
  refine ⟨by decide, by decide, by decide, by decide, by decide, by decide, min3_eq_min⟩

end EditDis

namespace Lisp

/-! ## `lisp` -/

set_option maxRecDepth 100000 in
/-- C13: `lisp` does not return the value of every closed well-formed
expression.  The `let` case of `interpret` returns the value of the body
without eating the closing `')'` of the `let`, as the `+` and `-` cases do
with theirs; an operand after a `let` is then read at that `')'`.  For
`(+ (let ((a 1)) a) 2)`, whose value is 3, `lisp` returns 1.  The call of
`main` returns 42, the value of its expression. -/
theorem lisp_let_leaves_paren :
    (Expr.add (.bind 'a' (.digit 1) (.var 'a')) (.digit 2)).text
      = "(+ (let ((a 1)) a) 2)".toList ∧
    (Expr.add (.bind 'a' (.digit 1) (.var 'a')) (.digit 2)).value (fun _ => none) = some 3 ∧
    lisp "(+ (let ((a 1)) a) 2)".toList zeroVars = some 1 ∧
    interpret 10 "(let ((a 1)) a) 2)\x00".toList zeroVars
      = some (1, ") 2)\x00".toList, zeroVars.set 97 1) ∧
    lisp "(let ((a (+ (+ (+ 9 9) (+ 9 9)) 9)))   (- a 3))".toList zeroVars = some 42 := by
  refine ⟨by decide, by decide, by decide, by decide, by decide⟩

end Lisp

namespace Life

/-! ## `step` -/

theorem at_le_one (map : List Nat) (x y : Nat) : at_ map x y ≤ 1 := by
  unfold at_
  rw [Nat.and_one_is_mod]
  omega

theorem indicator_at (map : List Nat) (x y : Nat) :
    (if at_ map x y ≠ 0 then 1 else 0) = at_ map x y := by
  have := at_le_one map x y
  split_ifs <;> omega

theorem count_eq_neighbours (src : List Nat) (x y : Nat) : count src x y = neighbours src x y := by
  unfold count neighbours
  simp only [indicator_at]

/-- The two conditional updates of `res` amount to one update under Conway's
rule. -/
theorem cell_eq (src : List Nat) (y res x : Nat) :
    cell src y res x = bitIf (decide (alive src x y)) res x := by
  have h1 := at_le_one src x y
  unfold cell alive bitIf
  simp only [count_eq_neighbours, decide_eq_true_eq]
  by_cases hp : at_ src x y = 0
  · by_cases h3 : neighbours src x y = 3
    · simp [hp, h3]
    · simp [hp, h3]
  · have hp1 : at_ src x y = 1 := by omega
    by_cases h3 : neighbours src x y = 3
    · simp [hp1, h3]
    · by_cases h2 : neighbours src x y = 2
      · simp [hp1, h2]
      · simp [hp1, h2, h3]

theorem row_eq (src : List Nat) (y : Nat) :
    row src y % 256
      = rowOf (decide (alive src 1 y)) (decide (alive src 2 y)) (decide (alive src 3 y))
          (decide (alive src 4 y)) (decide (alive src 5 y)) (decide (alive src 6 y)) := by
  simp only [row, List.foldl, cell_eq, rowOf]

/-- The bits of a row assembled by the loop over `x`. -/
theorem row_bits : ∀ (b1 b2 b3 b4 b5 b6 : Bool),
    ((rowOf b1 b2 b3 b4 b5 b6 >>> (7 - 1)) &&& 1 = 1 ↔ b1 = true) ∧
    ((rowOf b1 b2 b3 b4 b5 b6 >>> (7 - 2)) &&& 1 = 1 ↔ b2 = true) ∧
    ((rowOf b1 b2 b3 b4 b5 b6 >>> (7 - 3)) &&& 1 = 1 ↔ b3 = true) ∧
    ((rowOf b1 b2 b3 b4 b5 b6 >>> (7 - 4)) &&& 1 = 1 ↔ b4 = true) ∧
    ((rowOf b1 b2 b3 b4 b5 b6 >>> (7 - 5)) &&& 1 = 1 ↔ b5 = true) ∧
    ((rowOf b1 b2 b3 b4 b5 b6 >>> (7 - 6)) &&& 1 = 1 ↔ b6 = true) := by
  decide

/-- The bit of an interior cell in the row written by `step`. -/
theorem row_bit (src : List Nat) (x y : Nat) (hx1 : 1 ≤ x) (hx6 : x ≤ 6) :
    ((row src y % 256) >>> (7 - x)) &&& 1 = 1 ↔ alive src x y := by
  have h := row_bits (decide (alive src 1 y)) (decide (alive src 2 y)) (decide (alive src 3 y))
    (decide (alive src 4 y)) (decide (alive src 5 y)) (decide (alive src 6 y))
  rw [row_eq]
  simp only [decide_eq_true_eq] at h
  interval_cases x
  · exact h.1
  · exact h.2.1
  · exact h.2.2.1
  · exact h.2.2.2.1
  · exact h.2.2.2.2.1
  · exact h.2.2.2.2.2

theorem length_eight (map : List Nat) (h : map.length = 8) :
    ∃ a0 a1 a2 a3 a4 a5 a6 a7, map = [a0, a1, a2, a3, a4, a5, a6, a7] := by
  match map, h with
  | [a0, a1, a2, a3, a4, a5, a6, a7], _ => exact ⟨a0, a1, a2, a3, a4, a5, a6, a7, rfl⟩

/-- The rows of the bitmap after `step`: the first and the last unchanged, the
others computed from the bitmap as it was. -/
theorem step_rows (a0 a1 a2 a3 a4 a5 a6 a7 : Nat) :
    step [a0, a1, a2, a3, a4, a5, a6, a7]
      = [a0, row [a0, a1, a2, a3, a4, a5, a6, a7] 1 % 256,
          row [a0, a1, a2, a3, a4, a5, a6, a7] 2 % 256,
          row [a0, a1, a2, a3, a4, a5, a6, a7] 3 % 256,
          row [a0, a1, a2, a3, a4, a5, a6, a7] 4 % 256,
          row [a0, a1, a2, a3, a4, a5, a6, a7] 5 % 256,
          row [a0, a1, a2, a3, a4, a5, a6, a7] 6 % 256, a7] := by
  rfl

/-- C15: for every 8x8 bitmap and every interior cell `(x, y)` with
`1 ≤ x ≤ 6` and `1 ≤ y ≤ 6`, after `step` the cell is alive exactly when, in
the bitmap as it was before the step, it had exactly 3 live neighbours among
its 8 neighbours, or it was alive and had exactly 2; four steps applied to the
glider of `main` yield the same glider moved one cell right and one cell down,
and `main` returns `0x217`. -/
theorem life_step_rule (map : List Nat) (hlen : map.length = 8) (x y : Nat)
    (hx1 : 1 ≤ x) (hx6 : x ≤ 6) (hy1 : 1 ≤ y) (hy6 : y ≤ 6) :
    (at_ (step map) x y = 1 ↔
      (neighbours map x y = 3 ∨ (at_ map x y = 1 ∧ neighbours map x y = 2))) ∧
    (∀ u, u < 7 → ∀ v, v < 7 → at_ (step4 glider) (u + 1) (v + 1) = at_ glider u v) ∧
    (∀ u, u < 8 → at_ (step4 glider) u 0 = 0 ∧ at_ (step4 glider) 0 u = 0) ∧
    step4 glider = [0x00, 0x00, 0x10, 0x08, 0x38, 0x00, 0x00, 0x00] ∧
    main = 0x217 := by
  refine ⟨?_, by decide, by decide, by decide, by decide⟩
  obtain ⟨a0, a1, a2, a3, a4, a5, a6, a7, rfl⟩ := length_eight map hlen
  have hr := row_bit [a0, a1, a2, a3, a4, a5, a6, a7] x
  rw [step_rows]
  show at_ _ x y = 1 ↔ alive _ x y
  interval_cases y
  · exact hr 1 hx1 hx6
  · exact hr 2 hx1 hx6
  · exact hr 3 hx1 hx6
  · exact hr 4 hx1 hx6
  · exact hr 5 hx1 hx6
  · exact hr 6 hx1 hx6

/-- Witness of C15 at the cell `(3, 2)` of the glider, alive before and
after the first step. -/
theorem life_step_rule_witness :
    at_ (step glider) 3 2 = 1 ∧ at_ glider 3 2 = 1 ∧ neighbours glider 3 2 = 3 :=
  ⟨(life_step_rule glider (by decide) 3 2 (by decide) (by decide) (by decide) (by decide)).1.2
      (Or.inl (by decide)), by decide, by decide⟩

end Life
